import Mathlib

/-!
# Query builder: predicates, cursor paging and the cursor codec

A shallow embedding of the Go package `internal/core/util/querybuilder`
(`condition.go`, `associate.go`, `paging_cursor.go`, `paging_offset.go`,
`paging_encode_decode.go`) and proofs about it.

Conventions of the embedding:

* a Go `string` that is a name (a column, a table, a fragment of a query, the
  key of a map) is a Lean `String`: a sequence of Unicode scalar values, that
  is, a Go string that holds valid UTF-8;
* a Go `any` is a `Value`, which has the strings that do not hold valid UTF-8
  as well (`Value.bytes`);
* a `*Cond` is an address into a `Heap`; an address that is not allocated
  plays the part of the nil pointer, and dereferencing it makes the operation
  return `none` (the Go program panics);
* a `gorm.DB` chain is the list of the operations applied to it (`Tx`);
* a Go `int` is a 64-bit integer in two's complement (the size it has on the
  platforms the service is built for): it is a Lean `Int`, and the result of
  an addition, a subtraction or a multiplication is reduced by `wrapInt`;
* the calls into Go's standard library (`encoding/base64`, `encoding/json`)
  are modelled from the documented behaviour of the library.
-/

namespace querybuilder

/-! ## Values -/

/-- A Go value of type `any`, as far as the package looks at it.

`null` is the nil interface. A number is one of four:

* `num n` is a number whose value is the integer `n` and that Go writes with
  all its digits: a value of an integer kind (`int`, `int64`, `uint64`, ...,
  which lies between `- 2 ^ 63` and `2 ^ 64 - 1`), or a float64 that holds an
  integer of magnitude at most `2 ^ 53`; the Go kind is not recorded;
* `big n` is a float64 that holds the integer `n` of magnitude above
  `2 ^ 53`;
* `frac m e` is the float64 `m / 2 ^ e` that is not an integer (`m` odd,
  `0 < e`);
* `nonFinite` is a float64 that is not finite: NaN or an infinity.

`str s` is a Go string that holds valid UTF-8, the text `s`, and `bytes bs` a
Go string whose bytes `bs` are not valid UTF-8. `arr` is a slice and `obj` a
map with string keys. `unsupported` stands for the values of the kinds
`json.Marshal` rejects (a channel, a function, a complex number). -/
inductive Value where
  | null
  | bool (b : Bool)
  | num (n : Int)
  | big (n : Int)
  | frac (m : Int) (e : Nat)
  | nonFinite
  | str (s : String)
  | bytes (bs : List Nat)
  | arr (xs : List Value)
  | obj (kvs : List (String × Value))
  | unsupported

namespace Value

/-- `value == nil` on an interface value. -/
def isNil : Value → Bool
  | null => true
  | _ => false

/-- `reflect.TypeOf(value).Kind() == reflect.Slice`. -/
def isSlice : Value → Bool
  | arr _ => true
  | _ => false

/-- A string, a number or a boolean. -/
def isLeaf : Value → Bool
  | bool _ => true
  | num _ => true
  | big _ => true
  | frac _ _ => true
  | nonFinite => true
  | str _ => true
  | bytes _ => true
  | _ => false

/-- A string, a boolean or a number that is finite; an integer of an integer
kind lies between `- 2 ^ 63` and `2 ^ 64 - 1`. -/
def isFiniteLeaf : Value → Bool
  | bool _ => true
  | num n => decide (-(2 ^ 63) ≤ n ∧ n < 2 ^ 64)
  | big _ => true
  | frac _ _ => true
  | str _ => true
  | bytes _ => true
  | _ => false

end Value

/-! ## Strings -/

/-- Go's `unicode.IsSpace`: the characters `strings.TrimSpace` removes. -/
def isSpace (c : Char) : Bool :=
  let n := c.toNat
  n == 0x20 || (0x09 ≤ n && n ≤ 0x0D) || n == 0x85 || n == 0xA0 || n == 0x1680 ||
    (0x2000 ≤ n && n ≤ 0x200A) || n == 0x2028 || n == 0x2029 || n == 0x202F ||
    n == 0x205F || n == 0x3000

/-- `isEmptyString`: `strings.TrimSpace(s) == ""`, which holds exactly when
every character of `s` is white space. -/
def isEmptyString (s : String) : Bool :=
  s.toList.all isSpace

/-- `notEmptyString` of `builder.go`. -/
def notEmptyString (s : String) : Bool :=
  !isEmptyString s

/-- `wrapQuery`: the query between one pair of parentheses. -/
def wrapQuery (query : String) : String :=
  "(" ++ query ++ ")"

/-! ## Predicates -/

/-- The struct `Cond`. A nil slice or pointer field is `none`; the nil `order`
is `Value.null`. -/
structure Cond where
  selectField : Option (List String) := none
  omitField : Option (List String) := none
  limit : Option Int := none
  offset : Option Int := none
  query : String := ""
  params : List Value := []
  operator : String := ""
  order : Value := Value.null

/-- `appendSliceWhereIN`. -/
def appendSliceWhereIN (value : Value) (values : List Value) : List Value :=
  match value with
  | Value.null => values
  | Value.arr xs => xs ++ values
  | v => [v] ++ values

/-- `Equal`: "field = value". -/
def Equal (field : String) (value : Value) : Cond :=
  { query := field ++ " = ?", params := [value] }

/-- `NotEqual`: "field <> value". -/
def NotEqual (field : String) (value : Value) : Cond :=
  { query := field ++ " <> ?", params := [value] }

/-- `GreaterThan`: "field > value". -/
def GreaterThan (field : String) (value : Value) : Cond :=
  { query := field ++ " > ?", params := [value] }

/-- `GreaterEqualThan`: "field >= value". -/
def GreaterEqualThan (field : String) (value : Value) : Cond :=
  { query := field ++ " >= ?", params := [value] }

/-- `LessThan`: "field < value". -/
def LessThan (field : String) (value : Value) : Cond :=
  { query := field ++ " < ?", params := [value] }

/-- `LessEqualThan`: "field <= value". -/
def LessEqualThan (field : String) (value : Value) : Cond :=
  { query := field ++ " <= ?", params := [value] }

/-- `In`: "field IN (value...)"; the one bound parameter is the slice built
by `appendSliceWhereIN`. -/
def In (field : String) (value : Value) (values : List Value) : Cond :=
  { query := field ++ " IN (?)", params := [Value.arr (appendSliceWhereIN value values)] }

/-- `NotIn`: "field NOT IN (value...)". -/
def NotIn (field : String) (value : Value) (values : List Value) : Cond :=
  { query := field ++ " NOT IN (?)", params := [Value.arr (appendSliceWhereIN value values)] }

/-- `Like`: "field LIKE value". -/
def Like (field : String) (value : String) : Cond :=
  { query := field ++ " LIKE ?", params := [Value.str value] }

/-- `NotLike`: "field NOT LIKE value". -/
def NotLike (field : String) (value : String) : Cond :=
  { query := field ++ " NOT LIKE ?", params := [Value.str value] }

/-- `IsNull`: "field IS NULL". -/
def IsNull (field : String) : Cond :=
  { query := field ++ " IS NULL", params := [] }

/-- `IsNotNull`: "field IS NOT NULL". -/
def IsNotNull (field : String) : Cond :=
  { query := field ++ " IS NOT NULL", params := [] }

/-- `Between`. -/
def Between (field : String) (lower upper : String) : Cond :=
  { query := field ++ " BETWEEN ? AND ?", params := [Value.str lower, Value.str upper] }

/-- `NotBetween`. -/
def NotBetween (field : String) (lower upper : String) : Cond :=
  { query := field ++ "NOT BETWEEN ? AND ?", params := [Value.str lower, Value.str upper] }

/-- `Raw`: a raw query with its parameters. -/
def Raw (query : String) (params : List Value) : Cond :=
  { query := query, params := params }

/-! ## The heap of predicates -/

/-- The `Cond` objects allocated so far; a `*Cond` is an index into the
list. -/
abbrev Heap := List Cond

/-- `&Cond{...}`: a new object, at the first unused address. -/
def Heap.alloc (h : Heap) (c : Cond) : Heap × Nat :=
  (h ++ [c], h.length)

/-- `Cond.not`, on the receiver's fields. -/
def Cond.not (condition : Cond) : Cond :=
  { condition with query := "NOT(" ++ condition.query ++ ")", operator := "" }

/-- The fields that `appendCondition` copies from a child onto the
receiver. -/
def copyModifiers (condition c : Cond) : Cond :=
  let condition := if c.selectField.isSome then { condition with selectField := c.selectField } else condition
  let condition := if c.omitField.isSome then { condition with omitField := c.omitField } else condition
  let condition := if c.limit.isSome then { condition with limit := c.limit } else condition
  if c.offset.isSome then { condition with offset := c.offset } else condition

/-- The test of `appendCondition` that decides whether a child is wrapped. -/
def needsWrap (appendOperator : String) (c : Cond) : Bool :=
  c.operator != appendOperator && !isEmptyString c.operator

/-- The loop of `appendCondition` over the children. The state is the heap
(a child that is wrapped is written back: `c.query = wrapQuery(c.query)`),
the receiver and the text in the `strings.Builder`. -/
def appendLoop (appendOperator : String) :
    Heap → Cond → String → List Nat → Option (Heap × Cond × String)
  | h, condition, builder, [] => some (h, condition, builder)
  | h, condition, builder, a :: rest =>
    match h[a]? with
    | none => none
    | some c =>
      let condition := copyModifiers condition c
      if !isEmptyString c.query then
        let c := if needsWrap appendOperator c then { c with query := wrapQuery c.query } else c
        let h := h.set a c
        let builder := if 0 < builder.length then builder ++ appendOperator else builder
        let builder := builder ++ c.query
        appendLoop appendOperator h { condition with params := condition.params ++ c.params }
          builder rest
      else
        appendLoop appendOperator h condition builder rest

/-- `Cond.appendCondition`. The receiver is passed and returned by value: the
two callers, `And` and `Or`, call it on an object they have just allocated,
which no child can alias. -/
def appendCondition (h : Heap) (condition : Cond) (appendOperator : String)
    (conditions : List Nat) : Option (Heap × Cond) :=
  let condition :=
    if condition.operator != appendOperator && !isEmptyString condition.operator &&
        !isEmptyString condition.query then
      { condition with query := wrapQuery condition.query }
    else condition
  let builder := condition.query
  let condition := { condition with operator := appendOperator }
  match appendLoop appendOperator h condition builder conditions with
  | none => none
  | some (h, condition, builder) => some (h, { condition with query := builder })

/-- `And`: the new heap and the address of the result. -/
def And (h : Heap) (conditions : List Nat) : Option (Heap × Nat) :=
  match appendCondition h {} " AND " conditions with
  | none => none
  | some (h, object) => some (h.alloc object)

/-- `Or`: the new heap and the address of the result. -/
def Or (h : Heap) (conditions : List Nat) : Option (Heap × Nat) :=
  match appendCondition h {} " OR " conditions with
  | none => none
  | some (h, object) => some (h.alloc object)

/-- `Not`: a copy of the query, parameters and operator of the argument,
negated. -/
def Not (h : Heap) (condition : Nat) : Option (Heap × Nat) :=
  match h[condition]? with
  | none => none
  | some c =>
    some (h.alloc (Cond.not { query := c.query, params := c.params, operator := c.operator }))

/-! ## What the composition is expected to produce -/

/-- What `And`/`Or` append for one child: its query, in parentheses when the
child's operator is set and is not the operator being appended. -/
def childFragment (appendOperator : String) (c : Cond) : String :=
  if needsWrap appendOperator c then wrapQuery c.query else c.query

/-- The children that contribute to the result: those whose query is not
blank. -/
def contributing (cs : List Cond) : List Cond :=
  cs.filter fun c => !isEmptyString c.query

/-- The builder after the fragments `fs` have been appended to `b`. -/
def joinInto (appendOperator : String) (b : String) (fs : List String) : String :=
  fs.foldl (fun b f => (if 0 < b.length then b ++ appendOperator else b) ++ f) b

/-- The children at the addresses `as`, read from the heap. -/
def children (h : Heap) (as : List Nat) : List Cond :=
  as.filterMap fun a => h[a]?


/-- The query of the predicate an `And`, `Or` or `Not` call returned. -/
def fragmentOf (r : Option (Heap × Nat)) : Option String :=
  match r with
  | none => none
  | some (h, a) => (h[a]?).map Cond.query

/-- The parameters of the predicate an `And`, `Or` or `Not` call returned. -/
def paramsOf (r : Option (Heap × Nat)) : Option (List Value) :=
  match r with
  | none => none
  | some (h, a) => (h[a]?).map Cond.params

/-- Three leaves `a`, `b`, `c` at the addresses 0, 1, 2. -/
def leafHeap : Heap :=
  [Raw "a" [Value.num 1], Raw "b" [Value.num 2], Raw "c" [Value.num 3]]

/-! ## Predicate trees and their reading

A predicate built by nested calls of the leaf factories, `And`, `Or` and
`Not` is described by a tree; `PTree.build` performs the calls. The fragment
it renders is read back by `readFragment`, a reader for boolean SQL
conditions with the usual precedence. -/

/-- A predicate expression: a leaf (every leaf factory returns a `Cond` that
has only a query and parameters), or `Not`, `And`, `Or` applied to
sub-expressions. -/
inductive PTree where
  | leaf (query : String) (params : List Value)
  | not (t : PTree)
  | and (ts : List PTree)
  | or (ts : List PTree)

mutual
/-- The calls that build the predicate of a tree, arguments first, from left
to right; every call allocates its result. -/
def PTree.build : PTree → Heap → Option (Heap × Nat)
  | PTree.leaf q ps, h => some (h.alloc (Raw q ps))
  | PTree.not t, h =>
    match PTree.build t h with
    | none => none
    | some (h, a) => Not h a
  | PTree.and ts, h =>
    match PTree.buildAll ts h with
    | none => none
    | some (h, as) => And h as
  | PTree.or ts, h =>
    match PTree.buildAll ts h with
    | none => none
    | some (h, as) => Or h as
/-- The arguments of a call, built from left to right. -/
def PTree.buildAll : List PTree → Heap → Option (Heap × List Nat)
  | [], h => some (h, [])
  | t :: ts, h =>
    match PTree.build t h with
    | none => none
    | some (h, a) =>
      match PTree.buildAll ts h with
      | none => none
      | some (h, as) => some (h, a :: as)
end

/-- A lexeme of a condition: a parenthesis, the keyword AND or OR, or any
other word. -/
inductive Lexeme where
  | lp
  | rp
  | and
  | or
  | word (w : String)

/-- The word read so far, if any, as a lexeme. Keywords are recognised
whatever their case. -/
def flushWord (cur : List Char) : List Lexeme :=
  if cur.isEmpty then []
  else if cur.map Char.toUpper = ['A', 'N', 'D'] then [Lexeme.and]
  else if cur.map Char.toUpper = ['O', 'R'] then [Lexeme.or]
  else [Lexeme.word (String.mk cur)]

/-- The lexemes of a text: white space separates words, a parenthesis is a
lexeme of its own. `cur` is the word being read. -/
def lexemes : List Char → List Char → List Lexeme
  | [], cur => flushWord cur
  | c :: cs, cur =>
    if c = '(' then flushWord cur ++ Lexeme.lp :: lexemes cs []
    else if c = ')' then flushWord cur ++ Lexeme.rp :: lexemes cs []
    else if isSpace c then flushWord cur ++ lexemes cs []
    else lexemes cs (cur ++ [c])

/-- A token of a condition: an opening parenthesis (`negated` when the word
NOT stands right before it), a closing parenthesis, AND, OR, or an atomic
condition, given by its words. -/
inductive Tok where
  | opening (negated : Bool)
  | closing
  | and
  | or
  | atom (ws : List String)

/-- The run of words read so far, if any, as an atomic condition. -/
def flushRun (run : List String) : List Tok :=
  if run.isEmpty then [] else [Tok.atom run]

/-- Whether the run of words is the single word NOT. -/
def isNotKeyword (run : List String) : Bool :=
  match run with
  | [w] => w.toList.map Char.toUpper = ['N', 'O', 'T']
  | _ => false

/-- Lexemes to tokens: a maximal run of words is one atomic condition. -/
def group : List Lexeme → List String → List Tok
  | [], run => flushRun run
  | Lexeme.word w :: ls, run => group ls (run ++ [w])
  | Lexeme.lp :: ls, run =>
    if isNotKeyword run then Tok.opening true :: group ls []
    else flushRun run ++ Tok.opening false :: group ls []
  | Lexeme.rp :: ls, run => flushRun run ++ Tok.closing :: group ls []
  | Lexeme.and :: ls, run => flushRun run ++ Tok.and :: group ls []
  | Lexeme.or :: ls, run => flushRun run ++ Tok.or :: group ls []

/-- The tokens of a fragment. -/
def tokens (q : String) : List Tok :=
  group (lexemes q.toList []) []

/-- The words of a fragment, as they identify an atomic condition. -/
def atomWords (q : String) : List String :=
  match tokens q with
  | [Tok.atom ws] => ws
  | _ => []

/-- A fragment is atomic when it has at least one word and each of its
lexemes is a word: no parenthesis, no AND, no OR. -/
def atomicFragment (q : String) : Bool :=
  let ls := lexemes q.toList []
  !ls.isEmpty && ls.all fun l => match l with
    | Lexeme.word _ => true
    | _ => false

/-- One parenthesis level of the reader: the disjunction of the conjunctions
completed so far, the conjunction in progress, and whether the level is
negated. -/
structure Level where
  ors : Bool
  ands : Bool
  negated : Bool

/-- The value of a completed level. -/
def Level.value (l : Level) : Bool :=
  let v := l.ors || l.ands
  if l.negated then !v else v

/-- The state of the reader: the open levels, innermost first, whether an
operand (rather than an operator or a closing parenthesis) is expected, and
the number of atomic conditions read so far. -/
structure Reader where
  levels : List Level
  operand : Bool
  atoms : Nat

/-- One token read. A truth assignment `ρ` gives a truth value to every
atomic condition, identified by its position among the atomic conditions of
the text, counted from the left and from 0, and its words. AND binds tighter
than OR: an operand joins the conjunction in progress, OR closes that
conjunction and starts a new one; a parenthesis opens a level, whose value is
an operand of the level below. -/
def Reader.step (ρ : Nat → List String → Bool) (r : Reader) (t : Tok) : Option Reader :=
  match t, r.operand, r.levels with
  | Tok.atom ws, true, l :: ls =>
    some ⟨{ l with ands := l.ands && ρ r.atoms ws } :: ls, false, r.atoms + 1⟩
  | Tok.opening n, true, ls =>
    some ⟨{ ors := false, ands := true, negated := n } :: ls, true, r.atoms⟩
  | Tok.closing, false, l :: p :: ls =>
    some ⟨{ p with ands := p.ands && l.value } :: ls, false, r.atoms⟩
  | Tok.and, false, ls => some ⟨ls, true, r.atoms⟩
  | Tok.or, false, l :: ls =>
    some ⟨{ l with ors := l.ors || l.ands, ands := true } :: ls, true, r.atoms⟩
  | _, _, _ => none

/-- The tokens read from a state; the reading succeeds when it ends after an
operand with only the outermost level open. -/
def Reader.run (ρ : Nat → List String → Bool) : List Tok → Reader → Option Bool
  | [], r =>
    match r.operand, r.levels with
    | false, [l] => some l.value
    | _, _ => none
  | t :: ts, r =>
    match r.step ρ t with
    | none => none
    | some r => Reader.run ρ ts r

/-- The truth value of a fragment read as a boolean SQL condition under a
truth assignment `ρ` to its atomic conditions, each identified by its
position and its words: parentheses first, AND before OR; `none` when the
text is not a well-formed condition. -/
def readFragmentAt (ρ : Nat → List String → Bool) (q : String) : Option Bool :=
  Reader.run ρ (tokens q)
    { levels := [{ ors := false, ands := true, negated := false }], operand := true, atoms := 0 }

/-- The truth value of a fragment under a truth assignment that looks at the
words of an atomic condition only. -/
def readFragment (ρ : List String → Bool) (q : String) : Option Bool :=
  readFragmentAt (fun _ ws => ρ ws) q

mutual
/-- The number of leaves of a tree. -/
def PTree.leaves : PTree → Nat
  | PTree.leaf _ _ => 1
  | PTree.not t => PTree.leaves t
  | PTree.and ts => PTree.leavesAll ts
  | PTree.or ts => PTree.leavesAll ts
/-- The number of leaves of a list of trees. -/
def PTree.leavesAll : List PTree → Nat
  | [] => 0
  | t :: ts => PTree.leaves t + PTree.leavesAll ts
end

mutual
/-- The truth value of a predicate tree under a truth assignment `ρ` to its
leaves. A leaf is identified by its position among the leaves, counted from
the left, the first leaf of the tree having the number `i`; `ρ` is given the
words of the leaf as well, and is free to ignore them: two leaves with the
same text are two leaves. -/
def PTree.eval (ρ : Nat → List String → Bool) : PTree → Nat → Bool
  | PTree.leaf q _, i => ρ i (atomWords q)
  | PTree.not t, i => !(PTree.eval ρ t i)
  | PTree.and ts, i => PTree.evalAll ρ ts i
  | PTree.or ts, i => PTree.evalAny ρ ts i
/-- The conjunction of the values of trees. -/
def PTree.evalAll (ρ : Nat → List String → Bool) : List PTree → Nat → Bool
  | [], _ => true
  | t :: ts, i => PTree.eval ρ t i && PTree.evalAll ρ ts (i + PTree.leaves t)
/-- The disjunction of the values of trees. -/
def PTree.evalAny (ρ : Nat → List String → Bool) : List PTree → Nat → Bool
  | [], _ => false
  | t :: ts, i => PTree.eval ρ t i || PTree.evalAny ρ ts (i + PTree.leaves t)
end

mutual
/-- A tree is well formed when every leaf has an atomic fragment and every
`And` and `Or` has at least one child. -/
def PTree.wellFormed : PTree → Bool
  | PTree.leaf q _ => atomicFragment q
  | PTree.not t => PTree.wellFormed t
  | PTree.and ts => !ts.isEmpty && PTree.wellFormedAll ts
  | PTree.or ts => !ts.isEmpty && PTree.wellFormedAll ts
/-- Every tree of the list is well formed. -/
def PTree.wellFormedAll : List PTree → Bool
  | [] => true
  | t :: ts => PTree.wellFormed t && PTree.wellFormedAll ts
end

/-- The tokens `ts`, which hold `n` atomic conditions, read as an operand of a
conjunction: wherever an operand is expected, reading them joins the value
`v i` to the conjunction in progress, `i` being the number of atomic
conditions read before. -/
def FactorLike (ρ : Nat → List String → Bool) (ts : List Tok) (n : Nat) (v : Nat → Bool) :
    Prop :=
  ∀ (i : Nat) (l : Level) (ls : List Level) (rest : List Tok),
    Reader.run ρ (ts ++ rest) { levels := l :: ls, operand := true, atoms := i } =
      Reader.run ρ rest
        { levels := { l with ands := l.ands && v i } :: ls, operand := false, atoms := i + n }

/-- The tokens `ts`, which hold `n` atomic conditions, read as a disjunction:
at the start of a conjunction, reading them adds the value `v i` to the
disjunction of the level. -/
def OrLike (ρ : Nat → List String → Bool) (ts : List Tok) (n : Nat) (v : Nat → Bool) : Prop :=
  ∀ (i : Nat) (ors neg : Bool) (ls : List Level) (rest : List Tok),
    ∃ l : Level, l.negated = neg ∧ (l.ors || l.ands) = (ors || v i) ∧
      Reader.run ρ (ts ++ rest)
          { levels := { ors := ors, ands := true, negated := neg } :: ls, operand := true,
            atoms := i } =
        Reader.run ρ rest { levels := l :: ls, operand := false, atoms := i + n }

/-- What the construction of a tree guarantees of the predicate it returns:
the operator is unset, AND or OR, and the query reads as the tree, as an
operand of a conjunction unless the operator is OR. -/
def Renders (ρ : Nat → List String → Bool) (t : PTree) (c : Cond) : Prop :=
  tokens c.query ≠ [] ∧
    (((c.operator = "" ∨ c.operator = " AND ") ∧
        FactorLike ρ (tokens c.query) (PTree.leaves t) (PTree.eval ρ t)) ∨
      (c.operator = " OR " ∧ OrLike ρ (tokens c.query) (PTree.leaves t) (PTree.eval ρ t)))

/-- The tree of `And(x = ?, Not(x = ?))`, whose two leaves have the same
text. -/
def sameTextTree : PTree :=
  PTree.and [PTree.leaf "x = ?" [Value.num 1], PTree.not (PTree.leaf "x = ?" [Value.num 2])]

/-- The tree of `And(x = ?, Or(y IS NOT NULL, Not(And(z < ?, w LIKE ?))))`. -/
def sampleTree : PTree :=
  PTree.and [PTree.leaf "x = ?" [Value.num 1],
    PTree.or [PTree.leaf "y IS NOT NULL" [],
      PTree.not (PTree.and [PTree.leaf "z < ?" [Value.num 2], PTree.leaf "w LIKE ?" [Value.str "a"]])]]

/-! ## Bytes: UTF-8 and base64

`encodeCursor` and `decodeCursor` call Go's standard library, which is not
part of the repository: `encoding/base64`, `encoding/json` and, through
them, `unicode/utf8` and `strconv`. This section and the next three model
what these calls do, from the documented behaviour of the library.

The JSON text of a cursor is a sequence of characters; it becomes bytes by
UTF-8 and a string again by base64. A byte is a natural number below 256. -/

/-- The UTF-8 encoding of a character. -/
def utf8EncodeChar (c : Char) : List Nat :=
  let n := c.toNat
  if n < 0x80 then [n]
  else if n < 0x800 then [0xC0 + n / 64, 0x80 + n % 64]
  else if n < 0x10000 then [0xE0 + n / 4096, 0x80 + n / 64 % 64, 0x80 + n % 64]
  else [0xF0 + n / 262144, 0x80 + n / 4096 % 64, 0x80 + n / 64 % 64, 0x80 + n % 64]

/-- The UTF-8 encoding of a text. -/
def utf8Encode : List Char → List Nat
  | [] => []
  | c :: cs => utf8EncodeChar c ++ utf8Encode cs

/-- A continuation byte, `10xxxxxx`. -/
def isCont (b : Nat) : Bool :=
  0x80 ≤ b && b < 0xC0

/-- The replacement character U+FFFD, `utf8.RuneError`. -/
def runeError : Char := Char.ofNat 0xFFFD

/-- Go's `utf8.DecodeRune` at the head of a byte sequence that starts with
`b0`: the character and the number of bytes it takes. A well-formed encoding
gives its character; anything else gives U+FFFD and takes one byte. -/
def decodeRune (b0 : Nat) (rest : List Nat) : Char × Nat :=
  if b0 < 0x80 then (Char.ofNat b0, 1)
  else if 0xC2 ≤ b0 ∧ b0 < 0xE0 then
    match rest with
    | b1 :: _ =>
      if isCont b1 then (Char.ofNat ((b0 - 0xC0) * 64 + (b1 - 0x80)), 2) else (runeError, 1)
    | [] => (runeError, 1)
  else if 0xE0 ≤ b0 ∧ b0 < 0xF0 then
    match rest with
    | b1 :: b2 :: _ =>
      if (if b0 = 0xE0 then 0xA0 else 0x80) ≤ b1 ∧ b1 < (if b0 = 0xED then 0xA0 else 0xC0) ∧
          isCont b2 then
        (Char.ofNat ((b0 - 0xE0) * 4096 + (b1 - 0x80) * 64 + (b2 - 0x80)), 3)
      else (runeError, 1)
    | _ => (runeError, 1)
  else if 0xF0 ≤ b0 ∧ b0 < 0xF5 then
    match rest with
    | b1 :: b2 :: b3 :: _ =>
      if (if b0 = 0xF0 then 0x90 else 0x80) ≤ b1 ∧ b1 < (if b0 = 0xF4 then 0x90 else 0xC0) ∧
          isCont b2 ∧ isCont b3 then
        (Char.ofNat ((b0 - 0xF0) * 262144 + (b1 - 0x80) * 4096 + (b2 - 0x80) * 64 + (b3 - 0x80)),
          4)
      else (runeError, 1)
    | _ => (runeError, 1)
  else (runeError, 1)

/-- `utf8.DecodeRune` applied along a byte sequence, at most `fuel` times. -/
def utf8DecodeAux : Nat → List Nat → List Char
  | 0, _ => []
  | _, [] => []
  | fuel + 1, b0 :: rest =>
    let r := decodeRune b0 rest
    r.1 :: utf8DecodeAux fuel (rest.drop (r.2 - 1))

/-- The text of a byte sequence, as `encoding/json` reads it: every byte
that is not part of a well-formed UTF-8 encoding reads as U+FFFD. -/
def utf8Decode (bs : List Nat) : List Char :=
  utf8DecodeAux bs.length bs

/-- The alphabet of `base64.StdEncoding`. -/
def b64Alphabet : List Char :=
  "ABCDEFGHIJKLMNOPQRSTUVWXYZabcdefghijklmnopqrstuvwxyz0123456789+/".toList

/-- The character of a 6-bit value. -/
def b64Char (i : Nat) : Char :=
  b64Alphabet.getD i 'A'

/-- The 6-bit value of a character of the alphabet. -/
def b64Index (c : Char) : Option Nat :=
  let n := c.toNat
  if 65 ≤ n ∧ n ≤ 90 then some (n - 65)
  else if 97 ≤ n ∧ n ≤ 122 then some (n - 97 + 26)
  else if 48 ≤ n ∧ n ≤ 57 then some (n - 48 + 52)
  else if c = '+' then some 62
  else if c = '/' then some 63
  else none

/-- `base64.StdEncoding.EncodeToString`: three bytes give four characters,
the last group is padded with `=`. -/
def b64Encode : List Nat → List Char
  | [] => []
  | [a] => [b64Char (a / 4), b64Char (a % 4 * 16), '=', '=']
  | [a, b] => [b64Char (a / 4), b64Char (a % 4 * 16 + b / 16), b64Char (b % 16 * 4), '=']
  | a :: b :: c :: rest =>
    b64Char (a / 4) :: b64Char (a % 4 * 16 + b / 16) :: b64Char (b % 16 * 4 + c / 64) ::
      b64Char (c % 64) :: b64Encode rest

/-- The groups of four characters of `base64.StdEncoding.DecodeString`, line
breaks removed. Padding is required and stands only at the end; the bits
that padding leaves unused are not checked (the encoding is not strict). -/
def b64DecodeQuanta : List Char → Option (List Nat)
  | [] => some []
  | [c0, c1, c2, c3] =>
    match b64Index c0, b64Index c1 with
    | some i0, some i1 =>
      if c2 = '=' then
        if c3 = '=' then some [i0 * 4 + i1 / 16] else none
      else
        match b64Index c2 with
        | none => none
        | some i2 =>
          if c3 = '=' then some [i0 * 4 + i1 / 16, i1 % 16 * 16 + i2 / 4]
          else
            match b64Index c3 with
            | none => none
            | some i3 => some [i0 * 4 + i1 / 16, i1 % 16 * 16 + i2 / 4, i2 % 4 * 64 + i3]
    | _, _ => none
  | c0 :: c1 :: c2 :: c3 :: rest =>
    match b64Index c0, b64Index c1, b64Index c2, b64Index c3, b64DecodeQuanta rest with
    | some i0, some i1, some i2, some i3, some bs =>
      some ((i0 * 4 + i1 / 16) :: (i1 % 16 * 16 + i2 / 4) :: (i2 % 4 * 64 + i3) :: bs)
    | _, _, _, _, _ => none
  | _ => none

/-- `base64.StdEncoding.DecodeString`: carriage returns and line feeds are
ignored. -/
def b64Decode (s : List Char) : Option (List Nat) :=
  b64DecodeQuanta (s.filter fun c => !(c = '\r' || c = '\n'))

/-! ## Maps with string keys -/

/-- The type `genericCursor`, `map[string]any`. A Go map has no order: it is
represented by its entries in strictly increasing key order, the order in
which `encoding/json` writes them. The nil map and the empty map are both
`[]`. -/
abbrev genericCursor := List (String × Value)

/-- The order of Go strings (bytewise, which on valid UTF-8 is the order of
the code points, lexicographically). -/
def keyLt : List Char → List Char → Bool
  | _, [] => false
  | [], _ :: _ => true
  | a :: as, b :: bs => a.toNat < b.toNat || (a.toNat = b.toNat && keyLt as bs)

/-- `m[k] = v`. -/
def setKey : genericCursor → String → Value → genericCursor
  | [], k, v => [(k, v)]
  | (k', v') :: m, k, v =>
    if k = k' then (k, v) :: m
    else if keyLt k.toList k'.toList then (k, v) :: (k', v') :: m
    else (k', v') :: setKey m k v

/-- `m[k]`, with `none` for a missing key. -/
def getKey : genericCursor → String → Option Value
  | [], _ => none
  | (k', v') :: m, k => if k = k' then some v' else getKey m k

/-- The entries are in strictly increasing key order: the list represents a
map. -/
def isMap (m : genericCursor) : Prop :=
  m.Pairwise fun a b => keyLt a.1.toList b.1.toList = true

/-! ## JSON: writing -/

/-- The decimal digit of a number below ten. -/
def digitChar (d : Nat) : Char :=
  Char.ofNat (48 + d)

/-- The decimal digits of `n` in front of `acc`. -/
def decimalAux : Nat → Nat → List Char → List Char
  | 0, _, acc => acc
  | fuel + 1, n, acc =>
    if n < 10 then digitChar n :: acc
    else decimalAux fuel (n / 10) (digitChar (n % 10) :: acc)

/-- The decimal digits of a natural number, as `strconv` writes them. -/
def decimal (n : Nat) : List Char :=
  decimalAux (n + 1) n []

/-- The text of an integer. -/
def intText (n : Int) : List Char :=
  if n < 0 then '-' :: decimal n.natAbs else decimal n.natAbs

/-- A lower-case hexadecimal digit. -/
def hexDigit (n : Nat) : Char :=
  "0123456789abcdef".toList.getD n '0'

/-- One character of a string as `encoding/json` writes it (HTML escaping is
on, as it is for `json.Marshal`). -/
def quoteChar (c : Char) : List Char :=
  if c = '"' then ['\\', '"']
  else if c = '\\' then ['\\', '\\']
  else if c.toNat = 0x08 then ['\\', 'b']
  else if c.toNat = 0x0C then ['\\', 'f']
  else if c = '\n' then ['\\', 'n']
  else if c = '\r' then ['\\', 'r']
  else if c = '\t' then ['\\', 't']
  else if c.toNat < 0x20 ∨ c = '<' ∨ c = '>' ∨ c = '&' then
    ['\\', 'u', '0', '0', hexDigit (c.toNat / 16), hexDigit (c.toNat % 16)]
  else if c.toNat = 0x2028 ∨ c.toNat = 0x2029 then
    ['\\', 'u', '2', '0', '2', hexDigit (c.toNat % 16)]
  else [c]

/-- The characters of a string literal, between the quotes. -/
def quoteBody : List Char → List Char
  | [] => []
  | c :: cs => quoteChar c ++ quoteBody cs

/-- A string literal. -/
def quote (s : String) : List Char :=
  '"' :: (quoteBody s.toList ++ ['"'])

/-- The bytes of a Go string as `encoding/json` writes them between the
quotes: the encoder reads the string with `utf8.DecodeRuneInString`, writes a
character as `quoteChar` does and writes `\ufffd` for a byte that is not part
of a well-formed UTF-8 encoding. At most `fuel` characters are read. -/
def quoteBytesAux : Nat → List Nat → List Char
  | 0, _ => []
  | _, [] => []
  | fuel + 1, b0 :: rest =>
    let r := decodeRune b0 rest
    (if r.1 = runeError ∧ r.2 = 1 then ['\\', 'u', 'f', 'f', 'f', 'd'] else quoteChar r.1) ++
      quoteBytesAux fuel (rest.drop (r.2 - 1))

/-- The string literal of a Go string given by its bytes. -/
def quoteBytes (bs : List Nat) : List Char :=
  '"' :: (quoteBytesAux bs.length bs ++ ['"'])

mutual
/-- `json.Marshal` of a value; `none` when Go reports an error. The text of a
float64 that is not an integer, or that holds an integer above `2 ^ 53`
(which Go may round to fewer digits and, from `1e21` on, writes with an
exponent), comes from `strconv.AppendFloat`, which is not modelled:
`fmtFloat m e` stands for the text of `m / 2 ^ e`. A `num` is written with
all its digits, as Go writes a value of an integer kind and a float64 that
holds an integer up to `2 ^ 53`. A float64 that is not finite is an error
(`UnsupportedValueError`). An empty slice or map is written as a non-nil
one. -/
def marshalValue (fmtFloat : Int → Nat → List Char) : Value → Option (List Char)
  | Value.null => some ['n', 'u', 'l', 'l']
  | Value.bool true => some ['t', 'r', 'u', 'e']
  | Value.bool false => some ['f', 'a', 'l', 's', 'e']
  | Value.num n => some (intText n)
  | Value.big n => some (fmtFloat n 0)
  | Value.frac m e => some (fmtFloat m e)
  | Value.nonFinite => none
  | Value.str s => some (quote s)
  | Value.bytes bs => some (quoteBytes bs)
  | Value.arr xs =>
    match marshalElems fmtFloat xs with
    | none => none
    | some body => some ('[' :: (body ++ [']']))
  | Value.obj kvs =>
    match marshalMembers fmtFloat kvs with
    | none => none
    | some body => some ('{' :: (body ++ ['}']))
  | Value.unsupported => none
/-- The elements of an array, separated by commas. -/
def marshalElems (fmtFloat : Int → Nat → List Char) : List Value → Option (List Char)
  | [] => some []
  | x :: xs =>
    match marshalValue fmtFloat x, marshalElems fmtFloat xs with
    | some a, some b => some (if xs.isEmpty then a else a ++ ',' :: b)
    | _, _ => none
/-- The members of an object, in the order of the list, separated by
commas. -/
def marshalMembers (fmtFloat : Int → Nat → List Char) :
    List (String × Value) → Option (List Char)
  | [] => some []
  | (k, x) :: kvs =>
    match marshalValue fmtFloat x, marshalMembers fmtFloat kvs with
    | some a, some b =>
      some (if kvs.isEmpty then quote k ++ ':' :: a else quote k ++ ':' :: (a ++ ',' :: b))
    | _, _ => none
end

/-- `json.Marshal` of a map. -/
def jsonMarshal (fmtFloat : Int → Nat → List Char) (m : genericCursor) : Option (List Char) :=
  marshalValue fmtFloat (Value.obj m)

/-! ## JSON: reading -/

/-- A decimal digit. -/
def isDigit (c : Char) : Bool :=
  48 ≤ c.toNat && c.toNat ≤ 57

/-- The number a sequence of decimal digits writes. -/
def digitsValue (ds : List Char) : Nat :=
  ds.foldl (fun acc d => acc * 10 + (d.toNat - 48)) 0

/-- The number of halvings that bring `n` below two. -/
def log2Aux : Nat → Nat → Nat
  | 0, _ => 0
  | fuel + 1, n => if n < 2 then 0 else log2Aux fuel (n / 2) + 1

/-- The largest integer not above the binary logarithm of a positive
number. -/
def log2 (n : Nat) : Nat :=
  log2Aux n n

/-- The largest integer not above the binary logarithm of `a / b`, for
positive `a` and `b`. -/
def floorLog2 (a b : Nat) : Int :=
  let t : Int := (log2 a : Int) - (log2 b : Int)
  if (if 0 ≤ t then b * 2 ^ t.toNat ≤ a else b ≤ a * 2 ^ (-t).toNat) then t else t - 1

/-- The integer nearest to `num / den`, the even one on a tie. -/
def roundHalfEven (num den : Nat) : Nat :=
  let q := num / den
  let r := num % den
  if den < 2 * r ∨ (2 * r = den ∧ q % 2 = 1) then q + 1 else q

/-- The fraction `m / 2 ^ e` in lowest terms. -/
def stripTwos : Nat → Nat → Nat → Nat × Nat
  | 0, m, e => (m, e)
  | fuel + 1, m, e => if e = 0 ∨ m % 2 = 1 then (m, e) else stripTwos fuel (m / 2) (e - 1)

/-- An integer with a sign. -/
def signed (neg : Bool) (n : Nat) : Int :=
  if neg then -(n : Int) else (n : Int)

/-- The float64 that holds the integer `± n`. -/
def float64Integer (neg : Bool) (n : Nat) : Value :=
  if n ≤ 2 ^ 53 then Value.num (signed neg n) else Value.big (signed neg n)

/-- The float64 nearest to `± a / b`, as `strconv.ParseFloat` computes it
(round to nearest, ties to even, 53 bits, least exponent -1074), as a value;
`none` when the rounded magnitude reaches `2 ^ 1024`, too large for a
float64. An integer up to
`2 ^ 53` is a float64 and is returned as it is. -/
def float64Value (neg : Bool) (a b : Nat) : Option Value :=
  if b = 1 ∧ a ≤ 2 ^ 53 then some (Value.num (signed neg a))
  else if a = 0 then some (Value.num 0)
  else
    let e : Int := max (floorLog2 a b - 52) (-1074)
    if 0 ≤ e then
      let m := roundHalfEven a (b * 2 ^ e.toNat)
      if 1024 ≤ log2 (m * 2 ^ e.toNat) then none
      else some (float64Integer neg (m * 2 ^ e.toNat))
    else
      let m := roundHalfEven (a * 2 ^ (-e).toNat) b
      let r := stripTwos (-e).toNat m (-e).toNat
      if r.2 = 0 then some (float64Integer neg r.1) else some (Value.frac (signed neg r.1) r.2)

/-- The value of the number literal `± d * 10 ^ ex`. -/
def numberValue (neg : Bool) (d : Nat) (ex : Int) : Option Value :=
  if 0 ≤ ex then float64Value neg (d * 10 ^ ex.toNat) 1
  else float64Value neg d (10 ^ (-ex).toNat)

/-- The fraction part of a number literal: its digits and the rest of the
text; `none` when a point is not followed by a digit. -/
def parseFraction (cs : List Char) : Option (List Char × List Char) :=
  match cs with
  | c :: r =>
    if c = '.' then
      if (r.takeWhile isDigit).isEmpty then none
      else some (r.takeWhile isDigit, r.dropWhile isDigit)
    else some ([], cs)
  | [] => some ([], cs)

/-- The digits of an exponent, after the sign. -/
def parseExponentDigits (neg : Bool) (cs : List Char) : Option (Int × List Char) :=
  if (cs.takeWhile isDigit).isEmpty then none
  else some (signed neg (digitsValue (cs.takeWhile isDigit)), cs.dropWhile isDigit)

/-- The exponent part of a number literal: its value and the rest of the
text; `none` when `e` is not followed by a digit. -/
def parseExponent (cs : List Char) : Option (Int × List Char) :=
  match cs with
  | c :: r =>
    if c = 'e' ∨ c = 'E' then
      match r with
      | s :: r' =>
        if s = '+' then parseExponentDigits false r'
        else if s = '-' then parseExponentDigits true r'
        else parseExponentDigits false r
      | [] => none
    else some (0, cs)
  | [] => some (0, cs)

/-- A number literal without its sign, `d` being its first character: the
integer part is `0` or starts with a digit that is not `0`. -/
def parseUnsigned (neg : Bool) (d : Char) (r : List Char) : Option (Value × List Char) :=
  if !isDigit d then none
  else
    let ip := if d = '0' then [d] else d :: r.takeWhile isDigit
    let r1 := if d = '0' then r else r.dropWhile isDigit
    match parseFraction r1 with
    | none => none
    | some (fp, r2) =>
      match parseExponent r2 with
      | none => none
      | some (ex, r3) =>
        match numberValue neg (digitsValue (ip ++ fp)) (ex - fp.length) with
        | none => none
        | some v => some (v, r3)

/-- A number literal that starts with the character `c`. -/
def parseNumber (c : Char) (r : List Char) : Option (Value × List Char) :=
  if c = '-' then
    match r with
    | d :: r' => parseUnsigned true d r'
    | [] => none
  else parseUnsigned false c r

/-- The value of a hexadecimal digit. -/
def hexValue (c : Char) : Option Nat :=
  let n := c.toNat
  if 48 ≤ n ∧ n ≤ 57 then some (n - 48)
  else if 97 ≤ n ∧ n ≤ 102 then some (n - 87)
  else if 65 ≤ n ∧ n ≤ 70 then some (n - 55)
  else none

/-- A piece of a string literal: a character written as itself or by a
two-character escape, or the UTF-16 code unit of a `\u` escape. -/
inductive StrUnit where
  | lit (c : Char)
  | esc (u : Nat)

/-- The character of a two-character escape. -/
def simpleEscape (e : Char) : Option Char :=
  if e = '"' then some '"'
  else if e = '\\' then some '\\'
  else if e = '/' then some '/'
  else if e = 'b' then some (Char.ofNat 0x08)
  else if e = 'f' then some (Char.ofNat 0x0C)
  else if e = 'n' then some '\n'
  else if e = 'r' then some '\r'
  else if e = 't' then some '\t'
  else none

/-- The pieces of a string literal, after its opening quote, and the text
after its closing quote. A control character is not allowed. -/
def parseUnits : List Char → Option (List StrUnit × List Char)
  | [] => none
  | c :: cs =>
    if c = '"' then some ([], cs)
    else if c = '\\' then
      match cs with
      | [] => none
      | e :: cs1 =>
        if e = 'u' then
          match cs1 with
          | h1 :: h2 :: h3 :: h4 :: cs2 =>
            match hexValue h1, hexValue h2, hexValue h3, hexValue h4, parseUnits cs2 with
            | some a, some b, some c, some d, some (us, rest) =>
              some (StrUnit.esc (a * 4096 + b * 256 + c * 16 + d) :: us, rest)
            | _, _, _, _, _ => none
          | _ => none
        else
          match simpleEscape e, parseUnits cs1 with
          | some ch, some (us, rest) => some (StrUnit.lit ch :: us, rest)
          | _, _ => none
    else if c.toNat < 0x20 then none
    else
      match parseUnits cs with
      | some (us, rest) => some (StrUnit.lit c :: us, rest)
      | none => none

/-- The characters of the pieces of a string literal: a high surrogate
followed by a low surrogate is one character, any other surrogate is
U+FFFD. -/
def combineUnits : List StrUnit → List Char
  | [] => []
  | StrUnit.lit c :: us => c :: combineUnits us
  | [StrUnit.esc u] => [if 0xD800 ≤ u ∧ u < 0xE000 then runeError else Char.ofNat u]
  | StrUnit.esc u :: StrUnit.lit c :: us =>
    (if 0xD800 ≤ u ∧ u < 0xE000 then runeError else Char.ofNat u) :: c :: combineUnits us
  | StrUnit.esc u :: StrUnit.esc v :: us =>
    if 0xD800 ≤ u ∧ u < 0xDC00 ∧ 0xDC00 ≤ v ∧ v < 0xE000 then
      Char.ofNat ((u - 0xD800) * 1024 + (v - 0xDC00) + 0x10000) :: combineUnits us
    else
      (if 0xD800 ≤ u ∧ u < 0xE000 then runeError else Char.ofNat u) ::
        combineUnits (StrUnit.esc v :: us)

/-- A string literal, after its opening quote: the string and the text after
its closing quote. -/
def parseString (cs : List Char) : Option (String × List Char) :=
  match parseUnits cs with
  | none => none
  | some (us, rest) => some (String.mk (combineUnits us), rest)

/-- A separator: a character that can follow a value inside an object. -/
def isSeparator (c : Char) : Prop :=
  c = ',' ∨ c = '}'

/-- The white space of JSON. -/
def isJsonSpace (c : Char) : Bool :=
  c = ' ' || c = '\t' || c = '\r' || c = '\n'

/-- The text after its leading white space. -/
def skipWs (cs : List Char) : List Char :=
  cs.dropWhile isJsonSpace

/-- The text after the word `w`, when the text starts with it. -/
def expectWord (w cs : List Char) : Option (List Char) :=
  if w.isPrefixOf cs then some (cs.drop w.length) else none

/-- The nesting depth `encoding/json` accepts. -/
def maxNestingDepth : Nat := 10000

mutual
/-- A JSON value at the head of the text, and the text after it. `fuel`
bounds the number of nested calls; `depth` is the number of arrays and
objects that are open. -/
def parseValue : Nat → Nat → List Char → Option (Value × List Char)
  | 0, _, _ => none
  | _ + 1, _, [] => none
  | fuel + 1, depth, c :: cs =>
    if c = '"' then
      match parseString cs with
      | none => none
      | some (s, rest) => some (Value.str s, rest)
    else if c = '{' then
      if maxNestingDepth ≤ depth then none
      else
        match skipWs cs with
        | '}' :: rest => some (Value.obj [], rest)
        | cs' => parseMembers fuel (depth + 1) cs' []
    else if c = '[' then
      if maxNestingDepth ≤ depth then none
      else
        match skipWs cs with
        | ']' :: rest => some (Value.arr [], rest)
        | cs' => parseElems fuel (depth + 1) cs' []
    else if c = 't' then (expectWord ['r', 'u', 'e'] cs).map fun rest => (Value.bool true, rest)
    else if c = 'f' then
      (expectWord ['a', 'l', 's', 'e'] cs).map fun rest => (Value.bool false, rest)
    else if c = 'n' then (expectWord ['u', 'l', 'l'] cs).map fun rest => (Value.null, rest)
    else parseNumber c cs
/-- The members of an object from a key on, `acc` being the map of the
members read so far; a key read again replaces the earlier member. -/
def parseMembers : Nat → Nat → List Char → genericCursor → Option (Value × List Char)
  | 0, _, _, _ => none
  | _ + 1, _, [], _ => none
  | fuel + 1, depth, c :: cs, acc =>
    if c = '"' then
      match parseString cs with
      | none => none
      | some (k, rest) =>
        match skipWs rest with
        | ':' :: rest =>
          match parseValue fuel depth (skipWs rest) with
          | none => none
          | some (v, rest) =>
            match skipWs rest with
            | ',' :: rest => parseMembers fuel depth (skipWs rest) (setKey acc k v)
            | '}' :: rest => some (Value.obj (setKey acc k v), rest)
            | _ => none
        | _ => none
    else none
/-- The elements of an array from an element on, `acc` being the elements
read so far. -/
def parseElems : Nat → Nat → List Char → List Value → Option (Value × List Char)
  | 0, _, _, _ => none
  | fuel + 1, depth, cs, acc =>
    match parseValue fuel depth cs with
    | none => none
    | some (v, rest) =>
      match skipWs rest with
      | ',' :: rest => parseElems fuel depth (skipWs rest) (acc ++ [v])
      | ']' :: rest => some (Value.arr (acc ++ [v]), rest)
      | _ => none
end

/-- `json.Unmarshal` of a text into a `map[string]any` variable that is nil:
the text is one JSON value between white space; an object gives its map,
`null` leaves the nil map, any other value is an error. -/
def jsonUnmarshal (cs : List Char) : Option genericCursor :=
  match parseValue (cs.length + 1) 0 (skipWs cs) with
  | none => none
  | some (v, rest) =>
    if (skipWs rest).isEmpty then
      match v with
      | Value.obj m => some m
      | Value.null => some []
      | _ => none
    else none

/-! ## The cursor codec (`paging_encode_decode.go`) -/

/-- The two errors of `decodeCursor`: that of `base64` and that of
`encoding/json`. -/
inductive DecodeError where
  | corruptInput
  | invalidJSON

/-- `encodeCursor`. -/
def encodeCursor (fmtFloat : Int → Nat → List Char) (cursor : genericCursor) : String :=
  if cursor.length = 0 then ""
  else
    match jsonMarshal fmtFloat cursor with
    | none => ""
    | some serializedCursor => String.mk (b64Encode (utf8Encode serializedCursor))

/-- `decodeCursor`. -/
def decodeCursor (cursor : String) : Except DecodeError genericCursor :=
  match b64Decode cursor.toList with
  | none => Except.error DecodeError.corruptInput
  | some decodedCursor =>
    match jsonUnmarshal (utf8Decode decodedCursor) with
    | none => Except.error DecodeError.invalidJSON
    | some cur => Except.ok cur

/-- The values that keep their value through the codec: a string that holds
valid UTF-8, a boolean, an integer of magnitude at most `2 ^ 53`, and any
other finite float64 provided the text `strconv` writes for it (`fmtFloat`)
reads back as the same number, as `strconv` promises of its shortest
formatting. -/
def Value.keepsValue (fmtFloat : Int → Nat → List Char) : Value → Prop
  | Value.str _ => True
  | Value.bool _ => True
  | Value.num n => n.natAbs ≤ 2 ^ 53
  | Value.big n =>
    ∀ (sep : Char) (rest : List Char), isSeparator sep →
      ∃ d ds, fmtFloat n 0 = d :: ds ∧ (isDigit d = true ∨ d = '-') ∧
        parseNumber d (ds ++ sep :: rest) = some (Value.big n, sep :: rest)
  | Value.frac m e =>
    ∀ (sep : Char) (rest : List Char), isSeparator sep →
      ∃ d ds, fmtFloat m e = d :: ds ∧ (isDigit d = true ∨ d = '-') ∧
        parseNumber d (ds ++ sep :: rest) = some (Value.frac m e, sep :: rest)
  | _ => False

/-- The JSON text of a string, a boolean or a finite number. -/
def leafText (fmtFloat : Int → Nat → List Char) : Value → List Char
  | Value.bool true => ['t', 'r', 'u', 'e']
  | Value.bool false => ['f', 'a', 'l', 's', 'e']
  | Value.num n => intText n
  | Value.big n => fmtFloat n 0
  | Value.frac m e => fmtFloat m e
  | Value.str s => quote s
  | Value.bytes bs => quoteBytes bs
  | _ => []

/-- The JSON serialization of a map whose values are strings, booleans and
finite numbers, as the specification of `encodeCursor` understands it: an
object whose members `"key":value` stand in increasing key order, separated
by commas, without white space. -/
def objectText (fmtFloat : Int → Nat → List Char) (m : genericCursor) : List Char :=
  '{' :: (List.intercalate [','] (m.map fun kv => quote kv.1 ++ ':' :: leafText fmtFloat kv.2) ++
    ['}'])

/-- The operator and the effective sort order of a page after the first, as
the table of the specification gives them for `pointsNext` and the declared
sort order. -/
def specOperatorAndOrder (pointsNext : Bool) (declared : String) : String × String :=
  match pointsNext, declared with
  | true, "asc" => (">", "asc")
  | true, "desc" => ("<", "desc")
  | false, "asc" => ("<", "desc")
  | false, "desc" => (">", "asc")
  | _, _ => ("", "")

/-- A formatter of non-integer numbers for the examples: it knows the text
of `3 / 2`. -/
def sampleFloat : Int → Nat → List Char :=
  fun _ _ => ['1', '.', '5']

/-! ## Query descriptions -/

/-- A method of `gorm.DB` applied to a chain, with its arguments. The
argument of `Preload` and of `Joins` is a function on chains that the package
passes; `sub` is what that function appends to the chain it is given. -/
inductive Op where
  | Select (fields : List String)
  | Omit (fields : List String)
  | Where (query : String) (args : List Value)
  | Limit (n : Int)
  | Offset (n : Int)
  | Order (value : Value)
  | Preload (query : String) (sub : List Op)
  | Joins (query : String) (sub : List Op)

/-- A `gorm.DB` chain: the operations applied to it, in order. -/
abbrev Tx := List Op

/-! ## Machine integers -/

/-- The least Go `int`, `math.MinInt64`. -/
def minInt64 : Int := -(2 ^ 63)

/-- The greatest Go `int`, `math.MaxInt64`. -/
def maxInt64 : Int := 2 ^ 63 - 1

/-- The value of a Go `int` expression whose mathematical value is `n`: the
integer between `minInt64` and `maxInt64` that differs from `n` by a multiple
of `2 ^ 64` (arithmetic on a Go `int` wraps around silently). -/
def wrapInt (n : Int) : Int :=
  (n + 2 ^ 63) % 2 ^ 64 - 2 ^ 63

/-- The integer is a Go `int`. -/
def isInt64 (n : Int) : Prop :=
  minInt64 ≤ n ∧ n ≤ maxInt64

instance (n : Int) : Decidable (isInt64 n) := by
  unfold isInt64; infer_instance

/-! ## Cursor paging (`paging_cursor.go`, `paging_common.go`) -/

/-- `sortOrderASC`. -/
def sortOrderASC : String := "asc"

/-- `sortOrderDESC`. -/
def sortOrderDESC : String := "desc"

/-- `sortOrderFromString`. -/
def sortOrderFromString (sortOrder : String) : String :=
  if sortOrder = "asc" then sortOrderASC
  else if sortOrder = "desc" then sortOrderDESC
  else sortOrderASC

/-- The struct `cursorForwarder`. -/
structure cursorForwarder where
  Next : String := ""
  Prev : String := ""

/-- `createGenericCursor`: the map literal `{field: value, "points_next":
pointsNext}`, whose second entry replaces the first when `field` is
"points_next". -/
def createGenericCursor (field : String) (value : Value) (pointsNext : Bool) : genericCursor :=
  setKey (setKey [] field value) "points_next" (Value.bool pointsNext)

/-- The struct `cursorPaging`. A `cursorField` is the value its
`CursorField()` method returns, `none` being the nil interface. -/
structure cursorPaging where
  field : String
  limit : Int := 0
  sortOrder : String := ""
  cursor : Option String
  isFirstPage : Bool
  pointsNext : Bool := false
  hasPagination : Bool := false
  prevCursor : Option Value := none
  nextCursor : Option Value := none

/-- The type `CursorPagingOpt`. -/
abbrev CursorPagingOpt := cursorPaging → cursorPaging

/-- `WithCursorSortOrder`. -/
def WithCursorSortOrder (sortOrder : String) : CursorPagingOpt :=
  fun cp => { cp with sortOrder := sortOrderFromString sortOrder }

/-- `WithCursorLimit`. -/
def WithCursorLimit (limit : Int) : CursorPagingOpt :=
  fun cp => { cp with limit := limit }

/-- `NewCursorPaging`. -/
def NewCursorPaging (cursor : Option String) (field : String) (opts : List CursorPagingOpt) :
    cursorPaging :=
  opts.foldl (fun cp opt => opt cp) { cursor := cursor, field := field, isFirstPage := cursor.isNone }

/-- `newCursorPagination`. -/
def newCursorPagination (fmtFloat : Int → Nat → List Char) (next prev : genericCursor) :
    cursorForwarder :=
  { Next := encodeCursor fmtFloat next, Prev := encodeCursor fmtFloat prev }

/-- `cursorPaging.Pagination`; `none` when a method is called on a nil
`cursorField` (the Go program panics). -/
def cursorPaging.Pagination (fmtFloat : Int → Nat → List Char) (c : cursorPaging)
    (isFirstPage hasPagination : Bool) (prev next : Option Value) : Option cursorForwarder :=
  if isFirstPage then
    if hasPagination then
      match next with
      | none => none
      | some nv => some (newCursorPagination fmtFloat (createGenericCursor c.field nv true) [])
    else some {}
  else if c.pointsNext then
    match (if hasPagination then next.map fun nv => createGenericCursor c.field nv true
        else some []), prev with
    | some nextCur, some pv =>
      some (newCursorPagination fmtFloat nextCur (createGenericCursor c.field pv false))
    | _, _ => none
  else
    match next, (if hasPagination then prev.map fun pv => createGenericCursor c.field pv false
        else some []) with
    | some nv, some prevCur =>
      some (newCursorPagination fmtFloat (createGenericCursor c.field nv true) prevCur)
    | _, _ => none

/-- `cursorPaging.PointNext`. -/
def cursorPaging.PointNext (c : cursorPaging) : Bool :=
  c.pointsNext

/-- `paginationOperator`. -/
def paginationOperator (pointsNext : Bool) (sortOrder : String) : String × String :=
  if pointsNext ∧ sortOrder = sortOrderASC then (">", "")
  else if pointsNext ∧ sortOrder = sortOrderDESC then ("<", "")
  else if ¬pointsNext ∧ sortOrder = sortOrderASC then ("<", sortOrderDESC)
  else if ¬pointsNext ∧ sortOrder = sortOrderDESC then (">", sortOrderASC)
  else ("", "")

/-- The deferred function of `cursorPaging.Build`: the order and the limit
`c.limit + 1`, an addition of Go `int`s, one row more than the page to detect
a further page. -/
def cursorPaging.finish (c : cursorPaging) (tx : Tx) : cursorPaging × Tx :=
  (c, tx ++ [Op.Order (Value.str (c.field ++ " " ++ c.sortOrder)),
    Op.Limit (wrapInt (c.limit + 1))])

/-- `cursorPaging.Build`: the pager after the call and the chain it
returns. -/
def cursorPaging.Build (c : cursorPaging) (tx : Tx) : cursorPaging × Tx :=
  match c.cursor with
  | none => c.finish tx
  | some cursor =>
    if cursor = "\"\"" ∨ cursor = "" then c.finish tx
    else
      match decodeCursor cursor with
      | Except.error _ => c.finish tx
      | Except.ok decodedCursor =>
        let pointsNext :=
          match getKey decodedCursor "points_next" with
          | some (Value.bool true) => true
          | _ => false
        let c := { c with pointsNext := pointsNext }
        let r := paginationOperator c.pointsNext c.sortOrder
        let whereStr := c.field ++ " " ++ r.1 ++ " ?"
        let tx := tx ++ [Op.Where whereStr [(getKey decodedCursor c.field).getD Value.null]]
        let c := if r.2 ≠ "" then { c with sortOrder := r.2 } else c
        c.finish tx

/-- A token map with a value of each kind. -/
def sampleToken : genericCursor :=
  [("id", Value.num 10), ("name", Value.str "a<b"), ("points_next", Value.bool true),
    ("score", Value.frac 3 1)]

/-- A pager on the field `id`, ascending, ten rows a page, after
`NewCursorPaging`, with the given inbound token. -/
def samplePager (cursor : Option String) : cursorPaging :=
  NewCursorPaging cursor "id" [WithCursorSortOrder "asc", WithCursorLimit 10]

/-! ## The request side (`internal/core/util/paging.go`) -/

/-- The struct `Paging` of the package `util`. -/
structure Paging where
  Cursor : Option String := none
  PerPage : Int := 0
  Page : Option Int := none
  SortOrder : String := ""

/-- `Paging.CursorFirstPage`. -/
def Paging.CursorFirstPage (p : Paging) : Bool :=
  match p.Cursor with
  | none => true
  | some cursor => cursor == "" || cursor == "\"\""

/-! ## Offset paging (`paging_offset.go`)

`NewOffsetPaging` computes the number of pages in float64 arithmetic. A
float64 is represented as `float64Value` returns it: `some (Value.num n)` and
`some (Value.big n)` are the float64 holding the integer `n`,
`some (Value.frac m e)` the float64 `m / 2 ^ e` that is not an integer, and
`none` a float64 that is not finite (an infinity or NaN). -/

/-- The integer a float64 holds, if it holds one. -/
def integerOfFloat64 : Option Value → Option Int
  | some (Value.num n) => some n
  | some (Value.big n) => some n
  | _ => none

/-- The conversion `float64(n)` of an integer: the float64 nearest to `n`,
the one with the even significand on a tie. -/
def float64OfInt (n : Int) : Option Value :=
  float64Value (decide (n < 0)) n.natAbs 1

/-- The quotient `x / y` of two float64 values that hold integers: the
float64 nearest to the quotient of the two numbers (IEEE 754); a division by
zero gives an infinity or NaN. -/
def float64Quotient (x y : Option Value) : Option Value :=
  match integerOfFloat64 x, integerOfFloat64 y with
  | some a, some b =>
    if b = 0 then none
    else float64Value (decide (a < 0) != decide (b < 0)) a.natAbs b.natAbs
  | _, _ => none

/-- `math.Ceil`: the least integer not below the number; an infinity and NaN
are returned as they are. -/
def mathCeil : Option Value → Option Value
  | some (Value.frac m e) => some (Value.num (-((-m) / 2 ^ e)))
  | x => x

/-- The conversion `int(f)` of a float64: the fraction is discarded. The Go
specification leaves the result to the implementation when the integer part
is not a Go `int` or the value is not finite; `math.MinInt64` is what the
amd64 compiler gives. -/
def intOfFloat64 : Option Value → Int
  | some (Value.num n) => if minInt64 ≤ n ∧ n ≤ maxInt64 then n else minInt64
  | some (Value.big n) => if minInt64 ≤ n ∧ n ≤ maxInt64 then n else minInt64
  | some (Value.frac m e) =>
    let t := signed (decide (m < 0)) (m.natAbs / 2 ^ e)
    if minInt64 ≤ t ∧ t ≤ maxInt64 then t else minInt64
  | _ => minInt64

/-- The struct `offsetForwarder`. -/
structure offsetForwarder where
  CurrentPage : Int := 0
  PerPage : Int := 0
  TotalPage : Int := 0

/-- The struct `offsetPaging`. -/
structure offsetPaging where
  orderFields : List String
  limit : Int := 0
  page : Int
  sortOrder : String := ""
  totalPage : Int := 0

/-- The type `OffsetPagingOpt`. -/
abbrev OffsetPagingOpt := offsetPaging → offsetPaging

/-- `WithOffsetSortOrder`. -/
def WithOffsetSortOrder (sortOrder : String) : OffsetPagingOpt :=
  fun op => { op with sortOrder := sortOrderFromString sortOrder }

/-- `WithOffsetLimit`. -/
def WithOffsetLimit (limit : Int) : OffsetPagingOpt :=
  fun op => { op with limit := limit }

/-- `NewOffsetPaging`. -/
def NewOffsetPaging (page totalRecords : Int) (orderFields : List String)
    (opts : List OffsetPagingOpt) : offsetPaging :=
  let op := opts.foldl (fun op opt => opt op) { orderFields := orderFields, page := page }
  { op with totalPage :=
      intOfFloat64 (mathCeil (float64Quotient (float64OfInt totalRecords) (float64OfInt op.limit))) }

/-- `offsetPaging.Build`; the offset `(c.page - 1) * c.limit` is a subtraction
and a multiplication of Go `int`s. -/
def offsetPaging.Build (c : offsetPaging) (tx : Tx) : Tx :=
  let orders := c.orderFields.map fun f => f ++ " " ++ c.sortOrder
  tx ++ [Op.Order (Value.str (String.intercalate "," orders)), Op.Limit c.limit,
    Op.Offset (wrapInt (wrapInt (c.page - 1) * c.limit))]

/-- `offsetPaging.Pagination`. -/
def offsetPaging.Pagination (c : offsetPaging) : offsetForwarder :=
  { CurrentPage := c.page, PerPage := c.limit, TotalPage := c.totalPage }

/-! ## The tokens the specification expects to be rejected

The two conditions under which `decodeCursor` is expected to fail: the text
is not standard base64, or the bytes it stands for are not valid JSON. Both
are stated apart from the decoders: standard base64 by the alphabet and the
padding of RFC 4648, valid JSON by the grammar of RFC 8259. -/

/-- A character of the alphabet of standard base64 (RFC 4648, table 1). -/
def inB64Alphabet (c : Char) : Bool :=
  b64Alphabet.contains c

/-- Groups of four characters of the alphabet, of which the last may end in
one or in two `=`. -/
def isStdBase64Groups : List Char → Bool
  | [] => true
  | [a, b, c, d] =>
    inB64Alphabet a && inB64Alphabet b &&
      ((inB64Alphabet c && (inB64Alphabet d || d == '=')) || (c == '=' && d == '='))
  | a :: b :: c :: d :: rest =>
    inB64Alphabet a && inB64Alphabet b && inB64Alphabet c && inB64Alphabet d &&
      isStdBase64Groups rest
  | _ => false

/-- Standard base64 with padding (RFC 4648, section 4), line breaks being
ignored. -/
def isStdBase64 (s : List Char) : Bool :=
  isStdBase64Groups (s.filter fun c => !(c = '\r' || c = '\n'))

/-! ## JSON texts (RFC 8259)

What the specification calls valid JSON: the grammar of RFC 8259 on the
characters of a text, stated apart from the reader of `encoding/json`. Each
predicate holds of the texts that one rule of the grammar derives. -/

/-- The rule `ws`: any number of spaces, horizontal tabs, line feeds and
carriage returns. -/
def IsJWs (w : List Char) : Prop :=
  ∀ c ∈ w, c = ' ' ∨ c = '\t' ∨ c = '\n' ∨ c = '\r'

/-- The rule `DIGIT`: `0` to `9`. -/
def IsJDigit (c : Char) : Prop :=
  48 ≤ c.toNat ∧ c.toNat ≤ 57

/-- The rule `HEXDIG`, in either case: `0` to `9`, `a` to `f`, `A` to `F`. -/
def IsJHex (c : Char) : Prop :=
  IsJDigit c ∨ (97 ≤ c.toNat ∧ c.toNat ≤ 102) ∨ (65 ≤ c.toNat ∧ c.toNat ≤ 70)

/-- The rule `int = zero / ( digit1-9 *DIGIT )`. -/
def IsJInt (s : List Char) : Prop :=
  s = ['0'] ∨ ∃ d ds, s = d :: ds ∧ IsJDigit d ∧ d ≠ '0' ∧ ∀ c ∈ ds, IsJDigit c

/-- The rule `frac = decimal-point 1*DIGIT`. -/
def IsJFrac (s : List Char) : Prop :=
  ∃ d ds, s = '.' :: d :: ds ∧ ∀ c ∈ d :: ds, IsJDigit c

/-- The rule `exp = e [ minus / plus ] 1*DIGIT`. -/
def IsJExp (s : List Char) : Prop :=
  ∃ e sign d ds, s = e :: (sign ++ d :: ds) ∧ (e = 'e' ∨ e = 'E') ∧
    (sign = [] ∨ sign = ['-'] ∨ sign = ['+']) ∧ ∀ c ∈ d :: ds, IsJDigit c

/-- The rule `number = [ minus ] int [ frac ] [ exp ]`. -/
def IsJNumber (s : List Char) : Prop :=
  ∃ minus int frac exp, s = minus ++ (int ++ (frac ++ exp)) ∧ (minus = [] ∨ minus = ['-']) ∧
    IsJInt int ∧ (frac = [] ∨ IsJFrac frac) ∧ (exp = [] ∨ IsJExp exp)

/-- The rule `*char`, what stands between the quotation marks of a string: a
character other than the quotation mark, the reverse solidus and the control
characters stands for itself; a reverse solidus starts an escape, which is a
two-character escape or `u` and four hexadecimal digits. -/
inductive IsJChars : List Char → Prop where
  | nil : IsJChars []
  | unescaped (c : Char) (cs : List Char) :
    0x20 ≤ c.toNat → c ≠ '"' → c ≠ '\\' → IsJChars cs → IsJChars (c :: cs)
  | escape (e : Char) (cs : List Char) :
    (e = '"' ∨ e = '\\' ∨ e = '/' ∨ e = 'b' ∨ e = 'f' ∨ e = 'n' ∨ e = 'r' ∨ e = 't') →
    IsJChars cs → IsJChars ('\\' :: e :: cs)
  | unicode (h1 h2 h3 h4 : Char) (cs : List Char) :
    IsJHex h1 → IsJHex h2 → IsJHex h3 → IsJHex h4 → IsJChars cs →
    IsJChars ('\\' :: 'u' :: h1 :: h2 :: h3 :: h4 :: cs)

/-- The rule `string = quotation-mark *char quotation-mark`. -/
def IsJString (s : List Char) : Prop :=
  ∃ body, s = '"' :: (body ++ ['"']) ∧ IsJChars body

mutual
/-- The rule `value = false / null / true / object / array / number /
string`, with `object = begin-object [ member *( value-separator member ) ]
end-object` and `array = begin-array [ value *( value-separator value ) ]
end-array`; the six structural characters may have white space on either
side. -/
inductive IsJValue : List Char → Prop where
  | litFalse : IsJValue ['f', 'a', 'l', 's', 'e']
  | litNull : IsJValue ['n', 'u', 'l', 'l']
  | litTrue : IsJValue ['t', 'r', 'u', 'e']
  | number (s : List Char) : IsJNumber s → IsJValue s
  | string (s : List Char) : IsJString s → IsJValue s
  | emptyObject (w : List Char) : IsJWs w → IsJValue ('{' :: (w ++ ['}']))
  | object (ms : List Char) : IsJMembers ms → IsJValue ('{' :: (ms ++ ['}']))
  | emptyArray (w : List Char) : IsJWs w → IsJValue ('[' :: (w ++ [']']))
  | array (es : List Char) : IsJElements es → IsJValue ('[' :: (es ++ [']']))
/-- The members of an object, `member = string name-separator value`, one or
more, separated by commas, with the white space around them. -/
inductive IsJMembers : List Char → Prop where
  | one (w1 k w2 w3 v w4 : List Char) :
    IsJWs w1 → IsJString k → IsJWs w2 → IsJWs w3 → IsJValue v → IsJWs w4 →
    IsJMembers (w1 ++ (k ++ (w2 ++ ':' :: (w3 ++ (v ++ w4)))))
  | more (w1 k w2 w3 v w4 ms : List Char) :
    IsJWs w1 → IsJString k → IsJWs w2 → IsJWs w3 → IsJValue v → IsJWs w4 → IsJMembers ms →
    IsJMembers (w1 ++ (k ++ (w2 ++ ':' :: (w3 ++ (v ++ (w4 ++ ',' :: ms))))))
/-- The elements of an array, one or more values separated by commas, with
the white space around them. -/
inductive IsJElements : List Char → Prop where
  | one (w1 v w2 : List Char) :
    IsJWs w1 → IsJValue v → IsJWs w2 → IsJElements (w1 ++ (v ++ w2))
  | more (w1 v w2 es : List Char) :
    IsJWs w1 → IsJValue v → IsJWs w2 → IsJElements es →
    IsJElements (w1 ++ (v ++ (w2 ++ ',' :: es)))
end

/-- The rule `JSON-text = ws value ws`: a valid JSON text. -/
def IsJSONText (s : List Char) : Prop :=
  ∃ w1 v w2, s = w1 ++ (v ++ w2) ∧ IsJWs w1 ∧ IsJValue v ∧ IsJWs w2

/-- The three readers of JSON accept texts of the grammar only, with the fuel
`fuel`: what a reader has taken from the text is a value, the members of an
object or the elements of an array. -/
def ReadersSound (fuel : Nat) : Prop :=
  (∀ (depth : Nat) (cs : List Char) (v : Value) (rest : List Char),
    parseValue fuel depth cs = some (v, rest) → ∃ s, cs = s ++ rest ∧ IsJValue s) ∧
  (∀ (depth : Nat) (cs : List Char) (acc : genericCursor) (v : Value) (rest : List Char),
    parseMembers fuel depth cs acc = some (v, rest) →
      ∃ ms, cs = ms ++ '}' :: rest ∧ IsJMembers ms) ∧
  (∀ (depth : Nat) (cs : List Char) (acc : List Value) (v : Value) (rest : List Char),
    parseElems fuel depth cs acc = some (v, rest) →
      ∃ es, cs = es ++ ']' :: rest ∧ IsJElements es)


/-! ## Reading the chain of a pager as a query on a table

The table is the list of its rows, and a row is represented by its key, the
value of the cursor column; the keys of a table are distinct. The keys are of
any type `α` that has a linear order, the order in which the database
compares and sorts the column: integers, texts, timestamps. The chain that
`cursorPaging.Build` emits is read as the specification reads it: keep the
rows whose key satisfies the filter, sort them by key in the direction of the
order, keep the first rows up to the limit. -/

/-- How the keys of a column travel between the program and the database:
`toValue k` is the Go value that `CursorField()` returns for the row of key
`k`, and `ofValue v` is the key the database reads from the bound parameter
`v`, `none` when the parameter is not a value of the column. -/
structure Column (α : Type) where
  toValue : α → Value
  ofValue : Value → Option α

/-- A column of integers: the key `n` travels as the number `n`. -/
def intColumn : Column Int where
  toValue := Value.num
  ofValue := fun v =>
    match v with
    | Value.num n => some n
    | Value.big n => some n
    | _ => none

/-- A column of texts (names, UUIDs, timestamps in a fixed format), compared
character by character: the key, a sequence of characters, travels as the
string of these characters. -/
def textColumn : Column (List Char) where
  toValue := fun cs => Value.str (String.mk cs)
  ofValue := fun v =>
    match v with
    | Value.str s => some s.toList
    | _ => none

/-- A column of byte strings, compared byte by byte: the key travels as the
Go string of these bytes, and a bound string is read as its bytes. -/
def bytesColumn : Column (List Nat) where
  toValue := Value.bytes
  ofValue := fun v =>
    match v with
    | Value.bytes bs => some bs
    | Value.str s => some (utf8Encode s.toList)
    | _ => none

/-- The rows in the sort order `sortOrder`: by increasing key for "asc", by
decreasing key for "desc". -/
def sortRows {α : Type} [LinearOrder α] (sortOrder : String) (rows : List α) :
    Option (List α) :=
  if sortOrder = sortOrderASC then some (rows.insertionSort fun a b => a ≤ b)
  else if sortOrder = sortOrderDESC then some (rows.insertionSort fun a b => b ≤ a)
  else none

/-- The rows that the filter "field > ?" or "field < ?", bound to one value
of the column, keeps. -/
def filterRows {α : Type} [LinearOrder α] (col : Column α) (field query : String)
    (args : List Value) (rows : List α) : Option (List α) :=
  match args with
  | [v] =>
    match col.ofValue v with
    | some b =>
      if query = field ++ " > ?" then some (rows.filter fun k => decide (b < k))
      else if query = field ++ " < ?" then some (rows.filter fun k => decide (k < b))
      else none
    | none => none
  | _ => none

/-- The rows in the order "field asc" or "field desc". -/
def orderRows {α : Type} [LinearOrder α] (field : String) (order : Value) (rows : List α) :
    Option (List α) :=
  match order with
  | Value.str s =>
    if s = field ++ " asc" then sortRows sortOrderASC rows
    else if s = field ++ " desc" then sortRows sortOrderDESC rows
    else none
  | _ => none

/-- The first rows up to the limit `n`; a negative limit is no limit (gorm
writes a `LIMIT` clause only for a limit that is not negative, and documents
`Limit(-1)` as the way to cancel a limit). -/
def limitRows {α : Type} (n : Int) (rows : List α) : List α :=
  if n < 0 then rows else rows.take n.toNat

/-- The rows that a chain of `cursorPaging.Build` on the empty chain
describes: a filter or none, an order, a limit. `none` for a chain of another
form. -/
def runQuery {α : Type} [LinearOrder α] (col : Column α) (field : String) (table : List α) :
    Tx → Option (List α)
  | [Op.Where query args, Op.Order order, Op.Limit n] =>
    (filterRows col field query args table).bind fun rows =>
      (orderRows field order rows).map fun rows => limitRows n rows
  | [Op.Order order, Op.Limit n] =>
    (orderRows field order table).map fun rows => limitRows n rows
  | _ => none

/-- The caller's trimming of the rows of a query to the page size. -/
def trimToLimit {α : Type} (limit : Int) (rows : Option (List α)) : Option (List α) :=
  rows.map fun rows => rows.take limit.toNat

/-- The table of the ids 1 to 25, in no particular order. -/
def sampleTable : List Int :=
  [13, 1, 25, 7, 19, 2, 14, 8, 20, 3, 15, 9, 21, 4, 16, 10, 22, 5, 17, 11, 23, 6, 18, 12, 24]

/-- A table of five names, in no particular order. -/
def sampleNames : List (List Char) :=
  ["dan".toList, "bob".toList, "eve".toList, "al".toList, "cy".toList]

/-! ## Modifiers and builders (`condition.go`, `associate.go`)

A variadic argument list `fields ...string` is `none` when the call passes
no argument (the slice is nil) and `some fields` otherwise. -/

/-- `Select`: a predicate that only selects columns. -/
def Select (fields : Option (List String)) : Cond :=
  { selectField := fields }

/-- `Omit`: a predicate that only omits columns. -/
def Omit (fields : Option (List String)) : Cond :=
  { omitField := fields }

/-- `Limit`: a predicate that only sets the limit. -/
def Limit (limit : Int) : Cond :=
  { limit := some limit }

/-- `Offset`: a predicate that only sets the offset. -/
def Offset (offset : Int) : Cond :=
  { offset := some offset }

/-- `Order`: a predicate that only sets the order. -/
def Order (order : Value) : Cond :=
  { order := order }

/-- `Cond.Build`, on the fields of the receiver. -/
def Cond.Build (c : Cond) (tx : Tx) : Tx :=
  let tx := match c.selectField with
    | some selectField => tx ++ [Op.Select selectField]
    | none => tx
  let tx := match c.omitField with
    | some omitField => tx ++ [Op.Omit omitField]
    | none => tx
  let tx := if notEmptyString c.query then tx ++ [Op.Where c.query c.params] else tx
  let tx := match c.limit with
    | some limit => tx ++ [Op.Limit limit]
    | none => tx
  let tx := match c.offset with
    | some offset => tx ++ [Op.Offset offset]
    | none => tx
  if c.order.isNil then tx else tx ++ [Op.Order c.order]

/-- The struct `preload`; a nil `cond` is `none`. The predicate is held by
value: `Preload` makes it with `And` and keeps the only pointer to it. -/
structure preload where
  cond : Option Cond
  table : String

/-- The struct `join`. -/
structure join where
  cond : Option Cond
  table : String

/-- `Preload`: the heap after the call of `And` and the new object, `none`
being the nil pointer the function returns for a blank table. -/
def Preload (h : Heap) (table : String) (conds : List Nat) : Option (Heap × Option preload) :=
  if notEmptyString table then
    match And h conds with
    | none => none
    | some (h, a) => some (h, some { cond := h[a]?, table := table })
  else some (h, none)

/-- `Join`. -/
def Join (h : Heap) (table : String) (conds : List Nat) : Option (Heap × Option join) :=
  if notEmptyString table then
    match And h conds with
    | none => none
    | some (h, a) => some (h, some { cond := h[a]?, table := table })
  else some (h, none)

/-- The function that `preload.Build` and `join.Build` pass to gorm, applied
to a chain. -/
def callback (cond : Option Cond) (tmpTx : Tx) : Tx :=
  match cond with
  | some c => c.Build tmpTx
  | none => tmpTx

/-- `preload.Build`. -/
def preload.Build (p : preload) (tx : Tx) : Tx :=
  if notEmptyString p.table then tx ++ [Op.Preload p.table (callback p.cond [])] else tx

/-- `join.Build`. -/
def join.Build (p : join) (tx : Tx) : Tx :=
  if notEmptyString p.table then tx ++ [Op.Joins p.table (callback p.cond [])] else tx

/-- A value of the interface `Builder`: a `*Cond` (by the state of the object
when `Build` is called), an `*associate` with its optional `cond` and its
`listBuilder`, a `*preload` or a `*join`, which may be the nil pointer that
`Preload` and `Join` return, or one of the two pagers. -/
inductive Builder where
  | cond (c : Cond)
  | associate (cond : Option Cond) (listBuilder : List Builder)
  | preload (p : Option preload)
  | join (p : Option join)
  | cursor (c : cursorPaging)
  | offset (c : offsetPaging)

/-- `Associate`. -/
def Associate (args : List Builder) : Builder :=
  Builder.associate none args

/-- `Cond.Associate`. -/
def Cond.Associate (c : Cond) (args : List Builder) : Builder :=
  Builder.associate (some c) args

mutual
/-- The method `Build` of a `Builder`: `Cond.Build`, `associate.Build`,
`preload.Build`, `join.Build` or that of a pager; `none` when the receiver is
a nil pointer (the Go program panics). -/
def Builder.Build : Builder → Tx → Option Tx
  | Builder.cond c, tx => some (c.Build tx)
  | Builder.associate assoCond listBuilder, tx =>
    Builder.BuildAll listBuilder (match assoCond with
      | some c => c.Build tx
      | none => tx)
  | Builder.preload none, _ => none
  | Builder.preload (some p), tx => some (p.Build tx)
  | Builder.join none, _ => none
  | Builder.join (some p), tx => some (p.Build tx)
  | Builder.cursor c, tx => some (c.Build tx).2
  | Builder.offset c, tx => some (c.Build tx)
/-- The loop of `associate.Build` over `listBuilder`. -/
def Builder.BuildAll : List Builder → Tx → Option Tx
  | [], tx => some tx
  | v :: rest, tx =>
    match Builder.Build v tx with
    | none => none
    | some tx => Builder.BuildAll rest tx
end

/-- The filters applied to the chain itself, those inside a `Preload` or a
`Joins` left out. -/
def ownWheres (tx : Tx) : Tx :=
  tx.filter fun op =>
    match op with
    | Op.Where _ _ => true
    | _ => false

/-- A builder made by `Preload` or `Join` for a table that is not blank. -/
def Builder.isNested : Builder → Bool
  | Builder.preload (some p) => notEmptyString p.table
  | Builder.join (some p) => notEmptyString p.table
  | _ => false

/-- A predicate with every modifier, for the examples: `And` of a `Select`, an
`Omit`, a filter, a `Limit` and an `Offset`, with the order set on the
result. -/
def sampleCond : Cond :=
  { selectField := some ["id", "name"], omitField := some ["secret"], limit := some 5,
    offset := some 10, query := "age > ?", params := [Value.num 18], operator := " AND ",
    order := Value.str "id desc" }

/-- What a builder made by `Preload` or `Join` is expected to add to the
chain: one operation, which holds the predicate of the builder in its own
sub-chain. -/
def nestedOps : Builder → List Op
  | Builder.preload (some p) => [Op.Preload p.table (callback p.cond [])]
  | Builder.join (some p) => [Op.Joins p.table (callback p.cond [])]
  | _ => []

/-- The value of a modifier that the children of an `And` or an `Or` are
expected to leave on the result: that of the last child in the list that
sets it, `none` when no child does. -/
def lastSet {α : Type} (f : Cond → Option α) : List Cond → Option α
  | [] => none
  | c :: rest =>
    match lastSet f rest with
    | some v => some v
    | none => f c

/-- Three predicates at the addresses 0, 1, 2: `Limit(5)`,
`Order("id desc")` and `Equal("a", 1)`. -/
def modifierHeap : Heap :=
  [Limit 5, Order (Value.str "id desc"), Equal "a" (Value.num 1)]

/-! ## Placeholders and parameters -/

/-- The number of `?` placeholders of a fragment. -/
def placeholders (q : String) : Nat :=
  q.toList.count '?'

/-- The predicates that the fourteen leaf factories return for a field name
without `?`. -/
inductive FactoryLeaf : Cond → Prop where
  | equal (field : String) (v : Value) : '?' ∉ field.toList → FactoryLeaf (Equal field v)
  | notEqual (field : String) (v : Value) :
    '?' ∉ field.toList → FactoryLeaf (NotEqual field v)
  | greaterThan (field : String) (v : Value) :
    '?' ∉ field.toList → FactoryLeaf (GreaterThan field v)
  | greaterEqualThan (field : String) (v : Value) :
    '?' ∉ field.toList → FactoryLeaf (GreaterEqualThan field v)
  | lessThan (field : String) (v : Value) :
    '?' ∉ field.toList → FactoryLeaf (LessThan field v)
  | lessEqualThan (field : String) (v : Value) :
    '?' ∉ field.toList → FactoryLeaf (LessEqualThan field v)
  | like (field : String) (v : String) : '?' ∉ field.toList → FactoryLeaf (Like field v)
  | notLike (field : String) (v : String) : '?' ∉ field.toList → FactoryLeaf (NotLike field v)
  | isIn (field : String) (v : Value) (vs : List Value) :
    '?' ∉ field.toList → FactoryLeaf (In field v vs)
  | notIn (field : String) (v : Value) (vs : List Value) :
    '?' ∉ field.toList → FactoryLeaf (NotIn field v vs)
  | isNull (field : String) : '?' ∉ field.toList → FactoryLeaf (IsNull field)
  | isNotNull (field : String) : '?' ∉ field.toList → FactoryLeaf (IsNotNull field)
  | between (field lower upper : String) :
    '?' ∉ field.toList → FactoryLeaf (Between field lower upper)
  | notBetween (field lower upper : String) :
    '?' ∉ field.toList → FactoryLeaf (NotBetween field lower upper)

/-- The heaps a program reaches by calling the leaf factories, `And`, `Or`
and `Not`, in any order and on any predicates made so far, the same one more
than once included. -/
inductive Composed : Heap → Prop where
  | empty : Composed []
  | leaf (h : Heap) (c : Cond) : Composed h → FactoryLeaf c → Composed (h.alloc c).1
  | and (h : Heap) (as : List Nat) (h' : Heap) (r : Nat) :
    Composed h → And h as = some (h', r) → Composed h'
  | or (h : Heap) (as : List Nat) (h' : Heap) (r : Nat) :
    Composed h → Or h as = some (h', r) → Composed h'
  | not (h : Heap) (a : Nat) (h' : Heap) (r : Nat) :
    Composed h → Not h a = some (h', r) → Composed h'

/-- Two leaves at the addresses 0 and 1: `In("id", 1, 2)` and
`Between("age", "1", "9")`. -/
def factoryHeap : Heap :=
  [In "id" (Value.num 1) [Value.num 2], Between "age" "1" "9"]

/-! ## Machine integers -/

theorem wrapInt_of_isInt64 {n : Int} (h : isInt64 n) : wrapInt n = n := by
  unfold isInt64 minInt64 maxInt64 at h
  unfold wrapInt
  omega

theorem isInt64_wrapInt (n : Int) : isInt64 (wrapInt n) := by
  unfold isInt64 minInt64 maxInt64 wrapInt
  omega

theorem wrapInt_succ {n : Int} (h : isInt64 n) :
    wrapInt (n + 1) = if n = maxInt64 then minInt64 else n + 1 := by
  unfold isInt64 minInt64 maxInt64 at h
  unfold wrapInt maxInt64 minInt64
  split <;> omega

theorem wrapInt_mul_left (a b : Int) : wrapInt (wrapInt a * b) = wrapInt (a * b) := by
  have h : wrapInt a = a - (a + 2 ^ 63) / 2 ^ 64 * 2 ^ 64 := by
    unfold wrapInt; omega
  rw [h]
  unfold wrapInt
  have e : (a - (a + 2 ^ 63) / 2 ^ 64 * 2 ^ 64) * b + 2 ^ 63 =
      (a * b + 2 ^ 63) + (-((a + 2 ^ 63) / 2 ^ 64) * b) * 2 ^ 64 := by ring
  rw [e, Int.add_mul_emod_self]

theorem wrapInt_sub_one_mul (a b : Int) :
    wrapInt (wrapInt (a - 1) * b) = wrapInt ((a - 1) * b) :=
  wrapInt_mul_left (a - 1) b

/-! ## Auxiliary facts -/

theorem length_pos_of_not_blank {s : String} (h : isEmptyString s = false) : 0 < s.length := by
  rcases s with ⟨l⟩
  cases l with
  | nil => simp [isEmptyString] at h
  | cons a l => simp [String.length]

theorem wrapQuery_length_pos (s : String) : 0 < (wrapQuery s).length := by
  simp only [wrapQuery, String.length_append]
  have : "(".length = 1 := rfl
  omega

theorem childFragment_length_pos {op : String} {c : Cond} (h : isEmptyString c.query = false) :
    0 < (childFragment op c).length := by
  unfold childFragment
  split
  · exact wrapQuery_length_pos _
  · exact length_pos_of_not_blank h

theorem joinInto_eq_go (op : String) (fs : List String) :
    ∀ b : String, 0 < b.length → joinInto op b fs = String.intercalate.go b op fs := by
  induction fs with
  | nil => intro b _; rfl
  | cons f fs ih =>
    intro b hb
    have h1 : joinInto op b (f :: fs) = joinInto op (b ++ op ++ f) fs := by
      simp [joinInto, hb]
    rw [h1, ih _ (by simp [String.length_append]; omega)]
    rfl

theorem joinInto_empty (op : String) (fs : List String) (hfs : ∀ f ∈ fs, 0 < f.length) :
    joinInto op "" fs = String.intercalate op fs := by
  cases fs with
  | nil => rfl
  | cons f fs =>
    have h1 : joinInto op "" (f :: fs) = joinInto op f fs := by
      simp [joinInto]
    rw [h1, joinInto_eq_go op fs f (hfs f (by simp))]
    rfl

theorem copyModifiers_query (x c : Cond) : (copyModifiers x c).query = x.query := by
  unfold copyModifiers; split <;> split <;> split <;> split <;> rfl

theorem copyModifiers_params (x c : Cond) : (copyModifiers x c).params = x.params := by
  unfold copyModifiers; split <;> split <;> split <;> split <;> rfl

theorem copyModifiers_operator (x c : Cond) : (copyModifiers x c).operator = x.operator := by
  unfold copyModifiers; split <;> split <;> split <;> split <;> rfl

theorem children_set_of_not_mem (h : Heap) (a : Nat) (c : Cond) (as : List Nat) (ha : a ∉ as) :
    children (h.set a c) as = children h as := by
  unfold children
  apply List.filterMap_congr
  intro b hb
  have : a ≠ b := fun e => ha (e ▸ hb)
  simp [List.getElem?_set, this]

/-- The loop of `appendCondition` on children that are allocated and
pairwise distinct. -/
theorem appendLoop_distinct (op : String) (as : List Nat) :
    ∀ (h : Heap) (x : Cond) (b : String), (∀ a ∈ as, a < h.length) → as.Nodup →
      ∃ h' x', appendLoop op h x b as = some (h', x', joinInto op b
          ((contributing (children h as)).map (childFragment op))) ∧
        h'.length = h.length ∧
        x'.params = x.params ++ ((contributing (children h as)).map Cond.params).flatten ∧
        x'.operator = x.operator := by
  induction as with
  | nil =>
    intro h x b _ _
    exact ⟨h, x, by simp [appendLoop, children, contributing, joinInto], rfl, by simp [children, contributing], rfl⟩
  | cons a as ih =>
    intro h x b hv hnd
    have ha : a < h.length := hv a (by simp)
    have hnd' := List.nodup_cons.mp hnd
    have hget : h[a]? = some h[a] := List.getElem?_eq_getElem ha
    have hch : children h (a :: as) = h[a] :: children h as := by
      simp [children, List.filterMap_cons, hget]
    by_cases hq : isEmptyString h[a].query = true
    · obtain ⟨h', x', e, hl, hp, ho⟩ := ih h (copyModifiers x h[a]) b
        (fun a' ha' => hv a' (by simp [ha'])) hnd'.2
      refine ⟨h', x', ?_, hl, ?_, ?_⟩
      · simp only [appendLoop, hget, hq, hch, contributing, List.filter_cons]
        simpa [contributing] using e
      · rw [hp, copyModifiers_params, hch]
        simp [contributing, List.filter_cons, hq]
      · rw [ho, copyModifiers_operator]
    · have hq' : isEmptyString h[a].query = false := by simpa using hq
      obtain ⟨h', x', e, hl, hp, ho⟩ := ih
        (h.set a (if needsWrap op h[a] then { h[a] with query := wrapQuery h[a].query } else h[a]))
        { copyModifiers x h[a] with params := (copyModifiers x h[a]).params ++
            (if needsWrap op h[a] then { h[a] with query := wrapQuery h[a].query } else h[a]).params }
        ((if 0 < b.length then b ++ op else b) ++
          (if needsWrap op h[a] then { h[a] with query := wrapQuery h[a].query } else h[a]).query)
        (fun a' ha' => by simpa using hv a' (by simp [ha'])) hnd'.2
      rw [children_set_of_not_mem _ _ _ _ hnd'.1] at e hp
      have hfrag : (if needsWrap op h[a] then { h[a] with query := wrapQuery h[a].query } else h[a]).query
          = childFragment op h[a] := by
        unfold childFragment; split <;> rfl
      have hpar : (if needsWrap op h[a] then { h[a] with query := wrapQuery h[a].query } else h[a]).params
          = h[a].params := by
        split <;> rfl
      refine ⟨h', x', ?_, ?_, ?_, ?_⟩
      · simp only [appendLoop, hget, hq', hch]
        rw [e, hfrag]
        simp [contributing, List.filter_cons, hq', joinInto]
      · simpa using hl
      · rw [hp, hpar, copyModifiers_params, hch]
        simp [contributing, List.filter_cons, hq']
      · rw [ho]; exact copyModifiers_operator _ _

theorem appendLoop_frame (op : String) (as : List Nat) :
    ∀ (h : Heap) (x : Cond) (b : String) (h' : Heap) (x' : Cond) (b' : String),
      appendLoop op h x b as = some (h', x', b') →
      h'.length = h.length ∧ ∀ i, i ∉ as → h'[i]? = h[i]? := by
  induction as with
  | nil =>
    intro h x b h' x' b' e
    simp only [appendLoop, Option.some.injEq, Prod.mk.injEq] at e
    obtain ⟨rfl, -, -⟩ := e
    exact ⟨rfl, fun _ _ => rfl⟩
  | cons a as ih =>
    intro h x b h' x' b' e
    simp only [appendLoop] at e
    cases hget : h[a]? with
    | none => simp [hget] at e
    | some c =>
      simp only [hget] at e
      split at e
      · obtain ⟨hl, hf⟩ := ih _ _ _ _ _ _ e
        refine ⟨by simpa using hl, fun i hi => ?_⟩
        have hia : a ≠ i := fun e' => hi (by simp [e'])
        rw [hf i (fun hm => hi (by simp [hm]))]
        simp [List.getElem?_set, hia]
      · obtain ⟨hl, hf⟩ := ih _ _ _ _ _ _ e
        exact ⟨hl, fun i hi => hf i (fun hm => hi (by simp [hm]))⟩

theorem alloc_get (h : Heap) (c : Cond) : (h.alloc c).1[(h.alloc c).2]? = some c := by
  simp [Heap.alloc]

theorem alloc_get_old (h : Heap) (c : Cond) (i : Nat) (hi : i < h.length) :
    (h.alloc c).1[i]? = h[i]? := by
  simp [Heap.alloc, List.getElem?_append_left hi]

/-- `appendCondition` on a new receiver and children that are allocated and
pairwise distinct: the query is the contributing children's fragments joined
by the operator, the parameters are theirs, concatenated. -/
theorem appendCondition_distinct (op : String) (h : Heap) (as : List Nat)
    (hv : ∀ a ∈ as, a < h.length) (hnd : as.Nodup) :
    ∃ h' x, appendCondition h {} op as = some (h', x) ∧ h'.length = h.length ∧
      (∀ i, i ∉ as → h'[i]? = h[i]?) ∧
      x.query = String.intercalate op ((contributing (children h as)).map (childFragment op)) ∧
      x.params = ((contributing (children h as)).map Cond.params).flatten ∧
      x.operator = op := by
  obtain ⟨h', x', e, hl, hp, ho⟩ := appendLoop_distinct op as h
    { operator := op } "" hv hnd
  have hfr := (appendLoop_frame op as _ _ _ _ _ _ e).2
  let q := joinInto op "" ((contributing (children h as)).map (childFragment op))
  refine ⟨h', { x' with query := q }, ?_, hl, hfr, ?_, ?_, ?_⟩
  · have h0 : isEmptyString "" = true := by decide
    simp only [appendCondition, h0]
    simp only [Bool.not_true, Bool.and_false, Bool.false_and, Bool.false_eq_true, if_false]
    rw [e]
  · apply joinInto_empty
    intro f hf
    obtain ⟨c, hc, rfl⟩ := List.mem_map.mp hf
    have hc' := (List.mem_filter.mp hc).2
    exact childFragment_length_pos (by simpa using hc')
  · simpa using hp
  · exact ho

/-- `And` and `Or` on children that are allocated and pairwise distinct. -/
theorem And_Or_distinct (h : Heap) (as : List Nat)
    (hv : ∀ a ∈ as, a < h.length) (hnd : as.Nodup) :
    (∃ h' x, And h as = some (h' ++ [x], h.length) ∧ h'.length = h.length ∧
      (∀ i, i ∉ as → h'[i]? = h[i]?) ∧
      x.query = String.intercalate " AND "
        ((contributing (children h as)).map (childFragment " AND ")) ∧
      x.params = ((contributing (children h as)).map Cond.params).flatten ∧
      x.operator = " AND ") ∧
    (∃ h' x, Or h as = some (h' ++ [x], h.length) ∧ h'.length = h.length ∧
      (∀ i, i ∉ as → h'[i]? = h[i]?) ∧
      x.query = String.intercalate " OR "
        ((contributing (children h as)).map (childFragment " OR ")) ∧
      x.params = ((contributing (children h as)).map Cond.params).flatten ∧
      x.operator = " OR ") := by
  constructor
  · obtain ⟨h', x, e, hl, r⟩ := appendCondition_distinct " AND " h as hv hnd
    exact ⟨h', x, by simp [And, e, Heap.alloc, hl], hl, r⟩
  · obtain ⟨h', x, e, hl, r⟩ := appendCondition_distinct " OR " h as hv hnd
    exact ⟨h', x, by simp [Or, e, Heap.alloc, hl], hl, r⟩

/-! ## Composition with `And` and `Or` -/

/-- C3, the code at the failing input: with `p = Or(b, c)`, whose fragment is
"b OR c", the call `And(p, p)` renders "(b OR c) AND ((b OR c))": the first
visit writes the wrapped text back into `p`, so the second visit wraps it
again, whereas the fragments of the children, each wrapped in one pair of
parentheses and joined by " AND ", are "(b OR c) AND (b OR c)". -/
theorem C3_repeated_child_wrapped_twice :
    ∃ h p, Or leafHeap [1, 2] = some (h, p) ∧
      fragmentOf (some (h, p)) = some "b OR c" ∧
      fragmentOf (And h [p, p]) = some "(b OR c) AND ((b OR c))" ∧
      String.intercalate " AND "
        ((contributing (children h [p, p])).map (childFragment " AND ")) =
        "(b OR c) AND (b OR c)" :=
  ⟨_, _, rfl, by decide, by decide, by decide⟩

/-- C4 as stated fails: `Or(a, b)` has the fragment "a OR b", and `And`
applied to that single predicate returns "(a OR b)". -/
theorem C4_counterexample :
    fragmentOf (Or leafHeap [0, 1]) = some "a OR b" ∧
    fragmentOf ((Or leafHeap [0, 1]).bind fun r => And r.1 [r.2]) = some "(a OR b)" :=
  ⟨by decide, by decide⟩

/-- C4, amended: `And(p)` (respectively `Or(p)`) on a single allocated
predicate `p` returns the empty fragment when the fragment of `p` is blank,
the fragment of `p` in one pair of parentheses when the combinator of `p` is
set and is not AND (respectively OR), and a fragment identical to that of
`p` otherwise. -/
theorem C4_single_child (h : Heap) (p : Nat) (c : Cond) (hp : h[p]? = some c) :
    fragmentOf (And h [p]) = some
      (if isEmptyString c.query then ""
        else if c.operator ≠ " AND " ∧ isEmptyString c.operator = false
          then "(" ++ c.query ++ ")" else c.query) ∧
    fragmentOf (Or h [p]) = some
      (if isEmptyString c.query then ""
        else if c.operator ≠ " OR " ∧ isEmptyString c.operator = false
          then "(" ++ c.query ++ ")" else c.query) := by
  have hlt : p < h.length := by
    rcases Nat.lt_or_ge p h.length with h1 | h1
    · exact h1
    · rw [List.getElem?_eq_none h1] at hp; cases hp
  have hch : children h [p] = [c] := by simp [children, hp]
  obtain ⟨⟨h1, x1, e1, hl1, -, hq1, -, -⟩, ⟨h2, x2, e2, hl2, -, hq2, -, -⟩⟩ :=
    And_Or_distinct h [p] (by simpa using hlt) (by simp)
  have key : ∀ op : String,
      String.intercalate op ((contributing (children h [p])).map (childFragment op)) =
      (if isEmptyString c.query then ""
        else if c.operator ≠ op ∧ isEmptyString c.operator = false
          then "(" ++ c.query ++ ")" else c.query) := by
    intro op
    rw [hch]
    by_cases hb : isEmptyString c.query = true
    · simp [contributing, hb, String.intercalate]
    · simp only [contributing, List.filter_cons, hb, Bool.not_false, if_true, List.filter_nil,
        List.map_cons, List.map_nil, String.intercalate, String.intercalate.go,
        Bool.false_eq_true, if_false, Bool.not_eq_true]
      simp [childFragment, needsWrap, wrapQuery]
  constructor
  · rw [e1, ← key " AND ", ← hq1]
    simp [fragmentOf, ← hl1]
  · rw [e2, ← key " OR ", ← hq2]
    simp [fragmentOf, ← hl2]

/-- C4, amended, at the leaf `a`: `And(a)` and `Or(a)` render "a". -/
theorem C4_single_child_witness :
    fragmentOf (And leafHeap [0]) = some "a" ∧ fragmentOf (Or leafHeap [0]) = some "a" := by
  have h := C4_single_child leafHeap 0 (Raw "a" [Value.num 1]) rfl
  exact ⟨h.1.trans (by decide), h.2.trans (by decide)⟩

/-! ## `In` and `appendSliceWhereIN` -/

/-- C6: for a non-empty list `x :: rest` of values that are neither nil nor
slices, `In(field, x :: rest)` with the list passed as one slice and
`In(field, x, rest...)` with the values passed one by one bind the same
parameter list, the values in input order. -/
theorem C6_in_slice_and_variadic_agree (field : String) (x : Value) (rest : List Value)
    (hx : ∀ v ∈ x :: rest, v.isNil = false ∧ v.isSlice = false) :
    (In field (Value.arr (x :: rest)) []).params = (In field x rest).params ∧
    appendSliceWhereIN (Value.arr (x :: rest)) [] = x :: rest ∧
    appendSliceWhereIN x rest = x :: rest ∧
    (In field x rest).params = [Value.arr (x :: rest)] := by
  have h1 : appendSliceWhereIN (Value.arr (x :: rest)) [] = x :: rest := by
    simp [appendSliceWhereIN]
  have h2 : appendSliceWhereIN x rest = x :: rest := by
    have hx0 := hx x (by simp)
    cases x <;> simp_all [appendSliceWhereIN, Value.isNil, Value.isSlice]
  simp [In, h1, h2]

/-- C6 at `In("id", []int{1,2,3})` and `In("id", 1, 2, 3)`. -/
theorem C6_in_slice_and_variadic_agree_witness :
    (In "id" (Value.arr [Value.num 1, Value.num 2, Value.num 3]) []).params =
      (In "id" (Value.num 1) [Value.num 2, Value.num 3]).params ∧
    appendSliceWhereIN (Value.arr [Value.num 1, Value.num 2, Value.num 3]) [] =
      [Value.num 1, Value.num 2, Value.num 3] ∧
    appendSliceWhereIN (Value.num 1) [Value.num 2, Value.num 3] =
      [Value.num 1, Value.num 2, Value.num 3] ∧
    (In "id" (Value.num 1) [Value.num 2, Value.num 3]).params =
      [Value.arr [Value.num 1, Value.num 2, Value.num 3]] :=
  C6_in_slice_and_variadic_agree "id" (Value.num 1) [Value.num 2, Value.num 3]
    (by simp [Value.isNil, Value.isSlice])

/-- C7 as stated fails: nil is not a sequence, and `appendSliceWhereIN(nil,
1, 2, 3)` is `[1, 2, 3]`, without the first argument. -/
theorem C7_counterexample :
    Value.isSlice Value.null = false ∧
    appendSliceWhereIN Value.null [Value.num 1, Value.num 2, Value.num 3] =
      [Value.num 1, Value.num 2, Value.num 3] ∧
    appendSliceWhereIN Value.null [Value.num 1, Value.num 2, Value.num 3] ≠
      Value.null :: [Value.num 1, Value.num 2, Value.num 3] := by
  refine ⟨rfl, rfl, ?_⟩
  simp [appendSliceWhereIN]

/-- C7, amended: for a first argument `v` that is not a sequence,
`appendSliceWhereIN(v, vs...)` is `v` followed by `vs` when `v` is not nil,
and `vs` alone when `v` is nil. -/
theorem C7_scalar_first_argument (field : String) (v : Value) (vs : List Value)
    (hv : v.isSlice = false) :
    appendSliceWhereIN v vs = (if v.isNil then vs else v :: vs) ∧
    (In field v vs).params = [Value.arr (if v.isNil then vs else v :: vs)] ∧
    (NotIn field v vs).params = [Value.arr (if v.isNil then vs else v :: vs)] := by
  have h : appendSliceWhereIN v vs = (if v.isNil then vs else v :: vs) := by
    cases v <;> simp_all [appendSliceWhereIN, Value.isNil, Value.isSlice]
  simp [In, NotIn, h]

/-- C7, amended, at `appendSliceWhereIN(1, 2, 3)`. -/
theorem C7_scalar_first_argument_witness :
    appendSliceWhereIN (Value.num 1) [Value.num 2, Value.num 3] =
      [Value.num 1, Value.num 2, Value.num 3] := by
  have h := (C7_scalar_first_argument "id" (Value.num 1) [Value.num 2, Value.num 3] rfl).1
  simpa [Value.isNil] using h

/-! ## Reading a rendered fragment -/

theorem flushWord_nil : flushWord [] = [] := rfl

theorem lexemes_append_of_delim (s : List Char) :
    ∀ (cur t : List Char), (t = [] ∨ ∃ d t', t = d :: t' ∧ (d = '(' ∨ d = ')' ∨ isSpace d = true)) →
      lexemes (s ++ t) cur = lexemes s cur ++ lexemes t [] := by
  induction s with
  | nil =>
    intro cur t ht
    rcases ht with rfl | ⟨d, t', rfl, hd⟩
    · simp [lexemes, flushWord_nil]
    · simp only [List.nil_append, lexemes, flushWord_nil]
      by_cases h1 : d = '('
      · simp [h1]
      · by_cases h2 : d = ')'
        · simp [h1, h2]
        · have h3 : isSpace d = true := by
            rcases hd with h | h | h
            · exact absurd h h1
            · exact absurd h h2
            · exact h
          simp [h1, h2, h3]
  | cons c s ih =>
    intro cur t ht
    have e1 := ih [] t ht
    have e2 := ih (cur ++ [c]) t ht
    simp only [List.cons_append, lexemes, List.append_eq]
    rw [e1, e2]
    split
    · simp
    · split
      · simp
      · split
        · simp
        · rfl

theorem group_append_of_sep (l1 : List Lexeme) :
    ∀ (run : List String) (sep : Lexeme) (l2 : List Lexeme),
      (sep = Lexeme.rp ∨ sep = Lexeme.and ∨ sep = Lexeme.or) →
      group (l1 ++ sep :: l2) run = group l1 run ++ group (sep :: l2) [] := by
  induction l1 with
  | nil =>
    intro run sep l2 hs
    rcases hs with rfl | rfl | rfl <;> simp [group, flushRun]
  | cons x l1 ih =>
    intro run sep l2 hs
    have e1 := ih [] sep l2 hs
    cases x <;> simp only [List.cons_append, group, List.append_eq, e1]
    · split <;> simp
    · simp
    · simp
    · simp
    · exact ih _ sep l2 hs

theorem toList_append (a b : String) : (a ++ b).toList = a.toList ++ b.toList := by
  simp [String.toList]

theorem tokens_join_and (a b : String) :
    tokens (a ++ " AND " ++ b) = tokens a ++ Tok.and :: tokens b := by
  unfold tokens
  have h1 : (a ++ " AND " ++ b).toList = a.toList ++ (' ' :: 'A' :: 'N' :: 'D' :: ' ' :: b.toList) := by
    simp [toList_append]
  rw [h1, lexemes_append_of_delim _ _ _ (Or.inr ⟨' ', _, rfl, Or.inr (Or.inr (by decide))⟩)]
  have h2 : lexemes (' ' :: 'A' :: 'N' :: 'D' :: ' ' :: b.toList) [] =
      Lexeme.and :: lexemes b.toList [] := by
    simp [lexemes, flushWord, isSpace]
  rw [h2, group_append_of_sep _ _ _ _ (Or.inr (Or.inl rfl))]
  simp [group, flushRun]

theorem tokens_join_or (a b : String) :
    tokens (a ++ " OR " ++ b) = tokens a ++ Tok.or :: tokens b := by
  unfold tokens
  have h1 : (a ++ " OR " ++ b).toList = a.toList ++ (' ' :: 'O' :: 'R' :: ' ' :: b.toList) := by
    simp [toList_append]
  rw [h1, lexemes_append_of_delim _ _ _ (Or.inr ⟨' ', _, rfl, Or.inr (Or.inr (by decide))⟩)]
  have h2 : lexemes (' ' :: 'O' :: 'R' :: ' ' :: b.toList) [] =
      Lexeme.or :: lexemes b.toList [] := by
    simp [lexemes, flushWord, isSpace]
  rw [h2, group_append_of_sep _ _ _ _ (Or.inr (Or.inr rfl))]
  simp [group, flushRun]

theorem tokens_wrapQuery (a : String) :
    tokens (wrapQuery a) = Tok.opening false :: (tokens a ++ [Tok.closing]) := by
  unfold tokens wrapQuery
  have h1 : ("(" ++ a ++ ")").toList = '(' :: (a.toList ++ [')']) := by
    simp [toList_append]
  rw [h1]
  have h2 : lexemes ('(' :: (a.toList ++ [')'])) [] =
      Lexeme.lp :: (lexemes a.toList [] ++ [Lexeme.rp]) := by
    simp only [lexemes, if_true, flushWord_nil, List.nil_append]
    rw [lexemes_append_of_delim _ _ _ (Or.inr ⟨')', _, rfl, Or.inr (Or.inl rfl)⟩)]
    simp [lexemes, flushWord_nil]
  rw [h2]
  simp only [group, isNotKeyword, flushRun, List.isEmpty_nil, if_true, List.nil_append,
    Bool.false_eq_true, if_false]
  rw [group_append_of_sep _ _ _ _ (Or.inl rfl)]
  simp [group, flushRun]

theorem tokens_not (a : String) :
    tokens ("NOT(" ++ a ++ ")") = Tok.opening true :: (tokens a ++ [Tok.closing]) := by
  unfold tokens
  have h1 : ("NOT(" ++ a ++ ")").toList = 'N' :: 'O' :: 'T' :: '(' :: (a.toList ++ [')']) := by
    simp [toList_append]
  rw [h1]
  have h2 : lexemes ('N' :: 'O' :: 'T' :: '(' :: (a.toList ++ [')'])) [] =
      Lexeme.word "NOT" :: Lexeme.lp :: (lexemes a.toList [] ++ [Lexeme.rp]) := by
    have e : lexemes ('N' :: 'O' :: 'T' :: '(' :: (a.toList ++ [')'])) [] =
        flushWord ['N', 'O', 'T'] ++ Lexeme.lp :: lexemes (a.toList ++ [')']) [] := by
      simp [lexemes, isSpace]
    rw [e, lexemes_append_of_delim _ _ _ (Or.inr ⟨')', _, rfl, Or.inr (Or.inl rfl)⟩)]
    have e2 : flushWord ['N', 'O', 'T'] = [Lexeme.word "NOT"] := by
      simp [flushWord]
    rw [e2]
    simp [lexemes, flushWord_nil]
  rw [h2]
  have h3 : isNotKeyword ([] ++ ["NOT"]) = true := by decide
  simp only [group, h3, if_true]
  rw [group_append_of_sep _ _ _ _ (Or.inl rfl)]
  simp [group, flushRun]

theorem lexemes_of_blank (s : List Char) (h : s.all isSpace = true) : lexemes s [] = [] := by
  induction s with
  | nil => rfl
  | cons c s ih =>
    simp only [List.all_cons, Bool.and_eq_true] at h
    have h1 : c ≠ '(' := by rintro rfl; exact absurd h.1 (by decide)
    have h2 : c ≠ ')' := by rintro rfl; exact absurd h.1 (by decide)
    simp [lexemes, h1, h2, h.1, ih h.2, flushWord_nil]

theorem not_blank_of_tokens {q : String} (h : tokens q ≠ []) : isEmptyString q = false := by
  cases hb : isEmptyString q with
  | false => rfl
  | true =>
    exfalso
    apply h
    unfold tokens
    rw [lexemes_of_blank _ hb]
    rfl

/-- The words of a list of lexemes that are all words. -/
theorem group_words (ls : List Lexeme) :
    ∀ run : List String,
      (ls.all fun l => match l with
        | Lexeme.word _ => true
        | _ => false) = true →
      ∃ ws, group ls run = flushRun (run ++ ws) ∧ ws.length = ls.length := by
  induction ls with
  | nil => intro run _; exact ⟨[], by simp [group], rfl⟩
  | cons l ls ih =>
    intro run h
    simp only [List.all_cons, Bool.and_eq_true] at h
    cases l with
    | word w =>
      obtain ⟨ws, e, hl⟩ := ih (run ++ [w]) h.2
      exact ⟨w :: ws, by simp [group, e], by simp [hl]⟩
    | lp => simp at h
    | rp => simp at h
    | and => simp at h
    | or => simp at h

theorem tokens_of_atomic {q : String} (h : atomicFragment q = true) :
    tokens q = [Tok.atom (atomWords q)] := by
  simp only [atomicFragment, Bool.and_eq_true, Bool.not_eq_true'] at h
  obtain ⟨ws, e, hl⟩ := group_words (lexemes q.toList []) [] h.2
  have hne : ws ≠ [] := by
    intro hw
    rw [hw] at hl
    have : lexemes q.toList [] = [] := List.length_eq_zero.mp hl.symm
    rw [this] at h
    simp at h
  have e' : tokens q = [Tok.atom ws] := by
    unfold tokens
    rw [e]
    cases ws with
    | nil => exact absurd rfl hne
    | cons w ws => simp [flushRun]
  have : atomWords q = ws := by simp [atomWords, e']
  rw [this, e']

theorem factorLike_atom (ρ : Nat → List String → Bool) (ws : List String) :
    FactorLike ρ [Tok.atom ws] 1 (fun i => ρ i ws) := by
  intro i l ls rest
  simp [Reader.run, Reader.step]

theorem factorLike_wrap (ρ : Nat → List String → Bool) (ts : List Tok) (n : Nat)
    (v : Nat → Bool) (neg : Bool) (h : OrLike ρ ts n v) :
    FactorLike ρ (Tok.opening neg :: (ts ++ [Tok.closing])) n
      (fun i => if neg then !v i else v i) := by
  intro i l ls rest
  obtain ⟨l', hn, hv, e⟩ := h i false neg (l :: ls) (Tok.closing :: rest)
  have e1 : Reader.run ρ (Tok.opening neg :: (ts ++ [Tok.closing]) ++ rest)
      { levels := l :: ls, operand := true, atoms := i } =
      Reader.run ρ (ts ++ Tok.closing :: rest)
        { levels := { ors := false, ands := true, negated := neg } :: l :: ls, operand := true,
          atoms := i } := by
    simp [Reader.run, Reader.step]
  rw [e1, e]
  have hval : l'.value = (if neg then !v i else v i) := by
    simp only [Level.value, hn, hv, Bool.false_or]
  simp [Reader.run, Reader.step, hval]

theorem orLike_of_factorLike (ρ : Nat → List String → Bool) (ts : List Tok) (n : Nat)
    (v : Nat → Bool) (h : FactorLike ρ ts n v) : OrLike ρ ts n v := by
  intro i ors neg ls rest
  exact ⟨{ ors := ors, ands := true && v i, negated := neg }, rfl, by simp, h _ _ _ _⟩

theorem factorLike_and (ρ : Nat → List String → Bool) (t1 t2 : List Tok) (n1 n2 : Nat)
    (v1 v2 : Nat → Bool) (h1 : FactorLike ρ t1 n1 v1) (h2 : FactorLike ρ t2 n2 v2) :
    FactorLike ρ (t1 ++ Tok.and :: t2) (n1 + n2) (fun i => v1 i && v2 (i + n1)) := by
  intro i l ls rest
  have e1 := h1 i l ls (Tok.and :: (t2 ++ rest))
  have e2 := h2 (i + n1) { l with ands := l.ands && v1 i } ls rest
  simp only [List.append_assoc, List.cons_append] at e1 ⊢
  rw [e1]
  simp only [Reader.run, Reader.step]
  rw [e2]
  simp [Bool.and_assoc, Nat.add_assoc]

theorem orLike_or (ρ : Nat → List String → Bool) (t1 t2 : List Tok) (n1 n2 : Nat)
    (v1 v2 : Nat → Bool) (h1 : OrLike ρ t1 n1 v1) (h2 : OrLike ρ t2 n2 v2) :
    OrLike ρ (t1 ++ Tok.or :: t2) (n1 + n2) (fun i => v1 i || v2 (i + n1)) := by
  intro i ors neg ls rest
  obtain ⟨l1, hn1, hv1, e1⟩ := h1 i ors neg ls (Tok.or :: (t2 ++ rest))
  obtain ⟨l2, hn2, hv2, e2⟩ := h2 (i + n1) (l1.ors || l1.ands) neg ls rest
  refine ⟨l2, hn2, ?_, ?_⟩
  · rw [hv2, hv1, Bool.or_assoc]
  · simp only [List.append_assoc, List.cons_append]
    rw [e1]
    simp only [Reader.run, Reader.step]
    rw [← Nat.add_assoc, ← e2, hn1]

theorem tokens_wrapQuery_ne (a : String) : tokens (wrapQuery a) ≠ [] := by
  rw [tokens_wrapQuery]; simp

theorem renders_childFragment_and (ρ : Nat → List String → Bool) (t : PTree) (c : Cond)
    (h : Renders ρ t c) :
    tokens (childFragment " AND " c) ≠ [] ∧
      FactorLike ρ (tokens (childFragment " AND " c)) (PTree.leaves t) (PTree.eval ρ t) := by
  obtain ⟨hne, (⟨hop, hf⟩ | ⟨hop, ho⟩)⟩ := h
  · have hw : needsWrap " AND " c = false := by
      rcases hop with e | e
      · simp [needsWrap, e]; decide
      · simp [needsWrap, e]
    simp only [childFragment, hw, Bool.false_eq_true, if_false]
    exact ⟨hne, hf⟩
  · have hw : needsWrap " AND " c = true := by
      simp [needsWrap, hop]; decide
    simp only [childFragment, hw, if_true]
    refine ⟨tokens_wrapQuery_ne _, ?_⟩
    rw [tokens_wrapQuery]
    simpa using factorLike_wrap ρ _ _ _ false ho

theorem renders_childFragment_or (ρ : Nat → List String → Bool) (t : PTree) (c : Cond)
    (h : Renders ρ t c) :
    tokens (childFragment " OR " c) ≠ [] ∧
      OrLike ρ (tokens (childFragment " OR " c)) (PTree.leaves t) (PTree.eval ρ t) := by
  obtain ⟨hne, (⟨hop, hf⟩ | ⟨hop, ho⟩)⟩ := h
  · rcases hop with e | e
    · have hw : needsWrap " OR " c = false := by
        simp [needsWrap, e]; decide
      simp only [childFragment, hw, Bool.false_eq_true, if_false]
      exact ⟨hne, orLike_of_factorLike _ _ _ _ hf⟩
    · have hw : needsWrap " OR " c = true := by
        simp [needsWrap, e]; decide
      simp only [childFragment, hw, if_true]
      refine ⟨tokens_wrapQuery_ne _, ?_⟩
      rw [tokens_wrapQuery]
      apply orLike_of_factorLike
      simpa using factorLike_wrap ρ _ _ _ false (orLike_of_factorLike _ _ _ _ hf)
  · have hw : needsWrap " OR " c = false := by
      simp [needsWrap, hop]
    simp only [childFragment, hw, Bool.false_eq_true, if_false]
    exact ⟨hne, ho⟩

theorem factorLike_go (ρ : Nat → List String → Bool) :
    ∀ (ts : List PTree) (cs : List Cond) (acc : String) (n : Nat) (v : Nat → Bool),
      tokens acc ≠ [] → FactorLike ρ (tokens acc) n v → List.Forall₂ (Renders ρ) ts cs →
      tokens (String.intercalate.go acc " AND " (cs.map (childFragment " AND "))) ≠ [] ∧
        FactorLike ρ (tokens (String.intercalate.go acc " AND " (cs.map (childFragment " AND "))))
          (n + PTree.leavesAll ts) (fun i => v i && PTree.evalAll ρ ts (i + n)) := by
  intro ts cs
  induction cs generalizing ts with
  | nil =>
    intro acc n v hne hf hr
    cases hr
    simpa [String.intercalate.go, PTree.evalAll, PTree.leavesAll] using And.intro hne hf
  | cons c cs ih =>
    intro acc n v hne hf hr
    cases hr with
    | cons hc hrest =>
      rename_i t ts'
      obtain ⟨hcne, hcf⟩ := renders_childFragment_and ρ t c hc
      have hj := tokens_join_and acc (childFragment " AND " c)
      have := ih ts' (acc ++ " AND " ++ childFragment " AND " c) (n + PTree.leaves t)
        (fun i => v i && PTree.eval ρ t (i + n))
        (by rw [hj]; simp) (by rw [hj]; exact factorLike_and _ _ _ _ _ _ _ hf hcf) hrest
      simpa [String.intercalate.go, PTree.evalAll, PTree.leavesAll, Bool.and_assoc,
        Nat.add_assoc] using this

theorem orLike_go (ρ : Nat → List String → Bool) :
    ∀ (ts : List PTree) (cs : List Cond) (acc : String) (n : Nat) (v : Nat → Bool),
      tokens acc ≠ [] → OrLike ρ (tokens acc) n v → List.Forall₂ (Renders ρ) ts cs →
      tokens (String.intercalate.go acc " OR " (cs.map (childFragment " OR "))) ≠ [] ∧
        OrLike ρ (tokens (String.intercalate.go acc " OR " (cs.map (childFragment " OR "))))
          (n + PTree.leavesAll ts) (fun i => v i || PTree.evalAny ρ ts (i + n)) := by
  intro ts cs
  induction cs generalizing ts with
  | nil =>
    intro acc n v hne hf hr
    cases hr
    simpa [String.intercalate.go, PTree.evalAny, PTree.leavesAll] using And.intro hne hf
  | cons c cs ih =>
    intro acc n v hne hf hr
    cases hr with
    | cons hc hrest =>
      rename_i t ts'
      obtain ⟨hcne, hcf⟩ := renders_childFragment_or ρ t c hc
      have hj := tokens_join_or acc (childFragment " OR " c)
      have := ih ts' (acc ++ " OR " ++ childFragment " OR " c) (n + PTree.leaves t)
        (fun i => v i || PTree.eval ρ t (i + n))
        (by rw [hj]; simp) (by rw [hj]; exact orLike_or _ _ _ _ _ _ _ hf hcf) hrest
      simpa [String.intercalate.go, PTree.evalAny, PTree.leavesAll, Bool.or_assoc,
        Nat.add_assoc] using this

theorem contributing_of_renders (ρ : Nat → List String → Bool) (ts : List PTree)
    (cs : List Cond) (h : List.Forall₂ (Renders ρ) ts cs) : contributing cs = cs := by
  induction h with
  | nil => rfl
  | cons hc _ ih =>
    unfold contributing at ih ⊢
    rw [List.filter_cons, ih]
    simp [not_blank_of_tokens hc.1]

theorem renders_and_node (ρ : Nat → List String → Bool) (ts : List PTree) (cs : List Cond)
    (hne : ts ≠ []) (h : List.Forall₂ (Renders ρ) ts cs) :
    tokens (String.intercalate " AND " ((contributing cs).map (childFragment " AND "))) ≠ [] ∧
      FactorLike ρ
        (tokens (String.intercalate " AND " ((contributing cs).map (childFragment " AND "))))
        (PTree.leavesAll ts) (PTree.evalAll ρ ts) := by
  rw [contributing_of_renders ρ ts cs h]
  cases h with
  | nil => exact absurd rfl hne
  | cons hc hrest =>
    rename_i t c ts' cs'
    obtain ⟨h1, h2⟩ := renders_childFragment_and ρ t c hc
    have h3 := factorLike_go ρ ts' cs' (childFragment " AND " c) (PTree.leaves t)
      (PTree.eval ρ t) h1 h2 hrest
    have e : (fun i => PTree.eval ρ t i && PTree.evalAll ρ ts' (i + PTree.leaves t)) =
        PTree.evalAll ρ (t :: ts') := by
      funext i; simp [PTree.evalAll]
    rw [e] at h3
    simpa [String.intercalate, PTree.leavesAll] using h3

theorem renders_or_node (ρ : Nat → List String → Bool) (ts : List PTree) (cs : List Cond)
    (hne : ts ≠ []) (h : List.Forall₂ (Renders ρ) ts cs) :
    tokens (String.intercalate " OR " ((contributing cs).map (childFragment " OR "))) ≠ [] ∧
      OrLike ρ
        (tokens (String.intercalate " OR " ((contributing cs).map (childFragment " OR "))))
        (PTree.leavesAll ts) (PTree.evalAny ρ ts) := by
  rw [contributing_of_renders ρ ts cs h]
  cases h with
  | nil => exact absurd rfl hne
  | cons hc hrest =>
    rename_i t c ts' cs'
    obtain ⟨h1, h2⟩ := renders_childFragment_or ρ t c hc
    have h3 := orLike_go ρ ts' cs' (childFragment " OR " c) (PTree.leaves t)
      (PTree.eval ρ t) h1 h2 hrest
    have e : (fun i => PTree.eval ρ t i || PTree.evalAny ρ ts' (i + PTree.leaves t)) =
        PTree.evalAny ρ (t :: ts') := by
      funext i; simp [PTree.evalAny]
    rw [e] at h3
    simpa [String.intercalate, PTree.leavesAll] using h3

theorem getElem?_lt_of_some {h : Heap} {a : Nat} {c : Cond} (e : h[a]? = some c) :
    a < h.length := by
  rcases Nat.lt_or_ge a h.length with h1 | h1
  · exact h1
  · rw [List.getElem?_eq_none h1] at e; cases e

mutual
/-- Building a well-formed tree succeeds, allocates the result above the
heap it started from, leaves that heap as it was, and the result renders the
tree. -/
theorem build_spec : ∀ (t : PTree) (h : Heap), t.wellFormed = true →
    ∃ h' a c, t.build h = some (h', a) ∧ h.length ≤ a ∧
      (∀ i, i < h.length → h'[i]? = h[i]?) ∧ h'[a]? = some c ∧ ∀ ρ, Renders ρ t c
  | PTree.leaf q ps, h, hw => by
    simp only [PTree.wellFormed] at hw
    refine ⟨_, _, Raw q ps, rfl, Nat.le_refl _, fun i hi => alloc_get_old h _ i hi,
      alloc_get h _, fun ρ => ?_⟩
    have ht := tokens_of_atomic hw
    refine ⟨by simp [Raw, ht], Or.inl ⟨Or.inl rfl, ?_⟩⟩
    have e : PTree.eval ρ (PTree.leaf q ps) = fun i => ρ i (atomWords q) := by
      funext i; simp [PTree.eval]
    simp only [Raw, ht, PTree.leaves, e]
    exact factorLike_atom ρ _
  | PTree.not t, h, hw => by
    simp only [PTree.wellFormed] at hw
    obtain ⟨h1, a, c, e, hle, hpre, hget, hr⟩ := build_spec t h hw
    have hlt := getElem?_lt_of_some hget
    refine ⟨_, _, Cond.not { query := c.query, params := c.params, operator := c.operator },
      by simp [PTree.build, e, Not, hget], by simp [Heap.alloc]; omega, fun i hi => ?_,
      alloc_get h1 _, fun ρ => ?_⟩
    · rw [alloc_get_old h1 _ i (by omega)]; exact hpre i hi
    · have hor : OrLike ρ (tokens c.query) (PTree.leaves t) (PTree.eval ρ t) := by
        rcases (hr ρ).2 with ⟨-, hf⟩ | ⟨-, ho⟩
        · exact orLike_of_factorLike _ _ _ _ hf
        · exact ho
      have hq : (Cond.not { query := c.query, params := c.params, operator := c.operator }).query
          = "NOT(" ++ c.query ++ ")" := rfl
      refine ⟨by rw [hq, tokens_not]; simp, Or.inl ⟨Or.inl rfl, ?_⟩⟩
      rw [hq, tokens_not]
      have e2 : PTree.eval ρ (PTree.not t) = fun i => !(PTree.eval ρ t i) := by
        funext i; simp [PTree.eval]
      rw [e2]
      simpa [PTree.leaves] using factorLike_wrap ρ _ _ _ true hor
  | PTree.and ts, h, hw => by
    simp only [PTree.wellFormed, Bool.and_eq_true, Bool.not_eq_true', List.isEmpty_eq_false] at hw
    obtain ⟨h1, as, cs, e, hle, hmem, hnd, hpre, hch, hr⟩ := buildAll_spec ts h hw.2
    obtain ⟨⟨h2, x, e2, hl2, hfr, hq, -, hop⟩, -⟩ :=
      And_Or_distinct h1 as (fun a ha => (hmem a ha).2) hnd
    refine ⟨h2 ++ [x], h1.length, x, by simp [PTree.build, e, e2], hle, fun i hi => ?_, ?_,
      fun ρ => ?_⟩
    · rw [List.getElem?_append_left (by omega), hfr i (fun hm => by have := (hmem i hm).1; omega)]
      exact hpre i hi
    · rw [← hl2]; simp
    · rw [hch] at hq
      obtain ⟨h3, h4⟩ := renders_and_node ρ ts cs (by simpa using hw.1) (hr ρ)
      rw [← hq] at h3 h4
      have e3 : PTree.eval ρ (PTree.and ts) = PTree.evalAll ρ ts := by
        funext i; simp [PTree.eval]
      exact ⟨h3, Or.inl ⟨Or.inr hop, by rw [e3]; simpa [PTree.leaves] using h4⟩⟩
  | PTree.or ts, h, hw => by
    simp only [PTree.wellFormed, Bool.and_eq_true, Bool.not_eq_true', List.isEmpty_eq_false] at hw
    obtain ⟨h1, as, cs, e, hle, hmem, hnd, hpre, hch, hr⟩ := buildAll_spec ts h hw.2
    obtain ⟨-, ⟨h2, x, e2, hl2, hfr, hq, -, hop⟩⟩ :=
      And_Or_distinct h1 as (fun a ha => (hmem a ha).2) hnd
    refine ⟨h2 ++ [x], h1.length, x, by simp [PTree.build, e, e2], hle, fun i hi => ?_, ?_,
      fun ρ => ?_⟩
    · rw [List.getElem?_append_left (by omega), hfr i (fun hm => by have := (hmem i hm).1; omega)]
      exact hpre i hi
    · rw [← hl2]; simp
    · rw [hch] at hq
      obtain ⟨h3, h4⟩ := renders_or_node ρ ts cs (by simpa using hw.1) (hr ρ)
      rw [← hq] at h3 h4
      have e3 : PTree.eval ρ (PTree.or ts) = PTree.evalAny ρ ts := by
        funext i; simp [PTree.eval]
      exact ⟨h3, Or.inr ⟨hop, by rw [e3]; simpa [PTree.leaves] using h4⟩⟩
/-- Building the arguments of a call: the results are pairwise distinct
objects above the heap the construction started from. -/
theorem buildAll_spec : ∀ (ts : List PTree) (h : Heap), PTree.wellFormedAll ts = true →
    ∃ h' as cs, PTree.buildAll ts h = some (h', as) ∧ h.length ≤ h'.length ∧
      (∀ a ∈ as, h.length ≤ a ∧ a < h'.length) ∧ as.Nodup ∧
      (∀ i, i < h.length → h'[i]? = h[i]?) ∧ children h' as = cs ∧
      ∀ ρ, List.Forall₂ (Renders ρ) ts cs
  | [], h, _ => ⟨h, [], [], rfl, Nat.le_refl _, by simp, by simp, fun _ _ => rfl, rfl,
      fun _ => List.Forall₂.nil⟩
  | t :: ts, h, hw => by
    simp only [PTree.wellFormedAll, Bool.and_eq_true] at hw
    obtain ⟨h1, a, c, e1, hle1, hpre1, hget1, hr1⟩ := build_spec t h hw.1
    have hlt1 := getElem?_lt_of_some hget1
    obtain ⟨h2, as, cs, e2, hle2, hmem2, hnd2, hpre2, hch2, hr2⟩ := buildAll_spec ts h1 hw.2
    have hget2 : h2[a]? = some c := by rw [hpre2 a hlt1]; exact hget1
    refine ⟨h2, a :: as, c :: cs, by simp [PTree.buildAll, e1, e2], by omega, ?_, ?_,
      fun i hi => ?_, ?_, fun ρ => List.Forall₂.cons (hr1 ρ) (hr2 ρ)⟩
    · intro b hb
      rcases List.mem_cons.mp hb with rfl | hb
      · exact ⟨hle1, by omega⟩
      · have := hmem2 b hb; exact ⟨by omega, this.2⟩
    · refine List.nodup_cons.mpr ⟨fun hm => ?_, hnd2⟩
      have := (hmem2 a hm).1; omega
    · rw [hpre2 i (by omega)]; exact hpre1 i hi
    · simp [children, hget2] at hch2 ⊢
      exact hch2
end

/-- C5: for every predicate tree built from leaves with atomic fragments by
`And` and `Or` (each with at least one child) and `Not`, the construction
returns a predicate whose fragment, read with parentheses first and AND
before OR, has under every truth assignment to the leaves the truth value of
the tree. A truth assignment gives a truth value to every leaf, the leaves
being told apart by their position from the left, so that two leaves with
the same text may have different values; the `i`-th leaf of the tree is the
`i`-th atomic condition of the fragment. -/
theorem C5_rendering_is_precedence_correct (t : PTree) (h : Heap) (hw : t.wellFormed = true) :
    ∃ q, fragmentOf (t.build h) = some q ∧
      ∀ ρ : Nat → List String → Bool, readFragmentAt ρ q = some (t.eval ρ 0) := by
  obtain ⟨h', a, c, e, -, -, hget, hr⟩ := build_spec t h hw
  refine ⟨c.query, by simp [fragmentOf, e, hget], fun ρ => ?_⟩
  unfold readFragmentAt
  rcases (hr ρ).2 with ⟨-, hf⟩ | ⟨-, ho⟩
  · have := hf 0 { ors := false, ands := true, negated := false } [] []
    rw [List.append_nil] at this
    rw [this]
    simp [Reader.run, Level.value]
  · obtain ⟨l, hn, hv, e'⟩ := ho 0 false false [] []
    rw [List.append_nil] at e'
    rw [e']
    simp [Reader.run, Level.value, hn, hv]

/-- C5 at `And(x = ?, Or(y IS NOT NULL, Not(And(z < ?, w LIKE ?))))`, which
renders "x = ? AND (y IS NOT NULL OR NOT(z < ? AND w LIKE ?))", and at
`And(x = ?, Not(x = ?))`, which renders "x = ? AND NOT(x = ?)" and is true
under the assignment that makes the first leaf true and the second false. -/
theorem C5_rendering_is_precedence_correct_witness :
    sampleTree.wellFormed = true ∧
    fragmentOf (sampleTree.build []) =
      some "x = ? AND (y IS NOT NULL OR NOT(z < ? AND w LIKE ?))" ∧
    (∃ q, fragmentOf (sampleTree.build []) = some q ∧
      ∀ ρ : Nat → List String → Bool, readFragmentAt ρ q = some (sampleTree.eval ρ 0)) ∧
    sameTextTree.wellFormed = true ∧
    fragmentOf (sameTextTree.build []) = some "x = ? AND NOT(x = ?)" ∧
    (∃ q, fragmentOf (sameTextTree.build []) = some q ∧
      ∀ ρ : Nat → List String → Bool, readFragmentAt ρ q = some (sameTextTree.eval ρ 0)) ∧
    sameTextTree.eval (fun i _ => i == 0) 0 = true ∧
    readFragmentAt (fun i _ => i == 0) "x = ? AND NOT(x = ?)" = some true :=
  ⟨by decide, by decide, C5_rendering_is_precedence_correct sampleTree [] (by decide),
    by decide, by decide, C5_rendering_is_precedence_correct sameTextTree [] (by decide),
    by decide, by decide⟩

/-! ## UTF-8 and base64 round trips -/

theorem char_toNat_valid (c : Char) :
    c.toNat < 0xD800 ∨ (0xDFFF < c.toNat ∧ c.toNat < 0x110000) := by
  have h := c.valid
  simpa [UInt32.isValidChar, Nat.isValidChar, Char.toNat, UInt32.toNat] using h

theorem utf8EncodeChar_lt (c : Char) : ∀ b ∈ utf8EncodeChar c, b < 256 := by
  intro b hb
  have hv := char_toNat_valid c
  unfold utf8EncodeChar at hb
  simp only at hb
  split at hb
  · simp at hb; omega
  · split at hb
    · simp at hb; omega
    · split at hb
      · simp at hb; omega
      · simp at hb; omega

theorem utf8Encode_lt (s : List Char) : ∀ b ∈ utf8Encode s, b < 256 := by
  induction s with
  | nil => simp [utf8Encode]
  | cons c s ih =>
    intro b hb
    simp only [utf8Encode, List.mem_append] at hb
    rcases hb with hb | hb
    · exact utf8EncodeChar_lt c b hb
    · exact ih b hb

theorem utf8EncodeChar_decode (c : Char) (rest : List Nat) :
    ∃ b0 tail, utf8EncodeChar c = b0 :: tail ∧
      decodeRune b0 (tail ++ rest) = (c, tail.length + 1) := by
  have hv := char_toNat_valid c
  unfold utf8EncodeChar
  simp only
  split
  · rename_i h1
    refine ⟨_, _, rfl, ?_⟩
    simp [decodeRune, h1, Char.ofNat_toNat]
  · split
    · rename_i h1 h2
      refine ⟨_, _, rfl, ?_⟩
      have e : (0xC0 + c.toNat / 64 - 0xC0) * 64 + (0x80 + c.toNat % 64 - 0x80) = c.toNat := by
        omega
      have hc : isCont (0x80 + c.toNat % 64) = true := by
        simp [isCont]; omega
      have g1 : ¬ (0xC0 + c.toNat / 64 < 0x80) := by omega
      have g2 : 0xC2 ≤ 0xC0 + c.toNat / 64 ∧ 0xC0 + c.toNat / 64 < 0xE0 := by omega
      simp only [decodeRune, g1, g2, if_false, if_true, and_self, List.cons_append, hc, e,
        Char.ofNat_toNat, List.length_singleton]
    · split
      · rename_i h1 h2 h3
        refine ⟨_, _, rfl, ?_⟩
        have e : (0xE0 + c.toNat / 4096 - 0xE0) * 4096 + (0x80 + c.toNat / 64 % 64 - 0x80) * 64 +
            (0x80 + c.toNat % 64 - 0x80) = c.toNat := by omega
        have hc : isCont (0x80 + c.toNat % 64) = true := by
          simp [isCont]; omega
        have g1 : ¬ (0xE0 + c.toNat / 4096 < 0x80) := by omega
        have g2 : ¬ (0xC2 ≤ 0xE0 + c.toNat / 4096 ∧ 0xE0 + c.toNat / 4096 < 0xE0) := by omega
        have g3 : 0xE0 ≤ 0xE0 + c.toNat / 4096 ∧ 0xE0 + c.toNat / 4096 < 0xF0 := by omega
        have g4 : (if 0xE0 + c.toNat / 4096 = 0xE0 then 0xA0 else 0x80) ≤ 0x80 + c.toNat / 64 % 64 ∧
            0x80 + c.toNat / 64 % 64 < (if 0xE0 + c.toNat / 4096 = 0xED then 0xA0 else 0xC0) ∧
            isCont (0x80 + c.toNat % 64) = true := by
          refine ⟨?_, ?_, hc⟩
          · split <;> omega
          · split <;> omega
        simp only [decodeRune, g1, g2, g3, g4, if_false, if_true, and_self, List.cons_append, e,
          Char.ofNat_toNat, List.length_cons, List.length_nil]
      · rename_i h1 h2 h3
        refine ⟨_, _, rfl, ?_⟩
        have e : (0xF0 + c.toNat / 262144 - 0xF0) * 262144 +
            (0x80 + c.toNat / 4096 % 64 - 0x80) * 4096 +
            (0x80 + c.toNat / 64 % 64 - 0x80) * 64 + (0x80 + c.toNat % 64 - 0x80) = c.toNat := by
          omega
        have hc : isCont (0x80 + c.toNat % 64) = true := by
          simp [isCont]; omega
        have hc2 : isCont (0x80 + c.toNat / 64 % 64) = true := by
          simp [isCont]; omega
        have g1 : ¬ (0xF0 + c.toNat / 262144 < 0x80) := by omega
        have g2 : ¬ (0xC2 ≤ 0xF0 + c.toNat / 262144 ∧ 0xF0 + c.toNat / 262144 < 0xE0) := by omega
        have g3 : ¬ (0xE0 ≤ 0xF0 + c.toNat / 262144 ∧ 0xF0 + c.toNat / 262144 < 0xF0) := by omega
        have g4 : 0xF0 ≤ 0xF0 + c.toNat / 262144 ∧ 0xF0 + c.toNat / 262144 < 0xF5 := by omega
        have g5 : (if 0xF0 + c.toNat / 262144 = 0xF0 then 0x90 else 0x80) ≤
              0x80 + c.toNat / 4096 % 64 ∧
            0x80 + c.toNat / 4096 % 64 < (if 0xF0 + c.toNat / 262144 = 0xF4 then 0x90 else 0xC0) ∧
            isCont (0x80 + c.toNat / 64 % 64) = true ∧ isCont (0x80 + c.toNat % 64) = true := by
          refine ⟨?_, ?_, hc2, hc⟩
          · split <;> omega
          · split <;> omega
        simp only [decodeRune, g1, g2, g3, g4, g5, if_false, if_true, and_self, List.cons_append,
          e, Char.ofNat_toNat, List.length_cons, List.length_nil]

theorem utf8DecodeAux_encode (s : List Char) :
    ∀ fuel, (utf8Encode s).length ≤ fuel → utf8DecodeAux fuel (utf8Encode s) = s := by
  induction s with
  | nil => intro fuel _; cases fuel <;> rfl
  | cons c s ih =>
    intro fuel hf
    obtain ⟨b0, tail, e, hd⟩ := utf8EncodeChar_decode c (utf8Encode s)
    simp only [utf8Encode, e, List.cons_append, List.length_cons, List.length_append] at hf ⊢
    cases fuel with
    | zero => omega
    | succ fuel =>
      simp only [utf8DecodeAux, hd]
      have : List.drop (tail.length + 1 - 1) (tail ++ utf8Encode s) = utf8Encode s := by
        simp
      rw [this, ih fuel (by omega)]

/-- Reading the UTF-8 encoding of a text gives the text. -/
theorem utf8Decode_encode (s : List Char) : utf8Decode (utf8Encode s) = s :=
  utf8DecodeAux_encode s _ (Nat.le_refl _)

theorem b64Index_b64Char : ∀ i, i < 64 → b64Index (b64Char i) = some i := by
  decide

theorem b64Char_plain : ∀ i, i < 64 →
    b64Char i ≠ '=' ∧ b64Char i ≠ '\r' ∧ b64Char i ≠ '\n' := by
  decide

theorem b64Char_plain_all (i : Nat) :
    b64Char i ≠ '=' ∧ b64Char i ≠ '\r' ∧ b64Char i ≠ '\n' := by
  rcases Nat.lt_or_ge i 64 with h | h
  · exact b64Char_plain i h
  · have : b64Char i = 'A' := by
      unfold b64Char
      rw [List.getD_eq_default]
      simpa [b64Alphabet] using h
    rw [this]
    decide

theorem b64Encode_no_breaks (bs : List Nat) :
    (b64Encode bs).filter (fun c => !(c = '\r' || c = '\n')) = b64Encode bs := by
  rw [List.filter_eq_self]
  intro c hc
  have key : c = '=' ∨ ∃ i, c = b64Char i := by
    induction bs using b64Encode.induct with
    | case1 => simp [b64Encode] at hc
    | case2 a =>
      simp only [b64Encode, List.mem_cons, List.mem_singleton, List.not_mem_nil, or_false] at hc
      rcases hc with h | h | h | h
      · exact Or.inr ⟨_, h⟩
      · exact Or.inr ⟨_, h⟩
      · exact Or.inl h
      · exact Or.inl h
    | case3 a b =>
      simp only [b64Encode, List.mem_cons, List.mem_singleton, List.not_mem_nil, or_false] at hc
      rcases hc with h | h | h | h
      · exact Or.inr ⟨_, h⟩
      · exact Or.inr ⟨_, h⟩
      · exact Or.inr ⟨_, h⟩
      · exact Or.inl h
    | case4 a b c' rest ih =>
      simp only [b64Encode, List.mem_cons] at hc
      rcases hc with h | h | h | h | h
      · exact Or.inr ⟨_, h⟩
      · exact Or.inr ⟨_, h⟩
      · exact Or.inr ⟨_, h⟩
      · exact Or.inr ⟨_, h⟩
      · exact ih h
  rcases key with rfl | ⟨i, rfl⟩
  · decide
  · have := b64Char_plain_all i
    simp [this.2.1, this.2.2]

theorem b64DecodeQuanta_encode (bs : List Nat) (hb : ∀ b ∈ bs, b < 256) :
    b64DecodeQuanta (b64Encode bs) = some bs := by
  induction bs using b64Encode.induct with
  | case1 => rfl
  | case2 a =>
    have ha : a < 256 := hb a (by simp)
    have h0 := b64Index_b64Char (a / 4) (by omega)
    have h1 := b64Index_b64Char (a % 4 * 16) (by omega)
    simp only [b64Encode, b64DecodeQuanta, h0, h1, if_true]
    congr 2; omega
  | case3 a b =>
    have ha : a < 256 := hb a (by simp)
    have hb' : b < 256 := hb b (by simp)
    have h0 := b64Index_b64Char (a / 4) (by omega)
    have h1 := b64Index_b64Char (a % 4 * 16 + b / 16) (by omega)
    have h2 := b64Index_b64Char (b % 16 * 4) (by omega)
    have hp := (b64Char_plain_all (b % 16 * 4)).1
    simp only [b64Encode, b64DecodeQuanta, h0, h1, h2, hp, if_true, if_false]
    congr 2
    · omega
    · congr 1; omega
  | case4 a b c rest ih =>
    have ha : a < 256 := hb a (by simp)
    have hb' : b < 256 := hb b (by simp)
    have hc : c < 256 := hb c (by simp)
    have h0 := b64Index_b64Char (a / 4) (by omega)
    have h1 := b64Index_b64Char (a % 4 * 16 + b / 16) (by omega)
    have h2 := b64Index_b64Char (b % 16 * 4 + c / 64) (by omega)
    have h3 := b64Index_b64Char (c % 64) (by omega)
    have hp2 := (b64Char_plain_all (b % 16 * 4 + c / 64)).1
    have hp3 := (b64Char_plain_all (c % 64)).1
    have ih' := ih (fun x hx => hb x (by simp [hx]))
    have e1 : a / 4 * 4 + (a % 4 * 16 + b / 16) / 16 = a := by omega
    have e2 : (a % 4 * 16 + b / 16) % 16 * 16 + (b % 16 * 4 + c / 64) / 4 = b := by omega
    have e3 : (b % 16 * 4 + c / 64) % 4 * 64 + c % 64 = c := by omega
    cases hr : b64Encode rest with
    | nil =>
      have : rest = [] := by
        cases rest with
        | nil => rfl
        | cons x xs =>
          cases xs with
          | nil => simp [b64Encode] at hr
          | cons y ys =>
            cases ys with
            | nil => simp [b64Encode] at hr
            | cons z zs => simp [b64Encode] at hr
      subst this
      simp only [b64Encode, b64DecodeQuanta, h0, h1, h2, h3, hp2, hp3, if_false, e1, e2, e3]
    | cons x xs =>
      rw [hr] at ih'
      simp only [b64Encode, hr, b64DecodeQuanta, h0, h1, h2, h3, ih', e1, e2, e3]

/-- Decoding the base64 encoding of a byte sequence gives the sequence. -/
theorem b64Decode_encode (bs : List Nat) (hb : ∀ b ∈ bs, b < 256) :
    b64Decode (b64Encode bs) = some bs := by
  unfold b64Decode
  rw [b64Encode_no_breaks, b64DecodeQuanta_encode bs hb]

/-! ## Maps -/

theorem char_eq_of_toNat_eq {a b : Char} (h : a.toNat = b.toNat) : a = b := by
  rw [← Char.ofNat_toNat a, ← Char.ofNat_toNat b, h]

theorem keyLt_irrefl (a : List Char) : keyLt a a = false := by
  induction a with
  | nil => rfl
  | cons c a ih => simp [keyLt, ih]

theorem keyLt_asymm (a : List Char) : ∀ b, keyLt a b = true → keyLt b a = false := by
  induction a with
  | nil =>
    intro b _
    cases b <;> rfl
  | cons c a ih =>
    intro b h
    cases b with
    | nil => simp [keyLt] at h
    | cons d b =>
      simp only [keyLt, Bool.or_eq_true, decide_eq_true_eq, Bool.and_eq_true] at h
      simp only [keyLt, Bool.or_eq_false_iff, decide_eq_false_iff_not, Bool.and_eq_false_imp,
        decide_eq_true_eq]
      rcases h with h | ⟨h1, h2⟩
      · exact ⟨by omega, fun e => by omega⟩
      · exact ⟨by omega, fun _ => ih b h2⟩

theorem keyLt_total (a : List Char) : ∀ b, a ≠ b → keyLt a b = true ∨ keyLt b a = true := by
  induction a with
  | nil =>
    intro b h
    cases b with
    | nil => exact absurd rfl h
    | cons d b => exact Or.inl rfl
  | cons c a ih =>
    intro b h
    cases b with
    | nil => exact Or.inr rfl
    | cons d b =>
      simp only [keyLt, Bool.or_eq_true, decide_eq_true_eq, Bool.and_eq_true]
      rcases Nat.lt_trichotomy c.toNat d.toNat with h1 | h1 | h1
      · exact Or.inl (Or.inl h1)
      · have hcd : c = d := char_eq_of_toNat_eq h1
        have hab : a ≠ b := fun e => h (by rw [hcd, e])
        rcases ih b hab with h2 | h2
        · exact Or.inl (Or.inr ⟨h1, h2⟩)
        · exact Or.inr (Or.inr ⟨h1.symm, h2⟩)
      · exact Or.inr (Or.inl h1)

theorem setKey_append (acc : genericCursor) (k : String) (v : Value)
    (h : ∀ kv ∈ acc, keyLt kv.1.toList k.toList = true) : setKey acc k v = acc ++ [(k, v)] := by
  induction acc with
  | nil => rfl
  | cons kv acc ih =>
    obtain ⟨k', v'⟩ := kv
    have h1 : keyLt k'.toList k.toList = true := h (k', v') (by simp)
    have hne : k ≠ k' := by
      rintro rfl
      rw [keyLt_irrefl] at h1
      cases h1
    have h2 : keyLt k.toList k'.toList = false := keyLt_asymm _ _ h1
    simp only [setKey, hne, if_false, h2, Bool.false_eq_true, List.cons_append]
    rw [ih (fun kv hkv => h kv (by simp [hkv]))]

theorem isMap_createGenericCursor (field : String) (value : Value) (pointsNext : Bool) :
    isMap (createGenericCursor field value pointsNext) ∧
    createGenericCursor field value pointsNext ≠ [] ∧
    ∀ kv ∈ createGenericCursor field value pointsNext,
      kv.2 = value ∨ kv.2 = Value.bool pointsNext := by
  unfold createGenericCursor
  by_cases h1 : "points_next" = field
  · simp [setKey, h1, isMap]
  · by_cases h2 : keyLt "points_next".toList field.toList = true
    · simp only [setKey, h1, if_false, h2, if_true]
      simpa [isMap] using h2
    · have h3 : keyLt field.toList "points_next".toList = true := by
        rcases keyLt_total field.toList "points_next".toList
          (fun e => h1 (String.ext e).symm) with h | h
        · exact h
        · exact absurd h h2
      simp only [setKey, h1, if_false, h2]
      simpa [isMap] using h3

/-! ## Decimal digits -/

theorem digitChar_toNat {d : Nat} (h : d < 10) : (digitChar d).toNat = 48 + d := by
  have hv : (48 + d).isValidChar := Or.inl (by omega)
  simp only [digitChar, Char.ofNat, hv, dite_true, Char.ofNatAux, Char.toNat, UInt32.toNat]
  rfl

theorem decimalAux_append (fuel : Nat) :
    ∀ n acc, decimalAux fuel n acc = decimalAux fuel n [] ++ acc := by
  induction fuel with
  | zero => intro n acc; rfl
  | succ fuel ih =>
    intro n acc
    simp only [decimalAux]
    split
    · rfl
    · rw [ih _ (digitChar (n % 10) :: acc), ih _ [digitChar (n % 10)]]
      simp

theorem decimalAux_fuel (fuel : Nat) :
    ∀ n fuel', n < fuel → n < fuel' → decimalAux fuel n [] = decimalAux fuel' n [] := by
  induction fuel with
  | zero => intro n fuel' h; omega
  | succ fuel ih =>
    intro n fuel' h h'
    cases fuel' with
    | zero => omega
    | succ fuel' =>
      simp only [decimalAux]
      split
      · rfl
      · rw [decimalAux_append fuel, decimalAux_append fuel', ih (n / 10) fuel' (by omega) (by omega)]

theorem decimal_small {n : Nat} (h : n < 10) : decimal n = [digitChar n] := by
  simp [decimal, decimalAux, h]

theorem decimal_step {n : Nat} (h : 10 ≤ n) :
    decimal n = decimal (n / 10) ++ [digitChar (n % 10)] := by
  have h' : ¬ n < 10 := by omega
  have e1 : decimal n = decimalAux n (n / 10) [digitChar (n % 10)] := by
    unfold decimal
    simp only [decimalAux, h', if_false]
  rw [e1, decimalAux_append, decimalAux_fuel n (n / 10) (n / 10 + 1) (by omega) (by omega)]
  rfl

theorem digitsValue_append (xs : List Char) (d : Char) :
    digitsValue (xs ++ [d]) = digitsValue xs * 10 + (d.toNat - 48) := by
  simp [digitsValue, List.foldl_append]

/-- The digits of a number write the number, are digits, and start with `0`
only for the number zero. -/
theorem decimal_spec (n : Nat) :
    digitsValue (decimal n) = n ∧ (∀ c ∈ decimal n, isDigit c = true) ∧
      ∃ d ds, decimal n = d :: ds ∧ (d = '0' → n = 0) := by
  induction n using Nat.strong_induction_on with
  | _ n ih =>
    rcases Nat.lt_or_ge n 10 with h | h
    · rw [decimal_small h]
      have ht := digitChar_toNat h
      refine ⟨by simp [digitsValue, ht], ?_, _, _, rfl, ?_⟩
      · intro c hc
        simp only [List.mem_singleton] at hc
        subst hc
        simp [isDigit, ht]; omega
      · intro h0
        have := congrArg Char.toNat h0
        rw [ht] at this
        have h48 : ('0' : Char).toNat = 48 := rfl
        omega
    · obtain ⟨h1, h2, d, ds, h3, h4⟩ := ih (n / 10) (by omega)
      have ht := digitChar_toNat (show n % 10 < 10 by omega)
      rw [decimal_step h]
      refine ⟨?_, ?_, d, ds ++ [digitChar (n % 10)], by simp [h3], ?_⟩
      · rw [digitsValue_append, h1, ht]; omega
      · intro c hc
        rcases List.mem_append.mp hc with hc | hc
        · exact h2 c hc
        · simp only [List.mem_singleton] at hc
          subst hc
          simp [isDigit, ht]; omega
      · intro h0
        have := h4 h0
        omega

/-! ## String literals -/

theorem combineUnits_esc {u : Nat} (hu : u < 0xD800) (us : List StrUnit) :
    combineUnits (StrUnit.esc u :: us) = Char.ofNat u :: combineUnits us := by
  have h1 : ¬ (0xD800 ≤ u ∧ u < 0xE000) := by omega
  cases us with
  | nil => simp [combineUnits, h1]
  | cons x us =>
    cases x with
    | lit c => simp [combineUnits, h1]
    | esc v =>
      have h2 : ¬ (0xD800 ≤ u ∧ u < 0xDC00 ∧ 0xDC00 ≤ v ∧ v < 0xE000) := by omega
      simp [combineUnits, h1, h2]

theorem hexValue_hexDigit : ∀ d, d < 16 → hexValue (hexDigit d) = some d := by
  decide

theorem parseUnits_escape (e c : Char) (X : List Char) (us : List StrUnit) (rest : List Char)
    (he : e ≠ 'u') (hs : simpleEscape e = some c) (hX : parseUnits X = some (us, rest)) :
    parseUnits ('\\' :: e :: X) = some (StrUnit.lit c :: us, rest) := by
  rw [parseUnits.eq_def]
  simp [he, hs, hX]

theorem parseUnits_hex (a b c d : Nat) (ha : a < 16) (hb : b < 16) (hc : c < 16) (hd : d < 16)
    (X : List Char) (us : List StrUnit) (rest : List Char)
    (hX : parseUnits X = some (us, rest)) :
    parseUnits ('\\' :: 'u' :: hexDigit a :: hexDigit b :: hexDigit c :: hexDigit d :: X) =
      some (StrUnit.esc (a * 4096 + b * 256 + c * 16 + d) :: us, rest) := by
  rw [parseUnits.eq_def]
  simp [hexValue_hexDigit, ha, hb, hc, hd, hX]

/-- One character written and read back. -/
theorem quoteChar_parse (c : Char) (X : List Char) (us : List StrUnit) (rest : List Char)
    (hX : parseUnits X = some (us, rest)) :
    ∃ u, parseUnits (quoteChar c ++ X) = some (u :: us, rest) ∧
      combineUnits (u :: us) = c :: combineUnits us := by
  unfold quoteChar
  split
  · rename_i h
    exact ⟨_, parseUnits_escape '"' c X us rest (by decide) (by rw [h]; rfl) hX, rfl⟩
  split
  · rename_i h
    exact ⟨_, parseUnits_escape '\\' c X us rest (by decide) (by rw [h]; rfl) hX, rfl⟩
  split
  · rename_i h
    have hc : c = Char.ofNat 0x08 := char_eq_of_toNat_eq (by rw [h]; rfl)
    exact ⟨_, parseUnits_escape 'b' c X us rest (by decide) (by rw [hc]; rfl) hX, rfl⟩
  split
  · rename_i h
    have hc : c = Char.ofNat 0x0C := char_eq_of_toNat_eq (by rw [h]; rfl)
    exact ⟨_, parseUnits_escape 'f' c X us rest (by decide) (by rw [hc]; rfl) hX, rfl⟩
  split
  · rename_i h
    exact ⟨_, parseUnits_escape 'n' c X us rest (by decide) (by rw [h]; rfl) hX, rfl⟩
  split
  · rename_i h
    exact ⟨_, parseUnits_escape 'r' c X us rest (by decide) (by rw [h]; rfl) hX, rfl⟩
  split
  · rename_i h
    exact ⟨_, parseUnits_escape 't' c X us rest (by decide) (by rw [h]; rfl) hX, rfl⟩
  split
  · rename_i h
    have hn : c.toNat < 0x40 := by
      rcases h with h | h | h | h
      · omega
      · rw [h]; decide
      · rw [h]; decide
      · rw [h]; decide
    have e := parseUnits_hex 0 0 (c.toNat / 16) (c.toNat % 16) (by omega) (by omega) (by omega)
      (by omega) X us rest hX
    have e0 : hexDigit 0 = '0' := rfl
    have e1 : 0 * 4096 + 0 * 256 + c.toNat / 16 * 16 + c.toNat % 16 = c.toNat := by omega
    rw [e0, e1] at e
    refine ⟨_, e, ?_⟩
    rw [combineUnits_esc (by omega), Char.ofNat_toNat]
  split
  · rename_i h
    have e := parseUnits_hex 2 0 2 (c.toNat % 16) (by omega) (by omega) (by omega)
      (by omega) X us rest hX
    have e0 : hexDigit 0 = '0' := rfl
    have e2 : hexDigit 2 = '2' := rfl
    have e1 : 2 * 4096 + 0 * 256 + 2 * 16 + c.toNat % 16 = c.toNat := by omega
    rw [e0, e2, e1] at e
    refine ⟨_, e, ?_⟩
    rw [combineUnits_esc (by omega), Char.ofNat_toNat]
  · rename_i h1 h2 _ _ _ _ _ h8 _
    have h3 : ¬ c.toNat < 0x20 := fun h => h8 (Or.inl h)
    refine ⟨StrUnit.lit c, ?_, rfl⟩
    rw [parseUnits.eq_def]
    simp [h1, h2, h3, hX]

/-- A string literal written and read back. -/
theorem quoteBody_parse (s : List Char) (rest : List Char) :
    ∃ us, parseUnits (quoteBody s ++ '"' :: rest) = some (us, rest) ∧ combineUnits us = s := by
  induction s with
  | nil => exact ⟨[], by rw [parseUnits.eq_def]; simp [quoteBody], rfl⟩
  | cons c s ih =>
    obtain ⟨us, h1, h2⟩ := ih
    obtain ⟨u, h3, h4⟩ := quoteChar_parse c _ us rest h1
    refine ⟨u :: us, ?_, by rw [h4, h2]⟩
    simpa [quoteBody, List.append_assoc] using h3

theorem parseString_quote (s : String) (rest : List Char) :
    parseString (quoteBody s.toList ++ '"' :: rest) = some (s, rest) := by
  obtain ⟨us, h1, h2⟩ := quoteBody_parse s.toList rest
  simp only [parseString, h1, h2]
  rfl

/-! ## Number literals -/

theorem takeWhile_dropWhile_digits (ds : List Char) (sep : Char) (rest : List Char)
    (hd : ∀ c ∈ ds, isDigit c = true) (hs : isDigit sep = false) :
    (ds ++ sep :: rest).takeWhile isDigit = ds ∧
      (ds ++ sep :: rest).dropWhile isDigit = sep :: rest := by
  induction ds with
  | nil => simp [List.takeWhile, List.dropWhile, hs]
  | cons d ds ih =>
    have h1 : isDigit d = true := hd d (by simp)
    obtain ⟨i1, i2⟩ := ih (fun c hc => hd c (by simp [hc]))
    simp [List.takeWhile, List.dropWhile, h1, i1, i2]

theorem parseUnsigned_decimal (neg : Bool) (n : Nat) (hn : n ≤ 2 ^ 53) (sep : Char)
    (rest : List Char) (hs : isSeparator sep) :
    ∃ d ds, decimal n = d :: ds ∧ isDigit d = true ∧
      parseUnsigned neg d (ds ++ sep :: rest) = some (Value.num (signed neg n), sep :: rest) := by
  obtain ⟨hval, hdig, d, ds, hdec, hzero⟩ := decimal_spec n
  have hd : isDigit d = true := hdig d (by rw [hdec]; simp)
  have hds : ∀ c ∈ ds, isDigit c = true := fun c hc => hdig c (by rw [hdec]; simp [hc])
  have hsep : isDigit sep = false ∧ sep ≠ '.' ∧ sep ≠ 'e' ∧ sep ≠ 'E' := by
    rcases hs with rfl | rfl <;> decide
  obtain ⟨t1, t2⟩ := takeWhile_dropWhile_digits ds sep rest hds hsep.1
  refine ⟨d, ds, hdec, hd, ?_⟩
  have hfrac : parseFraction (sep :: rest) = some ([], sep :: rest) := by
    simp [parseFraction, hsep.2.1]
  have hexp : parseExponent (sep :: rest) = some (0, sep :: rest) := by
    simp [parseExponent, hsep.2.2.1, hsep.2.2.2]
  have hnum : numberValue neg n 0 = some (Value.num (signed neg n)) := by
    have h1 : (0 : Int) ≤ 0 := le_refl _
    simp only [numberValue, h1, if_true, Int.toNat_zero, pow_zero, mul_one]
    rw [float64Value, if_pos ⟨rfl, hn⟩]
  have hip : (if d = '0' then [d] else d :: (ds ++ sep :: rest).takeWhile isDigit) = decimal n := by
    split
    · rename_i h0
      have hn0 := hzero h0
      subst hn0
      rw [hdec]
      have : decimal 0 = ['0'] := rfl
      rw [this] at hdec
      simp only [List.cons.injEq] at hdec
      rw [← hdec.2]
    · rw [t1, hdec]
  have hr1 : (if d = '0' then ds ++ sep :: rest else (ds ++ sep :: rest).dropWhile isDigit) =
      sep :: rest := by
    split
    · rename_i h0
      have hn0 := hzero h0
      subst hn0
      have : decimal 0 = ['0'] := rfl
      rw [this] at hdec
      simp only [List.cons.injEq] at hdec
      rw [← hdec.2]
      rfl
    · exact t2
  simp only [parseUnsigned, hd, Bool.not_true, Bool.false_eq_true, if_false, hip, hr1, hfrac,
    hexp, List.append_nil, hval, List.length_nil, Nat.cast_zero, sub_zero, hnum]

/-- An integer that a float64 holds exactly, written and read back. -/
theorem parseNumber_intText (n : Int) (hn : n.natAbs ≤ 2 ^ 53) (sep : Char) (rest : List Char)
    (hs : isSeparator sep) :
    ∃ d ds, intText n = d :: ds ∧ (isDigit d = true ∨ d = '-') ∧
      parseNumber d (ds ++ sep :: rest) = some (Value.num n, sep :: rest) := by
  by_cases hneg : n < 0
  · obtain ⟨d, ds, hdec, hd, hp⟩ := parseUnsigned_decimal true n.natAbs hn sep rest hs
    refine ⟨'-', d :: ds, by simp [intText, hneg, hdec], Or.inr rfl, ?_⟩
    have e : signed true n.natAbs = n := by
      simp only [signed, if_true]
      omega
    simp [parseNumber, hp, e]
  · obtain ⟨d, ds, hdec, hd, hp⟩ := parseUnsigned_decimal false n.natAbs hn sep rest hs
    refine ⟨d, ds, by simp [intText, hneg, hdec], Or.inl hd, ?_⟩
    have e : signed false n.natAbs = n := by
      simp only [signed, Bool.false_eq_true, if_false]
      omega
    have hd' : d ≠ '-' := by
      rintro rfl
      exact absurd hd (by decide)
    simp [parseNumber, hd', hp, e]

/-! ## Values and objects -/

theorem numberStart (d : Char) (h : isDigit d = true ∨ d = '-') :
    d ≠ '"' ∧ d ≠ '{' ∧ d ≠ '[' ∧ d ≠ 't' ∧ d ≠ 'f' ∧ d ≠ 'n' ∧ isJsonSpace d = false := by
  have key : ∀ c : Char, isDigit c = false → c ≠ '-' → d ≠ c := by
    intro c h1 h2 e
    subst e
    rcases h with h | h
    · rw [h1] at h; cases h
    · exact h2 h
  refine ⟨key _ (by decide) (by decide), key _ (by decide) (by decide),
    key _ (by decide) (by decide), key _ (by decide) (by decide), key _ (by decide) (by decide),
    key _ (by decide) (by decide), ?_⟩
  have h1 := key ' ' (by decide) (by decide)
  have h2 := key '\t' (by decide) (by decide)
  have h3 := key '\r' (by decide) (by decide)
  have h4 := key '\n' (by decide) (by decide)
  simp [isJsonSpace, h1, h2, h3, h4]

/-- A value that keeps its value, written and read back inside an object. -/
theorem parseValue_leaf (fmtFloat : Int → Nat → List Char) (x : Value)
    (hx : x.keepsValue fmtFloat) (fuel depth : Nat) (sep : Char) (rest : List Char)
    (hs : isSeparator sep) :
    ∃ a, marshalValue fmtFloat x = some a ∧
      skipWs (a ++ sep :: rest) = a ++ sep :: rest ∧
      parseValue (fuel + 1) depth (a ++ sep :: rest) = some (x, sep :: rest) := by
  cases x with
  | str s =>
    refine ⟨quote s, by simp [marshalValue], ?_, ?_⟩
    · simp [quote, skipWs, List.dropWhile, isJsonSpace]
    · have := parseString_quote s (sep :: rest)
      simp only [String.toList] at this
      simp [quote, parseValue, this]
  | bool b =>
    cases b with
    | true =>
      refine ⟨['t', 'r', 'u', 'e'], by simp [marshalValue], ?_, ?_⟩
      · simp [skipWs, List.dropWhile, isJsonSpace]
      · simp [parseValue, expectWord, List.isPrefixOf]
    | false =>
      refine ⟨['f', 'a', 'l', 's', 'e'], by simp [marshalValue], ?_, ?_⟩
      · simp [skipWs, List.dropWhile, isJsonSpace]
      · simp [parseValue, expectWord, List.isPrefixOf]
  | num n =>
    have hn : n.natAbs ≤ 2 ^ 53 := hx
    obtain ⟨d, ds, h1, h2, h3⟩ := parseNumber_intText n hn sep rest hs
    obtain ⟨g1, g2, g3, g4, g5, g6, g7⟩ := numberStart d h2
    refine ⟨intText n, by simp [marshalValue], ?_, ?_⟩
    · rw [h1]
      simp [skipWs, List.dropWhile, g7]
    · rw [h1]
      simp [parseValue, g1, g2, g3, g4, g5, g6, h3]
  | frac m e =>
    obtain ⟨d, ds, h1, h2, h3⟩ := hx sep rest hs
    obtain ⟨g1, g2, g3, g4, g5, g6, g7⟩ := numberStart d h2
    refine ⟨fmtFloat m e, by simp [marshalValue], ?_, ?_⟩
    · rw [h1]
      simp [skipWs, List.dropWhile, g7]
    · rw [h1]
      simp [parseValue, g1, g2, g3, g4, g5, g6, h3]
  | big n =>
    obtain ⟨d, ds, h1, h2, h3⟩ := hx sep rest hs
    obtain ⟨g1, g2, g3, g4, g5, g6, g7⟩ := numberStart d h2
    refine ⟨fmtFloat n 0, by simp [marshalValue], ?_, ?_⟩
    · rw [h1]
      simp [skipWs, List.dropWhile, g7]
    · rw [h1]
      simp [parseValue, g1, g2, g3, g4, g5, g6, h3]
  | null => exact absurd hx (by simp [Value.keepsValue])
  | nonFinite => exact absurd hx (by simp [Value.keepsValue])
  | bytes bs => exact absurd hx (by simp [Value.keepsValue])
  | arr xs => exact absurd hx (by simp [Value.keepsValue])
  | obj kvs => exact absurd hx (by simp [Value.keepsValue])
  | unsupported => exact absurd hx (by simp [Value.keepsValue])

theorem skipWs_quote (k : String) (X : List Char) : skipWs (quote k ++ X) = quote k ++ X := by
  simp [quote, skipWs, List.dropWhile, isJsonSpace]

theorem skipWs_separator (sep : Char) (X : List Char) (hs : isSeparator sep) :
    skipWs (sep :: X) = sep :: X := by
  rcases hs with rfl | rfl <;> simp [skipWs, List.dropWhile, isJsonSpace]

/-- One member read: the key, the colon and the value. -/
theorem parseMembers_step (k : String) (x : Value) (a : List Char) (sep : Char)
    (Y : List Char) (fuel depth : Nat) (acc : genericCursor)
    (hsk : skipWs (a ++ sep :: Y) = a ++ sep :: Y)
    (hp : parseValue (fuel + 1) depth (a ++ sep :: Y) = some (x, sep :: Y))
    (hs : isSeparator sep) :
    parseMembers (fuel + 2) depth ((quote k ++ ':' :: a) ++ sep :: Y) acc =
      (if sep = ',' then parseMembers (fuel + 1) depth (skipWs Y) (setKey acc k x)
        else some (Value.obj (setKey acc k x), Y)) := by
  have hk := parseString_quote k (':' :: (a ++ sep :: Y))
  simp only [String.toList] at hk
  have e : (quote k ++ ':' :: a) ++ sep :: Y =
      '"' :: (quoteBody k.data ++ '"' :: ':' :: (a ++ sep :: Y)) := by
    simp [quote]
  have hcolon : skipWs (':' :: (a ++ sep :: Y)) = ':' :: (a ++ sep :: Y) := by
    simp [skipWs, List.dropWhile, isJsonSpace]
  rw [e, parseMembers]
  simp only [if_true, hk, hcolon, hsk, hp, skipWs_separator sep Y hs]
  rcases hs with rfl | rfl
  · simp
  · simp

/-- The members of a map whose values keep their value, written and read
back: the reader returns the members read before, followed by these. -/
theorem parseMembers_members (fmtFloat : Int → Nat → List Char) (T : genericCursor) :
    ∀ (acc : genericCursor) (fuel depth : Nat) (rest : List Char), T ≠ [] →
      (∀ kv ∈ T, kv.2.keepsValue fmtFloat) → isMap (acc ++ T) → T.length < fuel →
      ∃ body, marshalMembers fmtFloat T = some body ∧
        skipWs (body ++ '}' :: rest) = body ++ '}' :: rest ∧
        (∃ X, body = '"' :: X) ∧ T.length ≤ body.length ∧
        parseMembers fuel depth (body ++ '}' :: rest) acc = some (Value.obj (acc ++ T), rest) := by
  induction T with
  | nil => intro acc fuel depth rest h; exact absurd rfl h
  | cons kv T ih =>
    intro acc fuel depth rest _ hleaf hmap hfuel
    obtain ⟨k, x⟩ := kv
    have hx : x.keepsValue fmtFloat := hleaf (k, x) (by simp)
    have hset : setKey acc k x = acc ++ [(k, x)] := by
      apply setKey_append
      intro kv' hkv'
      have := List.pairwise_append.mp hmap
      exact this.2.2 kv' hkv' (k, x) (by simp)
    cases fuel with
    | zero => simp at hfuel
    | succ fuel =>
      cases fuel with
      | zero => simp at hfuel
      | succ fuel =>
        by_cases hT : T = []
        · subst hT
          obtain ⟨a, ha, hsk, hp⟩ :=
            parseValue_leaf fmtFloat x hx fuel depth '}' rest (Or.inr rfl)
          refine ⟨quote k ++ ':' :: a, by simp [marshalMembers, ha], ?_, ⟨_, rfl⟩,
            by simp [quote], ?_⟩
          · rw [List.append_assoc]; exact skipWs_quote k _
          · rw [parseMembers_step k x a '}' rest fuel depth acc hsk hp (Or.inr rfl), hset]
            simp
        · have hmap' : isMap ((acc ++ [(k, x)]) ++ T) := by
            simpa [List.append_assoc] using hmap
          obtain ⟨body, hb, hbs, ⟨X, hX⟩, hlen, hbp⟩ := ih (acc ++ [(k, x)]) (fuel + 1) depth rest hT
            (fun kv hkv => hleaf kv (by simp [hkv])) hmap' (by simp at hfuel; omega)
          obtain ⟨a, ha, hsk, hp⟩ :=
            parseValue_leaf fmtFloat x hx fuel depth ',' (body ++ '}' :: rest) (Or.inl rfl)
          have hne : T.isEmpty = false := by
            cases T with
            | nil => exact absurd rfl hT
            | cons _ _ => rfl
          refine ⟨quote k ++ ':' :: (a ++ ',' :: body), by simp [marshalMembers, ha, hb, hne],
            ?_, ⟨_, rfl⟩, by simp [quote]; omega, ?_⟩
          · rw [List.append_assoc]; exact skipWs_quote k _
          · have e : (quote k ++ ':' :: (a ++ ',' :: body)) ++ '}' :: rest =
                (quote k ++ ':' :: a) ++ ',' :: (body ++ '}' :: rest) := by
              simp [List.append_assoc]
            rw [e, parseMembers_step k x a ',' _ fuel depth acc hsk hp (Or.inl rfl), hset, hbs,
              hbp]
            simp [List.append_assoc]

/-- A non-empty map whose values keep their value, written by `json.Marshal`
and read back by `json.Unmarshal`. -/
theorem jsonUnmarshal_marshal (fmtFloat : Int → Nat → List Char) (T : genericCursor)
    (hne : T ≠ []) (hleaf : ∀ kv ∈ T, kv.2.keepsValue fmtFloat) (hmap : isMap T) :
    ∃ text, jsonMarshal fmtFloat T = some text ∧ jsonUnmarshal text = some T := by
  have hmap' : isMap ([] ++ T) := by simpa using hmap
  obtain ⟨body0, hb0, -, -, hlen, -⟩ :=
    parseMembers_members fmtFloat T [] (T.length + 1) 1 [] hne hleaf hmap' (by omega)
  obtain ⟨body, hb, hbs, ⟨X, hX⟩, -, hbp⟩ :=
    parseMembers_members fmtFloat T [] (body0.length + 2) 1 [] hne hleaf hmap' (by omega)
  have hbb : body = body0 := by
    rw [hb0] at hb
    exact (Option.some.inj hb).symm
  subst hbb
  refine ⟨'{' :: (body ++ ['}']), by simp [jsonMarshal, marshalValue, hb], ?_⟩
  have h1 : skipWs ('{' :: (body ++ ['}'])) = '{' :: (body ++ ['}']) := by
    simp [skipWs, List.dropWhile, isJsonSpace]
  have h2 : ('{' :: (body ++ ['}'])).length + 1 = (body.length + 2) + 1 := by simp
  have h3 : ¬ maxNestingDepth ≤ 0 := by decide
  have h5 : parseMembers (body.length + 2) (0 + 1) (body ++ ['}']) [] =
      some (Value.obj T, []) := by
    simpa using hbp
  have h6 : (match body ++ ['}'] with
      | '}' :: rest => some (Value.obj [], rest)
      | cs' => parseMembers (body.length + 2) (0 + 1) cs' []) =
      parseMembers (body.length + 2) (0 + 1) (body ++ ['}']) [] := by
    rw [hX]
    rfl
  have hv : parseValue (body.length + 2 + 1) 0 ('{' :: (body ++ ['}'])) =
      some (Value.obj T, []) := by
    have c1 : ('{' : Char) ≠ '"' := by decide
    rw [parseValue]
    simp only [c1, if_false, if_true, h3, hbs]
    rw [h6, h5]
  rw [jsonUnmarshal, h1, h2, hv]
  simp [skipWs]

theorem toList_mk (l : List Char) : (String.mk l).toList = l := rfl

/-- The round trip of the codec on a non-empty map whose values keep their
value. -/
theorem decodeCursor_encodeCursor (fmtFloat : Int → Nat → List Char) (T : genericCursor)
    (hne : T ≠ []) (hleaf : ∀ kv ∈ T, kv.2.keepsValue fmtFloat) (hmap : isMap T) :
    decodeCursor (encodeCursor fmtFloat T) = Except.ok T := by
  obtain ⟨text, h1, h2⟩ := jsonUnmarshal_marshal fmtFloat T hne hleaf hmap
  have h0 : T.length ≠ 0 := by
    cases T with
    | nil => exact absurd rfl hne
    | cons _ _ => simp
  simp only [encodeCursor, h0, if_false, h1, decodeCursor, toList_mk,
    b64Decode_encode _ (utf8Encode_lt text), utf8Decode_encode, h2]

theorem parseUnsigned_unfold (neg : Bool) (d : Char) (r : List Char) (h : isDigit d = true) :
    parseUnsigned neg d r =
      match parseFraction (if d = '0' then r else r.dropWhile isDigit) with
      | none => none
      | some (fp, r2) =>
        match parseExponent r2 with
        | none => none
        | some (ex, r3) =>
          match numberValue neg
              (digitsValue ((if d = '0' then [d] else d :: r.takeWhile isDigit) ++ fp))
              (ex - fp.length) with
          | none => none
          | some v => some (v, r3) := by
  simp only [parseUnsigned, h, Bool.not_true, Bool.false_eq_true, if_false]

theorem keepsValue_sample : (Value.frac 3 1).keepsValue sampleFloat := by
  intro sep rest hs
  refine ⟨'1', ['.', '5'], rfl, Or.inl rfl, ?_⟩
  have hsep : isDigit sep = false ∧ sep ≠ '.' ∧ sep ≠ 'e' ∧ sep ≠ 'E' := by
    rcases hs with rfl | rfl <;> decide
  have e1 : ('1' : Char) ≠ '-' := by decide
  have e2 : ('1' : Char) ≠ '0' := by decide
  have e3 : List.takeWhile isDigit ('.' :: '5' :: sep :: rest) = [] := by
    simp [List.takeWhile, isDigit]
  have e4 : List.dropWhile isDigit ('.' :: '5' :: sep :: rest) = '.' :: '5' :: sep :: rest := by
    simp [List.dropWhile, isDigit]
  have e5 : parseFraction ('.' :: '5' :: sep :: rest) = some (['5'], sep :: rest) := by
    obtain ⟨t1, t2⟩ := takeWhile_dropWhile_digits ['5'] sep rest (by decide) hsep.1
    simp only [List.cons_append, List.nil_append] at t1 t2
    simp [parseFraction, t1, t2]
  have e6 : parseExponent (sep :: rest) = some (0, sep :: rest) := by
    simp [parseExponent, hsep.2.2.1, hsep.2.2.2]
  have e7 : digitsValue (['1'] ++ ['5']) = 15 := by decide
  have e8 : ((0 : Int) - ((['5'] : List Char).length : Int)) = -1 := by decide
  have e9 : numberValue false 15 (-1) = some (Value.frac 3 1) := by rfl
  show parseNumber '1' ('.' :: '5' :: sep :: rest) = some (Value.frac 3 1, sep :: rest)
  rw [parseNumber, if_neg e1, parseUnsigned_unfold _ _ _ (by decide), if_neg e2, if_neg e2, e3, e4,
    e5]
  simp only []
  rw [e6]
  simp only []
  rw [e7, e8, e9]

theorem keepsValue_sampleToken : ∀ kv ∈ sampleToken, kv.2.keepsValue sampleFloat := by
  intro kv hkv
  simp only [sampleToken, List.mem_cons, List.mem_singleton, List.not_mem_nil, or_false] at hkv
  rcases hkv with rfl | rfl | rfl | rfl
  · show (10 : Int).natAbs ≤ 2 ^ 53
    decide
  · trivial
  · trivial
  · exact keepsValue_sample

theorem isMap_sampleToken : isMap sampleToken := by
  simp [isMap, sampleToken, keyLt]

theorem marshal_createGenericCursor (fmtFloat : Int → Nat → List Char) (field : String)
    (value : Value) (pointsNext : Bool) (h : marshalValue fmtFloat value ≠ none) :
    ∃ text, jsonMarshal fmtFloat (createGenericCursor field value pointsNext) =
      some ('{' :: text) := by
  obtain ⟨a, ha⟩ := Option.ne_none_iff_exists'.mp h
  have hb : ∃ t, marshalValue fmtFloat (Value.bool pointsNext) = some t := by
    cases pointsNext <;> exact ⟨_, rfl⟩
  obtain ⟨t, ht⟩ := hb
  have key : ∀ m body, marshalMembers fmtFloat m = some body →
      ∃ text, jsonMarshal fmtFloat m = some ('{' :: text) := by
    intro m body hm
    exact ⟨body ++ ['}'], by simp [jsonMarshal, marshalValue, hm]⟩
  unfold createGenericCursor
  by_cases h1 : "points_next" = field
  · subst h1
    have e : setKey (setKey [] "points_next" value) "points_next" (Value.bool pointsNext) =
        [("points_next", Value.bool pointsNext)] := by
      simp [setKey]
    rw [e]
    exact key _ (quote "points_next" ++ ':' :: t) (by simp [marshalMembers, ht])
  · by_cases h2 : keyLt "points_next".toList field.toList = true
    · simp only [setKey, h1, if_false, h2, if_true]
      exact key _ (quote "points_next" ++ ':' :: (t ++ ',' :: (quote field ++ ':' :: a)))
        (by simp [marshalMembers, ha, ht])
    · simp only [setKey, h1, if_false, h2]
      exact key _ (quote field ++ ':' :: (a ++ ',' :: (quote "points_next" ++ ':' :: t)))
        (by simp [marshalMembers, ha, ht])

theorem b64Encode_ne_nil (b : Nat) (bs : List Nat) : b64Encode (b :: bs) ≠ [] := by
  cases bs with
  | nil => simp [b64Encode]
  | cons c bs =>
    cases bs with
    | nil => simp [b64Encode]
    | cons d bs => simp [b64Encode]

/-- A non-empty map that `json.Marshal` accepts has a non-empty token. -/
theorem encodeCursor_ne_empty (fmtFloat : Int → Nat → List Char) (m : genericCursor)
    (text : List Char) (hne : m ≠ []) (h : jsonMarshal fmtFloat m = some ('{' :: text)) :
    encodeCursor fmtFloat m ≠ "" := by
  have h0 : m.length ≠ 0 := by
    cases m with
    | nil => exact absurd rfl hne
    | cons _ _ => simp
  simp only [encodeCursor, h0, if_false, h]
  intro e
  have := congrArg String.toList e
  rw [toList_mk] at this
  have h2 : utf8Encode ('{' :: text) = 123 :: utf8Encode text := rfl
  rw [h2] at this
  exact b64Encode_ne_nil _ _ this

theorem encodeCursor_nil (fmtFloat : Int → Nat → List Char) : encodeCursor fmtFloat [] = "" := rfl

/-- The token of a boundary row whose value `json.Marshal` accepts is not
empty. -/
theorem encodeCursor_create_ne_empty (fmtFloat : Int → Nat → List Char) (field : String)
    (value : Value) (pointsNext : Bool) (h : marshalValue fmtFloat value ≠ none) :
    encodeCursor fmtFloat (createGenericCursor field value pointsNext) ≠ "" := by
  obtain ⟨text, ht⟩ := marshal_createGenericCursor fmtFloat field value pointsNext h
  exact encodeCursor_ne_empty fmtFloat _ text (isMap_createGenericCursor _ _ _).2.1 ht

/-- The token of a boundary row whose value keeps its value decodes to the
map it was made from. -/
theorem decodeCursor_create (fmtFloat : Int → Nat → List Char) (field : String)
    (value : Value) (pointsNext : Bool) (h : value.keepsValue fmtFloat) :
    decodeCursor (encodeCursor fmtFloat (createGenericCursor field value pointsNext)) =
      Except.ok (createGenericCursor field value pointsNext) := by
  obtain ⟨h1, h2, h3⟩ := isMap_createGenericCursor field value pointsNext
  apply decodeCursor_encodeCursor fmtFloat _ h2 _ h1
  intro kv hkv
  rcases h3 kv hkv with e | e
  · rw [e]; exact h
  · rw [e]; trivial

/-! ## The cursor codec -/

/-- C1 as stated fails. The empty map is encoded as the empty string, the
sentinel for "no token", which `decodeCursor` rejects; a number that a
float64 does not hold comes back as the nearest float64: the token of
`{"id": 9007199254740993}` decodes to `{"id": 9007199254740992}`; and a
string that does not hold valid UTF-8 comes back with U+FFFD in the place of
each byte that is not part of a character: the token of the map whose value
under "a" is the string of the one byte 255 is that of the JSON text
`{"a":"\ufffd"}` and decodes to the map with the string U+FFFD. -/
theorem C1_counterexample :
    isMap ([] : genericCursor) ∧ encodeCursor sampleFloat [] = "" ∧
    decodeCursor (encodeCursor sampleFloat []) = Except.error DecodeError.invalidJSON ∧
    isMap [("id", Value.num 9007199254740993)] ∧
    decodeCursor (encodeCursor sampleFloat [("id", Value.num 9007199254740993)]) =
      Except.ok [("id", Value.num 9007199254740992)] ∧
    isMap [("a", Value.bytes [255])] ∧ Value.isLeaf (Value.bytes [255]) = true ∧
    encodeCursor sampleFloat [("a", Value.bytes [255])] = "eyJhIjoiXHVmZmZkIn0=" ∧
    decodeCursor (encodeCursor sampleFloat [("a", Value.bytes [255])]) =
      Except.ok [("a", Value.str (String.mk [runeError]))] :=
  ⟨by simp [isMap], rfl, rfl, by simp [isMap], rfl, by simp [isMap], rfl, by decide, rfl⟩

/-- C1, amended: for every non-empty token map `T` whose values are strings
that hold valid UTF-8, booleans, integers of magnitude at most `2 ^ 53`, or
other finite float64 numbers whose text reads back as the same number,
`decodeCursor(encodeCursor(T))` succeeds and returns `T`. -/
theorem C1_codec_round_trip (fmtFloat : Int → Nat → List Char) (T : genericCursor)
    (hmap : isMap T) (hne : T ≠ []) (hleaf : ∀ kv ∈ T, kv.2.keepsValue fmtFloat) :
    decodeCursor (encodeCursor fmtFloat T) = Except.ok T :=
  decodeCursor_encodeCursor fmtFloat T hne hleaf hmap

/-- C1, amended, at a token map with a value of each kind. -/
theorem C1_codec_round_trip_witness :
    isMap sampleToken ∧ sampleToken ≠ [] ∧
    (∀ kv ∈ sampleToken, kv.2.keepsValue sampleFloat) ∧
    encodeCursor sampleFloat sampleToken =
      "eyJpZCI6MTAsIm5hbWUiOiJhXHUwMDNjYiIsInBvaW50c19uZXh0Ijp0cnVlLCJzY29yZSI6MS41fQ==" ∧
    decodeCursor (encodeCursor sampleFloat sampleToken) = Except.ok sampleToken :=
  ⟨isMap_sampleToken, by simp [sampleToken], keepsValue_sampleToken, by decide,
    C1_codec_round_trip sampleFloat sampleToken isMap_sampleToken (by simp [sampleToken])
      keepsValue_sampleToken⟩

/-! ## Cursor paging -/

theorem decodeCursor_empty : decodeCursor "" = Except.error DecodeError.invalidJSON := rfl

theorem decodeCursor_quotes : decodeCursor "\"\"" = Except.error DecodeError.corruptInput := rfl

theorem paginationOperator_spec (b : Bool) (so : String) (h : so = "asc" ∨ so = "desc") :
    (paginationOperator b so).1 = (specOperatorAndOrder b so).1 ∧
    (if (paginationOperator b so).2 ≠ "" then (paginationOperator b so).2 else so) =
      (specOperatorAndOrder b so).2 := by
  rcases h with rfl | rfl <;> cases b <;> decide

/-- The chain after `Build` on a cursor that decodes to a map with the
boundary value `v` and the flag `b`. -/
theorem Build_chain (c : cursorPaging) (tx : Tx) (cursor : String)
    (m : genericCursor) (v : Value) (b : Bool)
    (hc : c.cursor = some cursor) (hso : c.sortOrder = "asc" ∨ c.sortOrder = "desc")
    (hd : decodeCursor cursor = Except.ok m) (hv : getKey m c.field = some v)
    (hb : getKey m "points_next" = some (Value.bool b)) :
    (c.Build tx).2 = tx ++
      [Op.Where (c.field ++ " " ++ (specOperatorAndOrder b c.sortOrder).1 ++ " ?") [v],
        Op.Order (Value.str (c.field ++ " " ++ (specOperatorAndOrder b c.sortOrder).2)),
        Op.Limit (wrapInt (c.limit + 1))] := by
  have h1 : ¬ (cursor = "\"\"" ∨ cursor = "") := by
    rintro (rfl | rfl)
    · rw [decodeCursor_quotes] at hd; cases hd
    · rw [decodeCursor_empty] at hd; cases hd
  have hpn : (match getKey m "points_next" with
      | some (Value.bool true) => true
      | _ => false) = b := by
    rw [hb]; cases b <;> rfl
  obtain ⟨t1, t2⟩ := paginationOperator_spec b c.sortOrder hso
  simp only [cursorPaging.Build, hc, h1, if_false, hd, hpn, hv, Option.getD_some]
  split
  · rename_i h
    rw [if_pos h] at t2
    simp [cursorPaging.finish, t1, t2]
  · rename_i h
    rw [if_neg h] at t2
    simp [cursorPaging.finish, t1, ← t2]

/-- C2 as stated fails at the greatest limit: on the pager of the token of
`{"id": 10, "points_next": true}`, ascending, with the limit 9223372036854775807
(`math.MaxInt64`), the addition `c.limit + 1` of `Build` wraps around and the
chain ends in the limit -9223372036854775808, not in `limit + 1`. -/
theorem C2_counterexample :
    ((NewCursorPaging (some "eyJpZCI6MTAsInBvaW50c19uZXh0Ijp0cnVlfQ==") "id"
      [WithCursorSortOrder "asc", WithCursorLimit 9223372036854775807]).Build []).2 =
      [Op.Where "id > ?" [Value.num 10], Op.Order (Value.str "id asc"),
        Op.Limit (-9223372036854775808)] ∧
    isInt64 9223372036854775807 ∧
    (9223372036854775807 : Int) + 1 ≠ -9223372036854775808 :=
  ⟨rfl, by decide, by decide⟩

/-- C2, amended: for every pager whose limit is a Go `int` and whose declared
sort order is asc or desc, and every cursor that decodes to a map holding `v`
under the field and the boolean `b` under "points_next", `Build` appends to
the chain the filter "field op ?" bound to `v`, the order "field eff" and the
limit, which is `limit + 1` for every limit below `math.MaxInt64` and
`math.MinInt64` for the limit `math.MaxInt64`; `op` and `eff` are those of the
table of the specification: (true, asc) gives (>, asc), (true, desc) gives
(<, desc), (false, asc) gives (<, desc) and (false, desc) gives (>, asc). -/
theorem C2_build_follows_the_table (c : cursorPaging) (tx : Tx) (cursor : String)
    (m : genericCursor) (v : Value) (b : Bool) (hl : isInt64 c.limit)
    (hc : c.cursor = some cursor) (hso : c.sortOrder = "asc" ∨ c.sortOrder = "desc")
    (hd : decodeCursor cursor = Except.ok m) (hv : getKey m c.field = some v)
    (hb : getKey m "points_next" = some (Value.bool b)) :
    (c.Build tx).2 = tx ++
      [Op.Where (c.field ++ " " ++ (specOperatorAndOrder b c.sortOrder).1 ++ " ?") [v],
        Op.Order (Value.str (c.field ++ " " ++ (specOperatorAndOrder b c.sortOrder).2)),
        Op.Limit (if c.limit = maxInt64 then minInt64 else c.limit + 1)] ∧
    specOperatorAndOrder true "asc" = (">", "asc") ∧
    specOperatorAndOrder true "desc" = ("<", "desc") ∧
    specOperatorAndOrder false "asc" = ("<", "desc") ∧
    specOperatorAndOrder false "desc" = (">", "asc") := by
  refine ⟨?_, rfl, rfl, rfl, rfl⟩
  rw [Build_chain c tx cursor m v b hc hso hd hv hb, wrapInt_succ hl]

/-- C2, amended, at the token of `{"id": 10, "points_next": true}` on an
ascending pager of ten rows a page: "id > ?" bound to 10, "id asc", limit
11. -/
theorem C2_build_follows_the_table_witness :
    isInt64 (samplePager (some "eyJpZCI6MTAsInBvaW50c19uZXh0Ijp0cnVlfQ==")).limit ∧
    ((samplePager (some "eyJpZCI6MTAsInBvaW50c19uZXh0Ijp0cnVlfQ==")).Build []).2 =
      [Op.Where "id > ?" [Value.num 10], Op.Order (Value.str "id asc"), Op.Limit 11] :=
  ⟨by decide,
    (C2_build_follows_the_table (samplePager (some "eyJpZCI6MTAsInBvaW50c19uZXh0Ijp0cnVlfQ=="))
      [] "eyJpZCI6MTAsInBvaW50c19uZXh0Ijp0cnVlfQ=="
      [("id", Value.num 10), ("points_next", Value.bool true)] (Value.num 10) true (by decide)
      rfl (Or.inl rfl) rfl rfl rfl).1⟩

/-- C8 as stated fails: after `Build` on the token of `{"id": 11,
"points_next": false}` the pager is on a backward page, and with
`hasPagination` false the Next token of the envelope is not empty. -/
theorem C8_counterexample :
    ((samplePager (some "eyJpZCI6MTEsInBvaW50c19uZXh0IjpmYWxzZX0=")).Build []).1.pointsNext =
      false ∧
    (((samplePager (some "eyJpZCI6MTEsInBvaW50c19uZXh0IjpmYWxzZX0=")).Build []).1.Pagination
        sampleFloat false false (some (Value.num 1)) (some (Value.num 10))).map
      cursorForwarder.Next = some "eyJpZCI6MTAsInBvaW50c19uZXh0Ijp0cnVlfQ==" :=
  ⟨rfl, by decide⟩

/-- C8, amended: for boundary rows whose cursor values `json.Marshal`
accepts, `Pagination` returns an envelope; on the first page and on a forward
page its Next token is non-empty exactly when `hasPagination` is true; on a
backward page its Next token is always non-empty, and it is the Prev token
that is non-empty exactly when `hasPagination` is true. -/
theorem C8_has_more_detection (fmtFloat : Int → Nat → List Char) (c : cursorPaging)
    (isFirstPage hasPagination : Bool) (pv nv : Value)
    (hp : marshalValue fmtFloat pv ≠ none) (hn : marshalValue fmtFloat nv ≠ none) :
    ∃ env, c.Pagination fmtFloat isFirstPage hasPagination (some pv) (some nv) = some env ∧
      ((isFirstPage = true ∨ c.pointsNext = true) → (env.Next ≠ "" ↔ hasPagination = true)) ∧
      ((isFirstPage = false ∧ c.pointsNext = false) →
        env.Next ≠ "" ∧ (env.Prev ≠ "" ↔ hasPagination = true)) := by
  have en := encodeCursor_create_ne_empty fmtFloat c.field nv true hn
  have ep := encodeCursor_create_ne_empty fmtFloat c.field pv false hp
  have e0 := encodeCursor_nil fmtFloat
  cases isFirstPage <;> cases hasPagination <;> cases hpn : c.pointsNext <;>
    simp [cursorPaging.Pagination, newCursorPagination, hpn, en, ep, e0]

/-- C8, amended, on the first page with a further row: the Next token is
that of `{"id": 10, "points_next": true}`. -/
theorem C8_has_more_detection_witness :
    ∃ env, (samplePager none).Pagination sampleFloat true true
        (some (Value.num 1)) (some (Value.num 10)) = some env ∧
      env.Next = "eyJpZCI6MTAsInBvaW50c19uZXh0Ijp0cnVlfQ==" ∧ env.Next ≠ "" := by
  obtain ⟨env, h1, h2, -⟩ := C8_has_more_detection sampleFloat (samplePager none) true true
    (Value.num 1) (Value.num 10) (by simp [marshalValue]) (by simp [marshalValue])
  refine ⟨env, h1, ?_, (h2 (Or.inl rfl)).mpr rfl⟩
  have e : (samplePager none).Pagination sampleFloat true true
      (some (Value.num 1)) (some (Value.num 10)) =
      some { Next := "eyJpZCI6MTAsInBvaW50c19uZXh0Ijp0cnVlfQ==", Prev := "" } := rfl
  rw [e] at h1
  rw [← Option.some.inj h1]

/-- C9: with `isFirstPage` true, `Pagination` returns an envelope whose Prev
token is the empty string, whatever `hasPagination`, the pager and the
boundary rows are, as long as the Next row is there when `hasPagination` is
true (without it the call panics); only Next may be set. -/
theorem C9_first_page_has_no_prev (fmtFloat : Int → Nat → List Char) (c : cursorPaging)
    (hasPagination : Bool) (prev : Option Value) (nv : Value) :
    (∃ env, c.Pagination fmtFloat true hasPagination prev (some nv) = some env ∧
      env.Prev = "") ∧
    c.Pagination fmtFloat true false prev none = some { Next := "", Prev := "" } ∧
    c.Pagination fmtFloat true true prev none = none := by
  refine ⟨?_, rfl, rfl⟩
  cases hasPagination
  · exact ⟨_, rfl, rfl⟩
  · exact ⟨_, rfl, rfl⟩

/-- C10 as stated fails for a number that a float64 does not hold: the Next
token emitted for the boundary value 9007199254740993 is not empty and
decodes to the map with 9007199254740992. It fails as well for a string that
does not hold valid UTF-8: the Next token emitted for the string of the one
byte 255 is not empty and decodes to the map with the string U+FFFD. -/
theorem C10_counterexample :
    (∃ env, (samplePager none).Pagination sampleFloat true true none
        (some (Value.num 9007199254740993)) = some env ∧
      env.Next ≠ "" ∧
      decodeCursor env.Next =
        Except.ok [("id", Value.num 9007199254740992), ("points_next", Value.bool true)] ∧
      createGenericCursor "id" (Value.num 9007199254740993) true =
        [("id", Value.num 9007199254740993), ("points_next", Value.bool true)] ∧
      decodeCursor env.Next ≠
        Except.ok (createGenericCursor "id" (Value.num 9007199254740993) true)) ∧
    (∃ env, (samplePager none).Pagination sampleFloat true true none
        (some (Value.bytes [255])) = some env ∧
      env.Next = "eyJpZCI6Ilx1ZmZmZCIsInBvaW50c19uZXh0Ijp0cnVlfQ==" ∧ env.Next ≠ "" ∧
      decodeCursor env.Next =
        Except.ok [("id", Value.str (String.mk [runeError])), ("points_next", Value.bool true)] ∧
      createGenericCursor "id" (Value.bytes [255]) true =
        [("id", Value.bytes [255]), ("points_next", Value.bool true)] ∧
      Value.isLeaf (Value.bytes [255]) = true) := by
  refine ⟨⟨_, rfl, by decide, rfl, rfl, ?_⟩, ⟨_, rfl, by decide, by decide, rfl, rfl, rfl⟩⟩
  have e : decodeCursor ((newCursorPagination sampleFloat
      (createGenericCursor (samplePager none).field (Value.num 9007199254740993) true) []).Next) =
      Except.ok [("id", Value.num 9007199254740992), ("points_next", Value.bool true)] := rfl
  rw [e]
  have e2 : createGenericCursor "id" (Value.num 9007199254740993) true =
      [("id", Value.num 9007199254740993), ("points_next", Value.bool true)] := rfl
  rw [e2]
  intro h
  have h1 := Except.ok.inj h
  simp at h1

/-- C10, amended: for boundary rows whose cursor values are strings that hold
valid UTF-8, booleans, integers of magnitude at most `2 ^ 53`, or other finite
float64 numbers whose text reads back as the same number, `Pagination`
returns an envelope whose Next token, when not empty, decodes to exactly
`{f: next.CursorField(), "points_next": true}` and whose Prev token, when not
empty, decodes to exactly `{f: prev.CursorField(), "points_next": false}`. -/
theorem C10_tokens_decode_to_boundaries (fmtFloat : Int → Nat → List Char) (c : cursorPaging)
    (isFirstPage hasPagination : Bool) (pv nv : Value)
    (hp : pv.keepsValue fmtFloat) (hn : nv.keepsValue fmtFloat) :
    ∃ env, c.Pagination fmtFloat isFirstPage hasPagination (some pv) (some nv) = some env ∧
      (env.Next ≠ "" →
        decodeCursor env.Next = Except.ok (createGenericCursor c.field nv true)) ∧
      (env.Prev ≠ "" →
        decodeCursor env.Prev = Except.ok (createGenericCursor c.field pv false)) := by
  have dn := decodeCursor_create fmtFloat c.field nv true hn
  have dp := decodeCursor_create fmtFloat c.field pv false hp
  have e0 := encodeCursor_nil fmtFloat
  cases isFirstPage <;> cases hasPagination <;> cases hpn : c.pointsNext <;>
    simp [cursorPaging.Pagination, newCursorPagination, hpn, dn, dp, e0]

/-- C10, amended, on a forward page with a further row: both tokens decode
to the boundary values. -/
theorem C10_tokens_decode_to_boundaries_witness :
    ∃ env, ({ samplePager (some "x") with pointsNext := true }).Pagination sampleFloat false true
        (some (Value.num 11)) (some (Value.str "k<20")) = some env ∧
      (env.Next ≠ "" →
        decodeCursor env.Next = Except.ok (createGenericCursor "id" (Value.str "k<20") true)) ∧
      (env.Prev ≠ "" →
        decodeCursor env.Prev = Except.ok (createGenericCursor "id" (Value.num 11) false)) :=
  C10_tokens_decode_to_boundaries sampleFloat { samplePager (some "x") with pointsNext := true }
    false true (Value.num 11) (Value.str "k<20") (by show (11 : Int).natAbs ≤ 2 ^ 53; decide)
    trivial

/-! ## Examples of composition and of reading -/

/-- The two examples of composition, on new leaves with fragments that are
not blank: `And(p1, Or(p2, p3))` renders "p1 AND (p2 OR p3)" and
`Or(p1, And(p2, p3))` renders "p1 OR (p2 AND p3)". -/
theorem And_of_Or_leaves (f1 f2 f3 : String) (ps1 ps2 ps3 : List Value)
    (h1 : isEmptyString f1 = false) (h2 : isEmptyString f2 = false)
    (h3 : isEmptyString f3 = false) :
    fragmentOf ((PTree.and [PTree.leaf f1 ps1,
        PTree.or [PTree.leaf f2 ps2, PTree.leaf f3 ps3]]).build []) =
      some (f1 ++ " AND " ++ ("(" ++ (f2 ++ " OR " ++ f3) ++ ")")) ∧
    fragmentOf ((PTree.or [PTree.leaf f1 ps1,
        PTree.and [PTree.leaf f2 ps2, PTree.leaf f3 ps3]]).build []) =
      some (f1 ++ " OR " ++ ("(" ++ (f2 ++ " AND " ++ f3) ++ ")")) := by
  have l1 := length_pos_of_not_blank h1
  have l2 := length_pos_of_not_blank h2
  have l3 := length_pos_of_not_blank h3
  have e1 : isEmptyString "" = true := by decide
  have e2 : isEmptyString " OR " = false := by decide
  have e3 : isEmptyString " AND " = false := by decide
  have e4 : isEmptyString (f2 ++ " OR " ++ f3) = false := by
    simp only [isEmptyString, String.toList, String.data_append, List.all_append,
      Bool.and_eq_false_imp] at h2 ⊢
    intro hall
    rw [h2] at hall
    cases hall
  have e5 : isEmptyString (f2 ++ " AND " ++ f3) = false := by
    simp only [isEmptyString, String.toList, String.data_append, List.all_append,
      Bool.and_eq_false_imp] at h2 ⊢
    intro hall
    rw [h2] at hall
    cases hall
  constructor
  · simp [PTree.build, PTree.buildAll, Heap.alloc, And, Or, appendCondition, appendLoop, Raw,
      copyModifiers, needsWrap, fragmentOf, h1, h2, h3, l1, l2, l3, e1, e2, e3, e4, wrapQuery,
      String.length_append]
  · simp [PTree.build, PTree.buildAll, Heap.alloc, And, Or, appendCondition, appendLoop, Raw,
      copyModifiers, needsWrap, fragmentOf, h1, h2, h3, l1, l2, l3, e1, e2, e3, e5, wrapQuery,
      String.length_append]

/-- The reader gives AND precedence over OR, and reads `NOT(...)` and
parentheses as groups. -/
theorem readFragment_precedence (ρ : List String → Bool) :
    readFragment ρ "a OR b AND c" = some (ρ ["a"] || (ρ ["b"] && ρ ["c"])) ∧
    readFragment ρ "(a OR b) AND c" = some ((ρ ["a"] || ρ ["b"]) && ρ ["c"]) ∧
    readFragment ρ "NOT(a OR b) AND c" = some (!(ρ ["a"] || ρ ["b"]) && ρ ["c"]) ∧
    readFragment ρ "a OR b AND" = none ∧ readFragment ρ "(a OR b" = none := by
  have t1 : tokens "a OR b AND c" =
      [Tok.atom ["a"], Tok.or, Tok.atom ["b"], Tok.and, Tok.atom ["c"]] := rfl
  have t2 : tokens "(a OR b) AND c" = [Tok.opening false, Tok.atom ["a"], Tok.or,
      Tok.atom ["b"], Tok.closing, Tok.and, Tok.atom ["c"]] := rfl
  have t3 : tokens "NOT(a OR b) AND c" = [Tok.opening true, Tok.atom ["a"], Tok.or,
      Tok.atom ["b"], Tok.closing, Tok.and, Tok.atom ["c"]] := rfl
  have t4 : tokens "a OR b AND" = [Tok.atom ["a"], Tok.or, Tok.atom ["b"], Tok.and] := rfl
  have t5 : tokens "(a OR b" = [Tok.opening false, Tok.atom ["a"], Tok.or, Tok.atom ["b"]] := rfl
  refine ⟨?_, ?_, ?_, ?_, ?_⟩
  · simp [readFragment, readFragmentAt, t1, Reader.run, Reader.step, Level.value]
  · simp [readFragment, readFragmentAt, t2, Reader.run, Reader.step, Level.value]
  · simp [readFragment, readFragmentAt, t3, Reader.run, Reader.step, Level.value]
  · simp [readFragment, readFragmentAt, t4, Reader.run, Reader.step, Level.value]
  · simp [readFragment, readFragmentAt, t5, Reader.run, Reader.step, Level.value]

/-! ## The first page and the pages of a rejected token -/

/-- The options of the package, which are the only ones a caller can make
(the struct they act on is not exported). -/
theorem NewCursorPaging_fields (field : String) (opts : List CursorPagingOpt)
    (hopts : ∀ o ∈ opts, (∃ s, o = WithCursorSortOrder s) ∨ ∃ n, o = WithCursorLimit n)
    (cursor : Option String) :
    (NewCursorPaging cursor field opts).cursor = cursor ∧
    (NewCursorPaging cursor field opts).field = field ∧
    (NewCursorPaging cursor field opts).isFirstPage = cursor.isNone ∧
    (NewCursorPaging cursor field opts).pointsNext = false ∧
    (NewCursorPaging cursor field opts).sortOrder = (NewCursorPaging none field opts).sortOrder ∧
    (NewCursorPaging cursor field opts).limit = (NewCursorPaging none field opts).limit := by
  have key : ∀ (opts : List CursorPagingOpt),
      (∀ o ∈ opts, (∃ s, o = WithCursorSortOrder s) ∨ ∃ n, o = WithCursorLimit n) →
      ∀ c0 c1 : cursorPaging, c0.sortOrder = c1.sortOrder → c0.limit = c1.limit →
        (opts.foldl (fun cp opt => opt cp) c0).cursor = c0.cursor ∧
        (opts.foldl (fun cp opt => opt cp) c0).field = c0.field ∧
        (opts.foldl (fun cp opt => opt cp) c0).isFirstPage = c0.isFirstPage ∧
        (opts.foldl (fun cp opt => opt cp) c0).pointsNext = c0.pointsNext ∧
        (opts.foldl (fun cp opt => opt cp) c0).sortOrder =
          (opts.foldl (fun cp opt => opt cp) c1).sortOrder ∧
        (opts.foldl (fun cp opt => opt cp) c0).limit =
          (opts.foldl (fun cp opt => opt cp) c1).limit := by
    intro opts
    induction opts with
    | nil => intro _ c0 c1 h1 h2; exact ⟨rfl, rfl, rfl, rfl, h1, h2⟩
    | cons o rest ih =>
      intro ho c0 c1 h1 h2
      have hrest := fun o h => ho o (List.mem_cons_of_mem _ h)
      rcases ho o (List.mem_cons_self _ _) with ⟨s, rfl⟩ | ⟨n, rfl⟩
      · exact ih hrest (WithCursorSortOrder s c0) (WithCursorSortOrder s c1) rfl h2
      · exact ih hrest (WithCursorLimit n c0) (WithCursorLimit n c1) h1 rfl
  exact key opts hopts _ _ rfl rfl

/-- C13 as stated fails at the greatest limit: the pager without a token whose
limit is 9223372036854775807 (`math.MaxInt64`) emits the order and the limit
-9223372036854775808, because the addition `c.limit + 1` wraps around. -/
theorem C13_counterexample :
    ((NewCursorPaging none "id"
      [WithCursorSortOrder "asc", WithCursorLimit 9223372036854775807]).Build []).2 =
      [Op.Order (Value.str "id asc"), Op.Limit (-9223372036854775808)] ∧
    maxInt64 = 9223372036854775807 ∧
    (9223372036854775807 : Int) + 1 ≠ -9223372036854775808 :=
  ⟨rfl, by decide, by decide⟩

/-- C13, amended: when the cursor of the pager is nil, the empty string or the
string of the two characters `""`, `Build` leaves the pager as it is and
appends to the chain no filter, only the order "field sortOrder" in the
declared sort order and then the limit, which is `limit + 1` for every limit
below `math.MaxInt64` and `math.MinInt64` for the limit `math.MaxInt64`. -/
theorem C13_no_token_gives_first_page (c : cursorPaging) (tx : Tx)
    (h : c.cursor = none ∨ c.cursor = some "" ∨ c.cursor = some "\"\"")
    (hl : isInt64 c.limit) :
    c.Build tx = (c, tx ++ [Op.Order (Value.str (c.field ++ " " ++ c.sortOrder)),
      Op.Limit (if c.limit = maxInt64 then minInt64 else c.limit + 1)]) ∧
    "\"\"".toList = ['"', '"'] := by
  refine ⟨?_, rfl⟩
  rw [← wrapInt_succ hl]
  rcases h with h | h | h <;> simp [cursorPaging.Build, cursorPaging.finish, h]

/-- C13, amended, on the pager of the field `id`, ascending, ten rows a page,
whose cursor is the empty string: the chain is the order "id asc" and the
limit 11. -/
theorem C13_no_token_gives_first_page_witness :
    isInt64 (samplePager (some "")).limit ∧
    ((samplePager (some "")).Build []).2 = [Op.Order (Value.str "id asc"), Op.Limit 11] :=
  ⟨by decide, (congrArg Prod.snd
    (C13_no_token_gives_first_page (samplePager (some "")) [] (Or.inr (Or.inl rfl))
      (by decide)).1).trans rfl⟩

/-- C14 as stated fails at the greatest limit: for the cursor "abc", which
`decodeCursor` rejects, the pager whose limit is 9223372036854775807
(`math.MaxInt64`) emits the limit -9223372036854775808, not `limit + 1`. -/
theorem C14_counterexample :
    decodeCursor "abc" = Except.error DecodeError.corruptInput ∧
    ((NewCursorPaging (some "abc") "id"
      [WithCursorSortOrder "asc", WithCursorLimit 9223372036854775807]).Build []).2 =
      [Op.Order (Value.str "id asc"), Op.Limit (-9223372036854775808)] ∧
    (NewCursorPaging (some "abc") "id"
      [WithCursorSortOrder "asc", WithCursorLimit 9223372036854775807]).limit = maxInt64 ∧
    (9223372036854775807 : Int) + 1 ≠ -9223372036854775808 :=
  ⟨rfl, rfl, by decide, by decide⟩

/-- C14, amended: for a pager made by `NewCursorPaging` with options of the
package, a limit that is a Go `int` and a cursor that `decodeCursor` rejects,
`Build` (which has no error to return) leaves the pager as it is,
`pointsNext` false and the sort order the declared one, and appends to the
chain no filter, only the order "field sortOrder" and the limit, which is
`limit + 1` for every limit below `math.MaxInt64` and `math.MinInt64` for the
limit `math.MaxInt64`: the chain of the pager that has no cursor. -/
theorem C14_rejected_token_gives_first_page (cursor field : String)
    (opts : List CursorPagingOpt) (tx : Tx) (e : DecodeError)
    (hopts : ∀ o ∈ opts, (∃ s, o = WithCursorSortOrder s) ∨ ∃ n, o = WithCursorLimit n)
    (hl : isInt64 (NewCursorPaging (some cursor) field opts).limit)
    (hrej : decodeCursor cursor = Except.error e) :
    ((NewCursorPaging (some cursor) field opts).Build tx).1 =
      NewCursorPaging (some cursor) field opts ∧
    ((NewCursorPaging (some cursor) field opts).Build tx).1.pointsNext = false ∧
    ((NewCursorPaging (some cursor) field opts).Build tx).1.sortOrder =
      (NewCursorPaging (some cursor) field opts).sortOrder ∧
    ((NewCursorPaging (some cursor) field opts).Build tx).2 =
      tx ++ [Op.Order (Value.str (field ++ " " ++
          (NewCursorPaging (some cursor) field opts).sortOrder)),
        Op.Limit (if (NewCursorPaging (some cursor) field opts).limit = maxInt64 then minInt64
          else (NewCursorPaging (some cursor) field opts).limit + 1)] ∧
    ((NewCursorPaging (some cursor) field opts).Build tx).2 =
      ((NewCursorPaging none field opts).Build tx).2 := by
  obtain ⟨h1, h2, -, h4, h5, h6⟩ := NewCursorPaging_fields field opts hopts (some cursor)
  obtain ⟨g1, g2, -, -, -, -⟩ := NewCursorPaging_fields field opts hopts none
  have hb : (NewCursorPaging (some cursor) field opts).Build tx =
      (NewCursorPaging (some cursor) field opts).finish tx := by
    simp only [cursorPaging.Build, h1, hrej]
    split <;> rfl
  have hn : (NewCursorPaging none field opts).Build tx =
      (NewCursorPaging none field opts).finish tx := by
    simp only [cursorPaging.Build, g1]
  rw [hb, hn, ← wrapInt_succ hl]
  refine ⟨rfl, h4, rfl, ?_, ?_⟩
  · simp [cursorPaging.finish, h2]
  · simp [cursorPaging.finish, h2, g2, h5, h6]

/-- C14, amended, at the cursor "abc", which is not base64: the chain is the
order "id asc" and the limit 11, and `pointsNext` stays false. -/
theorem C14_rejected_token_gives_first_page_witness :
    decodeCursor "abc" = Except.error DecodeError.corruptInput ∧
    isInt64 (samplePager (some "abc")).limit ∧
    ((samplePager (some "abc")).Build []).2 =
      [Op.Order (Value.str "id asc"), Op.Limit 11] ∧
    ((samplePager (some "abc")).Build []).1.pointsNext = false := by
  have h := C14_rejected_token_gives_first_page "abc" "id"
    [WithCursorSortOrder "asc", WithCursorLimit 10] [] DecodeError.corruptInput
    (by
      intro o ho
      simp only [List.mem_cons, List.mem_singleton, List.not_mem_nil, or_false] at ho
      rcases ho with rfl | rfl
      · exact Or.inl ⟨"asc", rfl⟩
      · exact Or.inr ⟨10, rfl⟩)
    (by decide) rfl
  exact ⟨rfl, by decide, h.2.2.2.1.trans rfl, h.2.1⟩

/-- C19, the code at the failing input: for the empty string as raw token
`NewCursorPaging` sets `isFirstPage` to false (it is true for the nil token
only), although `Paging.CursorFirstPage` answers true for that token and
`Build` emits for it the chain of the first page. -/
theorem C19_empty_token_is_not_first_page :
    (NewCursorPaging (some "") "id" [WithCursorSortOrder "asc", WithCursorLimit 10]).isFirstPage =
      false ∧
    (NewCursorPaging none "id" [WithCursorSortOrder "asc", WithCursorLimit 10]).isFirstPage =
      true ∧
    Paging.CursorFirstPage { Cursor := some "" } = true ∧
    ((NewCursorPaging (some "") "id" [WithCursorSortOrder "asc", WithCursorLimit 10]).Build []).2 =
      ((NewCursorPaging none "id" [WithCursorSortOrder "asc", WithCursorLimit 10]).Build []).2 ∧
    ∀ (cursor : Option String) (field : String),
      (NewCursorPaging cursor field []).isFirstPage = cursor.isNone :=
  ⟨rfl, rfl, rfl, rfl, fun _ _ => rfl⟩

/-! ## Negation -/

theorem not_blank_NOT (q : String) : isEmptyString ("NOT(" ++ q ++ ")") = false := by
  have e : ("NOT(" ++ q ++ ")").toList = 'N' :: ("OT(" ++ q ++ ")").toList := by
    simp [String.toList, String.data_append]
  rw [isEmptyString, e]
  simp only [List.all_cons]
  have : isSpace 'N' = false := by decide
  rw [this]; rfl

/-- C20: for every allocated predicate `p`, `Not(p)` returns a new predicate
whose fragment is "NOT(" followed by the fragment of `p` and ")", whose
parameters are those of `p` and whose combinator is empty, and leaves `p` as
it is; `And(Not(p), q)` and `Or(Not(p), q)` then begin with that fragment as
it stands, with no parentheses added around it, followed by what the call
appends for `q` (nothing when the fragment of `q` is blank), and their
parameters are those of `p` followed by those of `q`. -/
theorem C20_not_is_appended_unwrapped (h : Heap) (a b : Nat) (p q : Cond)
    (hp : h[a]? = some p) (hq : h[b]? = some q) :
    ∃ np, Not h a = some (h ++ [np], h.length) ∧
      np.query = "NOT(" ++ p.query ++ ")" ∧ np.params = p.params ∧ np.operator = "" ∧
      fragmentOf (And (h ++ [np]) [h.length, b]) = some ("NOT(" ++ p.query ++ ")" ++
        (if isEmptyString q.query then "" else " AND " ++ childFragment " AND " q)) ∧
      fragmentOf (Or (h ++ [np]) [h.length, b]) = some ("NOT(" ++ p.query ++ ")" ++
        (if isEmptyString q.query then "" else " OR " ++ childFragment " OR " q)) ∧
      paramsOf (And (h ++ [np]) [h.length, b]) =
        some (p.params ++ (if isEmptyString q.query then [] else q.params)) ∧
      paramsOf (Or (h ++ [np]) [h.length, b]) =
        some (p.params ++ (if isEmptyString q.query then [] else q.params)) := by
  have hb : b < h.length := by
    rcases Nat.lt_or_ge b h.length with h1 | h1
    · exact h1
    · rw [List.getElem?_eq_none h1] at hq; cases hq
  obtain ⟨np, hnp⟩ : ∃ np : Cond,
      np = Cond.not { query := p.query, params := p.params, operator := p.operator } := ⟨_, rfl⟩
  have hnq : np.query = "NOT(" ++ p.query ++ ")" := by rw [hnp]; rfl
  have hnpar : np.params = p.params := by rw [hnp]; rfl
  have hnop : np.operator = "" := by rw [hnp]; rfl
  have hnb : isEmptyString np.query = false := by rw [hnq]; exact not_blank_NOT p.query
  have hch : children (h ++ [np]) [h.length, b] = [np, q] := by
    simp [children, List.getElem?_append_left hb, hq]
  have hfr : ∀ op : String, childFragment op np = np.query := by
    intro op
    have h0 : isEmptyString "" = true := by decide
    simp [childFragment, needsWrap, hnop, h0]
  have hco : contributing [np, q] = np :: (if isEmptyString q.query then [] else [q]) := by
    by_cases hqb : isEmptyString q.query = true
    · simp [contributing, List.filter_cons, hnb, hqb]
    · simp [contributing, List.filter_cons, hnb, hqb]
  obtain ⟨⟨h1, x1, e1, hl1, -, hq1, hp1, -⟩, ⟨h2, x2, e2, hl2, -, hq2, hp2, -⟩⟩ :=
    And_Or_distinct (h ++ [np]) [h.length, b]
      (by
        intro i hi
        simp only [List.mem_cons, List.mem_singleton, List.not_mem_nil, or_false] at hi
        rcases hi with rfl | rfl
        · simp
        · simp; omega)
      (by simp; omega)
  have key : ∀ op : String,
      String.intercalate op
        ((contributing (children (h ++ [np]) [h.length, b])).map (childFragment op)) =
      "NOT(" ++ p.query ++ ")" ++
        (if isEmptyString q.query then "" else op ++ childFragment op q) := by
    intro op
    rw [hch, hco]
    by_cases hqb : isEmptyString q.query = true
    · simp [hqb, String.intercalate, String.intercalate.go, hfr, hnq]
    · simp [hqb, String.intercalate, String.intercalate.go, hfr, hnq, String.append_assoc]
  have keyp : ((contributing (children (h ++ [np]) [h.length, b])).map Cond.params).flatten =
      p.params ++ (if isEmptyString q.query then [] else q.params) := by
    rw [hch, hco]
    by_cases hqb : isEmptyString q.query = true
    · simp [hqb, hnpar]
    · simp [hqb, hnpar]
  refine ⟨np, by simp [Not, hp, Heap.alloc, hnp], hnq, hnpar, hnop, ?_, ?_, ?_, ?_⟩
  · rw [e1, ← key " AND ", ← hq1]; simp [fragmentOf, ← hl1]
  · rw [e2, ← key " OR ", ← hq2]; simp [fragmentOf, ← hl2]
  · rw [e1, ← keyp, ← hp1]; simp [paramsOf, ← hl1]
  · rw [e2, ← keyp, ← hp2]; simp [paramsOf, ← hl2]

/-- C20 at `p = a` and `q = b`, two leaves: `Not(a)` is "NOT(a)",
`And(Not(a), b)` is "NOT(a) AND b" and `Or(Not(a), b)` is "NOT(a) OR b". -/
theorem C20_not_is_appended_unwrapped_witness :
    ∃ np, Not leafHeap 0 = some (leafHeap ++ [np], 3) ∧ np.query = "NOT(a)" ∧
      fragmentOf (And (leafHeap ++ [np]) [3, 1]) = some "NOT(a) AND b" ∧
      fragmentOf (Or (leafHeap ++ [np]) [3, 1]) = some "NOT(a) OR b" := by
  obtain ⟨np, h1, h2, -, -, h5, h6, -, -⟩ :=
    C20_not_is_appended_unwrapped leafHeap 0 1 (Raw "a" [Value.num 1]) (Raw "b" [Value.num 2])
      rfl rfl
  exact ⟨np, h1, h2.trans (by decide), h5.trans (by decide), h6.trans (by decide)⟩

/-! ## Offset paging -/

/-- C17 as stated fails when the product does not fit a Go `int`: for the
page 4611686018427387905 (`2 ^ 62 + 1`) and the limit 4, both Go `int`s,
`(page - 1) * limit` is `2 ^ 64` and `Build` emits the offset 0. -/
theorem C17_counterexample :
    (NewOffsetPaging 4611686018427387905 95 ["id"] [WithOffsetLimit 4]).Build [] =
      [Op.Order (Value.str "id "), Op.Limit 4, Op.Offset 0] ∧
    isInt64 4611686018427387905 ∧ isInt64 4 ∧
    ((4611686018427387905 : Int) - 1) * 4 = 18446744073709551616 :=
  ⟨rfl, by decide, by decide, by decide⟩

/-- C17, amended: `offsetPaging.Build` appends to the chain the order, the
limit `limit` and the offset `(page - 1) * limit` reduced to 64 bits in two's
complement, which is `(page - 1) * limit` itself whenever that product is a Go
`int`, with no correction of a page below 1 (page 0 gives the offset
`- limit`); `Pagination` reports `page` as the current page;
`NewOffsetPaging` stores the page it is given and `WithOffsetLimit` the
limit. With the limit 10, page 1 gives the offset 0, page 10 the offset 90
and page 0 the offset -10. -/
theorem C17_offset_is_page_minus_one_times_limit (c : offsetPaging) (tx : Tx)
    (page limit totalRecords : Int) (orderFields : List String) :
    c.Build tx = tx ++
      [Op.Order (Value.str (String.intercalate ","
          (c.orderFields.map fun f => f ++ " " ++ c.sortOrder))),
        Op.Limit c.limit, Op.Offset (wrapInt ((c.page - 1) * c.limit))] ∧
    (isInt64 ((c.page - 1) * c.limit) →
      c.Build tx = tx ++
        [Op.Order (Value.str (String.intercalate ","
            (c.orderFields.map fun f => f ++ " " ++ c.sortOrder))),
          Op.Limit c.limit, Op.Offset ((c.page - 1) * c.limit)]) ∧
    c.Pagination.CurrentPage = c.page ∧
    (NewOffsetPaging page totalRecords orderFields [WithOffsetLimit limit]).page = page ∧
    (NewOffsetPaging page totalRecords orderFields [WithOffsetLimit limit]).limit = limit ∧
    (isInt64 ((page - 1) * limit) →
      ((NewOffsetPaging page totalRecords orderFields [WithOffsetLimit limit]).Build tx).drop
          (tx.length + 1) = [Op.Limit limit, Op.Offset ((page - 1) * limit)]) ∧
    (NewOffsetPaging page totalRecords orderFields [WithOffsetLimit limit]).Pagination.CurrentPage =
      page ∧
    (isInt64 (-limit) →
      (NewOffsetPaging 0 totalRecords orderFields [WithOffsetLimit limit]).Build [] =
        [Op.Order (Value.str (String.intercalate "," (orderFields.map fun f => f ++ " " ++ ""))),
          Op.Limit limit, Op.Offset (-limit)]) ∧
    (NewOffsetPaging 1 95 ["id"] [WithOffsetLimit 10]).Build [] =
      [Op.Order (Value.str "id "), Op.Limit 10, Op.Offset 0] ∧
    (NewOffsetPaging 10 95 ["id"] [WithOffsetLimit 10, WithOffsetSortOrder "desc"]).Build [] =
      [Op.Order (Value.str "id desc"), Op.Limit 10, Op.Offset 90] ∧
    (NewOffsetPaging 0 95 ["id"] [WithOffsetLimit 10, WithOffsetSortOrder "desc"]).Build [] =
      [Op.Order (Value.str "id desc"), Op.Limit 10, Op.Offset (-10)] := by
  have hb : ∀ c : offsetPaging, c.Build tx = tx ++
      [Op.Order (Value.str (String.intercalate ","
          (c.orderFields.map fun f => f ++ " " ++ c.sortOrder))),
        Op.Limit c.limit, Op.Offset (wrapInt ((c.page - 1) * c.limit))] := by
    intro c
    rw [← wrapInt_sub_one_mul]
    rfl
  refine ⟨hb c, ?_, rfl, rfl, rfl, ?_, rfl, ?_, rfl, rfl, rfl⟩
  · intro h
    rw [hb c, wrapInt_of_isInt64 h]
  · intro h
    have e1 : (NewOffsetPaging page totalRecords orderFields [WithOffsetLimit limit]).page =
        page := rfl
    have e2 : (NewOffsetPaging page totalRecords orderFields [WithOffsetLimit limit]).limit =
        limit := rfl
    rw [hb, e1, e2, wrapInt_of_isInt64 h]
    simp
  · intro h
    have e : ((0 : Int) - 1) * limit = -limit := by ring
    rw [← e] at h
    simp only [NewOffsetPaging, WithOffsetLimit, List.foldl, offsetPaging.Build,
      List.nil_append]
    rw [wrapInt_sub_one_mul, wrapInt_of_isInt64 h, e]

/-- C17, amended, at page 10 with the limit 10: the offset is 90, and 90 is a
Go `int`. -/
theorem C17_offset_is_page_minus_one_times_limit_witness :
    isInt64 (((10 : Int) - 1) * 10) ∧
    ((NewOffsetPaging 10 95 ["id"] [WithOffsetLimit 10]).Build []).drop 1 =
      [Op.Limit 10, Op.Offset 90] :=
  ⟨by decide,
    (C17_offset_is_page_minus_one_times_limit
      (NewOffsetPaging 10 95 ["id"] [WithOffsetLimit 10]) [] 10 10 95 ["id"]).2.2.2.2.2.1
      (by decide)⟩

/-! ## Tokens that are rejected -/

theorem inB64Alphabet_iff (c : Char) : inB64Alphabet c = (b64Index c).isSome := by
  have hup : ∀ n, n < 91 → 65 ≤ n → inB64Alphabet (Char.ofNat n) = true := by decide
  have hlo : ∀ n, n < 123 → 97 ≤ n → inB64Alphabet (Char.ofNat n) = true := by decide
  have hdg : ∀ n, n < 58 → 48 ≤ n → inB64Alphabet (Char.ofNat n) = true := by decide
  have hc : Char.ofNat c.toNat = c := Char.ofNat_toNat c
  unfold b64Index
  simp only []
  split
  · rename_i h; rw [← hc, hup _ (by omega) h.1]; rfl
  · split
    · rename_i h; rw [← hc, hlo _ (by omega) h.1]; rfl
    · split
      · rename_i h; rw [← hc, hdg _ (by omega) h.1]; rfl
      · split
        · rename_i h; rw [h]; rfl
        · split
          · rename_i h; rw [h]; rfl
          · rename_i h1 h2 h3 h4 h5
            simp only [Option.isSome_none]
            cases hm : inB64Alphabet c with
            | false => rfl
            | true =>
              exfalso
              have hmem : c ∈ b64Alphabet := by
                simpa [inB64Alphabet] using hm
              have h6 : c.toNat ∈ b64Alphabet.map Char.toNat := List.mem_map_of_mem _ hmem
              have e : b64Alphabet.map Char.toNat =
                  [65, 66, 67, 68, 69, 70, 71, 72, 73, 74, 75, 76, 77, 78, 79, 80, 81, 82, 83,
                    84, 85, 86, 87, 88, 89, 90, 97, 98, 99, 100, 101, 102, 103, 104, 105, 106,
                    107, 108, 109, 110, 111, 112, 113, 114, 115, 116, 117, 118, 119, 120, 121,
                    122, 48, 49, 50, 51, 52, 53, 54, 55, 56, 57, 43, 47] := by decide
              rw [e] at h6
              have p43 : c.toNat ≠ 43 := fun h => h4 (char_eq_of_toNat_eq h)
              have p47 : c.toNat ≠ 47 := fun h => h5 (char_eq_of_toNat_eq h)
              simp only [List.mem_cons, List.mem_singleton, List.not_mem_nil, or_false] at h6
              omega

theorem b64Index_pad : b64Index '=' = none := by decide

theorem b64DecodeQuanta_isSome :
    ∀ (n : Nat) (t : List Char), t.length ≤ n →
      (b64DecodeQuanta t).isSome = isStdBase64Groups t := by
  intro n
  induction n with
  | zero =>
    intro t ht
    cases t with
    | nil => rfl
    | cons _ _ => simp at ht
  | succ n ih =>
    intro t ht
    match t, ht with
    | [], _ => rfl
    | [_], _ => rfl
    | [_, _], _ => rfl
    | [_, _, _], _ => rfl
    | [a, b, c, d], _ =>
      simp only [b64DecodeQuanta, isStdBase64Groups, inB64Alphabet_iff]
      cases h0 : b64Index a <;> cases h1 : b64Index b <;> simp only [] <;> try rfl
      by_cases hc : c = '='
      · subst hc
        by_cases hd : d = '='
        · subst hd; simp [b64Index_pad]
        · simp [b64Index_pad, hd]
      · by_cases hd : d = '='
        · subst hd
          cases h2 : b64Index c <;> simp [b64Index_pad, hc]
        · cases h2 : b64Index c <;> cases h3 : b64Index d <;> simp [hc, hd]
    | a :: b :: c :: d :: e :: rest, ht =>
      have hr := ih (e :: rest) (by simp at ht ⊢; omega)
      simp only [b64DecodeQuanta, isStdBase64Groups, inB64Alphabet_iff, ← hr]
      cases h0 : b64Index a <;> cases h1 : b64Index b <;> cases h2 : b64Index c <;>
        cases h3 : b64Index d <;> cases h4 : b64DecodeQuanta (e :: rest) <;> simp

/-- The base64 decoder accepts exactly the texts of standard base64. -/
theorem b64Decode_isSome (s : List Char) : (b64Decode s).isSome = isStdBase64 s :=
  b64DecodeQuanta_isSome _ _ (Nat.le_refl _)

/-! ## The reader of JSON accepts JSON texts only -/

theorem isJWs_nil : IsJWs [] := fun _ h => absurd h (List.not_mem_nil _)

theorem isJWs_append {a b : List Char} (ha : IsJWs a) (hb : IsJWs b) : IsJWs (a ++ b) := by
  intro c hc
  rcases List.mem_append.mp hc with h | h
  · exact ha c h
  · exact hb c h

/-- The white space the reader skips. -/
theorem skipWs_split (cs : List Char) : ∃ w, cs = w ++ skipWs cs ∧ IsJWs w := by
  refine ⟨cs.takeWhile isJsonSpace, (List.takeWhile_append_dropWhile _ _).symm, ?_⟩
  intro c hc
  have h := List.mem_takeWhile_imp hc
  simp only [isJsonSpace, Bool.or_eq_true, decide_eq_true_eq] at h
  tauto

theorem isJDigit_of_isDigit {c : Char} (h : isDigit c = true) : IsJDigit c := by
  simpa [isDigit, IsJDigit] using h

theorem isJDigit_takeWhile (r : List Char) : ∀ c ∈ r.takeWhile isDigit, IsJDigit c :=
  fun _ hc => isJDigit_of_isDigit (List.mem_takeWhile_imp hc)

theorem digits_split (r : List Char) : r = r.takeWhile isDigit ++ r.dropWhile isDigit :=
  (List.takeWhile_append_dropWhile _ _).symm

theorem parseFraction_sound (cs fp r2 : List Char) (h : parseFraction cs = some (fp, r2)) :
    ∃ t, cs = t ++ r2 ∧ (t = [] ∨ IsJFrac t) := by
  unfold parseFraction at h
  cases cs with
  | nil =>
    simp only [Option.some.injEq, Prod.mk.injEq] at h
    exact ⟨[], by rw [← h.2]; rfl, Or.inl rfl⟩
  | cons c r =>
    simp only [] at h
    by_cases hc : c = '.'
    · rw [if_pos hc] at h
      by_cases he : (r.takeWhile isDigit).isEmpty = true
      · rw [if_pos he] at h; cases h
      · rw [if_neg he] at h
        simp only [Option.some.injEq, Prod.mk.injEq] at h
        obtain ⟨d, ds, hd⟩ : ∃ d ds, r.takeWhile isDigit = d :: ds := by
          cases ht : r.takeWhile isDigit with
          | nil => rw [ht] at he; simp at he
          | cons d ds => exact ⟨d, ds, rfl⟩
        refine ⟨'.' :: d :: ds, ?_, Or.inr ⟨d, ds, rfl, ?_⟩⟩
        · rw [hc, ← h.2, ← hd]
          simp [List.takeWhile_append_dropWhile]
        · rw [← hd]; exact isJDigit_takeWhile r
    · rw [if_neg hc] at h
      simp only [Option.some.injEq, Prod.mk.injEq] at h
      exact ⟨[], by rw [← h.2]; rfl, Or.inl rfl⟩

theorem parseExponentDigits_sound (neg : Bool) (cs : List Char) (ex : Int) (r3 : List Char)
    (h : parseExponentDigits neg cs = some (ex, r3)) :
    ∃ d ds, cs = d :: ds ++ r3 ∧ ∀ c ∈ d :: ds, IsJDigit c := by
  unfold parseExponentDigits at h
  by_cases he : (cs.takeWhile isDigit).isEmpty = true
  · rw [if_pos he] at h; cases h
  · rw [if_neg he] at h
    simp only [Option.some.injEq, Prod.mk.injEq] at h
    obtain ⟨d, ds, hd⟩ : ∃ d ds, cs.takeWhile isDigit = d :: ds := by
      cases ht : cs.takeWhile isDigit with
      | nil => rw [ht] at he; simp at he
      | cons d ds => exact ⟨d, ds, rfl⟩
    refine ⟨d, ds, ?_, ?_⟩
    · rw [← h.2, ← hd]; simp [List.takeWhile_append_dropWhile]
    · rw [← hd]; exact isJDigit_takeWhile cs

theorem parseExponent_sound (cs : List Char) (ex : Int) (r3 : List Char)
    (h : parseExponent cs = some (ex, r3)) :
    ∃ t, cs = t ++ r3 ∧ (t = [] ∨ IsJExp t) := by
  unfold parseExponent at h
  cases cs with
  | nil =>
    simp only [Option.some.injEq, Prod.mk.injEq] at h
    exact ⟨[], by rw [← h.2]; rfl, Or.inl rfl⟩
  | cons c r =>
    simp only [] at h
    by_cases hc : c = 'e' ∨ c = 'E'
    · rw [if_pos hc] at h
      cases r with
      | nil => cases h
      | cons s r' =>
        simp only [] at h
        by_cases hp : s = '+'
        · rw [if_pos hp] at h
          obtain ⟨d, ds, e1, e2⟩ := parseExponentDigits_sound _ _ _ _ h
          exact ⟨c :: (['+'] ++ d :: ds), by rw [hp, e1]; simp,
            Or.inr ⟨c, ['+'], d, ds, rfl, hc, Or.inr (Or.inr rfl), e2⟩⟩
        · rw [if_neg hp] at h
          by_cases hm : s = '-'
          · rw [if_pos hm] at h
            obtain ⟨d, ds, e1, e2⟩ := parseExponentDigits_sound _ _ _ _ h
            exact ⟨c :: (['-'] ++ d :: ds), by rw [hm, e1]; simp,
              Or.inr ⟨c, ['-'], d, ds, rfl, hc, Or.inr (Or.inl rfl), e2⟩⟩
          · rw [if_neg hm] at h
            obtain ⟨d, ds, e1, e2⟩ := parseExponentDigits_sound _ _ _ _ h
            exact ⟨c :: ([] ++ d :: ds), by rw [e1]; simp,
              Or.inr ⟨c, [], d, ds, rfl, hc, Or.inl rfl, e2⟩⟩
    · rw [if_neg hc] at h
      simp only [Option.some.injEq, Prod.mk.injEq] at h
      exact ⟨[], by rw [← h.2]; rfl, Or.inl rfl⟩

theorem parseUnsigned_sound (neg : Bool) (d : Char) (r : List Char) (v : Value)
    (rest : List Char) (h : parseUnsigned neg d r = some (v, rest)) :
    ∃ int frac exp, d :: r = int ++ (frac ++ exp) ++ rest ∧ IsJInt int ∧
      (frac = [] ∨ IsJFrac frac) ∧ (exp = [] ∨ IsJExp exp) := by
  by_cases hd : isDigit d = true
  · rw [parseUnsigned_unfold neg d r hd] at h
    cases hf : parseFraction (if d = '0' then r else r.dropWhile isDigit) with
    | none => rw [hf] at h; cases h
    | some p1 =>
      obtain ⟨fp, r2⟩ := p1
      rw [hf] at h
      simp only [] at h
      cases hx : parseExponent r2 with
      | none => rw [hx] at h; cases h
      | some p2 =>
        obtain ⟨ex, r3⟩ := p2
        rw [hx] at h
        simp only [] at h
        have hr : r3 = rest := by
          cases hn : numberValue neg
              (digitsValue ((if d = '0' then [d] else d :: r.takeWhile isDigit) ++ fp))
              (ex - fp.length) with
          | none => rw [hn] at h; cases h
          | some v' =>
            rw [hn] at h
            simp only [Option.some.injEq, Prod.mk.injEq] at h
            exact h.2
        subst hr
        obtain ⟨tf, ef, hfr⟩ := parseFraction_sound _ _ _ hf
        obtain ⟨tx, ee, hex⟩ := parseExponent_sound _ _ _ hx
        by_cases h0 : d = '0'
        · rw [if_pos h0] at ef
          refine ⟨['0'], tf, tx, ?_, Or.inl rfl, hfr, hex⟩
          rw [h0, ef, ee]; simp
        · rw [if_neg h0] at ef
          refine ⟨d :: r.takeWhile isDigit, tf, tx, ?_,
            Or.inr ⟨d, _, rfl, isJDigit_of_isDigit hd, h0, isJDigit_takeWhile r⟩, hfr, hex⟩
          have := digits_split r
          rw [ef, ee] at this
          simp only [List.cons_append, List.append_assoc]
          exact congrArg (List.cons d) this
  · have : parseUnsigned neg d r = none := by
      simp only [parseUnsigned]
      rw [if_pos (by simpa using hd)]
    rw [this] at h; cases h

theorem parseNumber_sound (c : Char) (r : List Char) (v : Value) (rest : List Char)
    (h : parseNumber c r = some (v, rest)) :
    ∃ s, c :: r = s ++ rest ∧ IsJNumber s := by
  unfold parseNumber at h
  by_cases hc : c = '-'
  · rw [if_pos hc] at h
    cases r with
    | nil => cases h
    | cons d r' =>
      simp only [] at h
      obtain ⟨i, f, x, e, h1, h2, h3⟩ := parseUnsigned_sound _ _ _ _ _ h
      exact ⟨['-'] ++ (i ++ (f ++ x)), by rw [hc, e]; simp,
        ⟨['-'], i, f, x, rfl, Or.inr rfl, h1, h2, h3⟩⟩
  · rw [if_neg hc] at h
    obtain ⟨i, f, x, e, h1, h2, h3⟩ := parseUnsigned_sound _ _ _ _ _ h
    exact ⟨[] ++ (i ++ (f ++ x)), by rw [e]; simp, ⟨[], i, f, x, rfl, Or.inl rfl, h1, h2, h3⟩⟩

theorem isJHex_of_hexValue {c : Char} {n : Nat} (h : hexValue c = some n) : IsJHex c := by
  unfold hexValue at h
  simp only [] at h
  unfold IsJHex IsJDigit
  split at h
  · rename_i h1; exact Or.inl h1
  · split at h
    · rename_i h1; exact Or.inr (Or.inl h1)
    · split at h
      · rename_i h1; exact Or.inr (Or.inr h1)
      · cases h

theorem simpleEscape_sound {e c : Char} (h : simpleEscape e = some c) :
    e = '"' ∨ e = '\\' ∨ e = '/' ∨ e = 'b' ∨ e = 'f' ∨ e = 'n' ∨ e = 'r' ∨ e = 't' := by
  unfold simpleEscape at h
  by_contra hcon
  simp only [not_or] at hcon
  obtain ⟨h1, h2, h3, h4, h5, h6, h7, h8⟩ := hcon
  rw [if_neg h1, if_neg h2, if_neg h3, if_neg h4, if_neg h5, if_neg h6, if_neg h7,
    if_neg h8] at h
  cases h

/-- The reader of string literals accepts the characters of a string of the
grammar only. -/
theorem parseUnits_sound : ∀ (n : Nat) (cs : List Char), cs.length ≤ n →
    ∀ (us : List StrUnit) (rest : List Char), parseUnits cs = some (us, rest) →
      ∃ body, cs = body ++ '"' :: rest ∧ IsJChars body := by
  intro n
  induction n with
  | zero =>
    intro cs hl us rest h
    cases cs with
    | nil => rw [parseUnits.eq_def] at h; cases h
    | cons _ _ => simp at hl
  | succ n ih =>
    intro cs hl us rest h
    rw [parseUnits.eq_def] at h
    cases cs with
    | nil => cases h
    | cons c cs =>
      simp only [] at h
      simp only [List.length_cons] at hl
      by_cases hq : c = '"'
      · rw [if_pos hq] at h
        simp only [Option.some.injEq, Prod.mk.injEq] at h
        exact ⟨[], by rw [hq, h.2]; rfl, IsJChars.nil⟩
      · rw [if_neg hq] at h
        by_cases hb : c = '\\'
        · rw [if_pos hb] at h
          cases cs with
          | nil => cases h
          | cons e cs1 =>
            simp only [] at h
            simp only [List.length_cons] at hl
            by_cases hu : e = 'u'
            · rw [if_pos hu] at h
              match cs1, h, hl with
              | [], h, _ => cases h
              | [_], h, _ => cases h
              | [_, _], h, _ => cases h
              | [_, _, _], h, _ => cases h
              | h1 :: h2 :: h3 :: h4 :: cs2, h, hl =>
                simp only [] at h
                cases e1 : hexValue h1 with
                | none => rw [e1] at h; cases h
                | some a =>
                  cases e2 : hexValue h2 with
                  | none => rw [e1, e2] at h; cases h
                  | some b =>
                    cases e3 : hexValue h3 with
                    | none => rw [e1, e2, e3] at h; cases h
                    | some c3 =>
                      cases e4 : hexValue h4 with
                      | none => rw [e1, e2, e3, e4] at h; cases h
                      | some d =>
                        cases e5 : parseUnits cs2 with
                        | none => rw [e1, e2, e3, e4, e5] at h; cases h
                        | some p =>
                          obtain ⟨us', rest'⟩ := p
                          rw [e1, e2, e3, e4, e5] at h
                          simp only [Option.some.injEq, Prod.mk.injEq] at h
                          obtain ⟨body, eb, hbody⟩ := ih cs2
                            (by simp only [List.length_cons] at hl; omega) us' rest' e5
                          refine ⟨'\\' :: 'u' :: h1 :: h2 :: h3 :: h4 :: body, ?_,
                            IsJChars.unicode h1 h2 h3 h4 body (isJHex_of_hexValue e1)
                              (isJHex_of_hexValue e2) (isJHex_of_hexValue e3)
                              (isJHex_of_hexValue e4) hbody⟩
                          rw [hb, hu, eb, ← h.2]; rfl
            · rw [if_neg hu] at h
              cases e1 : simpleEscape e with
              | none => rw [e1] at h; cases h
              | some ch =>
                cases e5 : parseUnits cs1 with
                | none => rw [e1, e5] at h; cases h
                | some p =>
                  obtain ⟨us', rest'⟩ := p
                  rw [e1, e5] at h
                  simp only [Option.some.injEq, Prod.mk.injEq] at h
                  obtain ⟨body, eb, hbody⟩ := ih cs1 (by omega) us' rest' e5
                  refine ⟨'\\' :: e :: body, ?_,
                    IsJChars.escape e body (simpleEscape_sound e1) hbody⟩
                  rw [hb, eb, ← h.2]; rfl
        · rw [if_neg hb] at h
          by_cases hctl : c.toNat < 0x20
          · rw [if_pos hctl] at h; cases h
          · rw [if_neg hctl] at h
            cases e5 : parseUnits cs with
            | none => rw [e5] at h; cases h
            | some p =>
              obtain ⟨us', rest'⟩ := p
              rw [e5] at h
              simp only [Option.some.injEq, Prod.mk.injEq] at h
              obtain ⟨body, eb, hbody⟩ := ih cs (by omega) us' rest' e5
              refine ⟨c :: body, ?_, IsJChars.unescaped c body (by omega) hq hb hbody⟩
              rw [eb, ← h.2]; rfl

theorem parseString_sound (cs : List Char) (s : String) (rest : List Char)
    (h : parseString cs = some (s, rest)) :
    ∃ k, '"' :: cs = k ++ rest ∧ IsJString k := by
  unfold parseString at h
  cases e : parseUnits cs with
  | none => rw [e] at h; cases h
  | some p =>
    obtain ⟨us, rest'⟩ := p
    rw [e] at h
    simp only [Option.some.injEq, Prod.mk.injEq] at h
    obtain ⟨body, eb, hbody⟩ := parseUnits_sound cs.length cs (Nat.le_refl _) us rest' e
    exact ⟨'"' :: (body ++ ['"']), by rw [eb, ← h.2]; simp, ⟨body, rfl, hbody⟩⟩

theorem expectWord_sound (w cs rest : List Char) (h : expectWord w cs = some rest) :
    cs = w ++ rest := by
  unfold expectWord at h
  by_cases hp : w.isPrefixOf cs = true
  · rw [if_pos hp] at h
    obtain ⟨t, ht⟩ := List.isPrefixOf_iff_prefix.mp hp
    rw [← Option.some.inj h, ← ht]
    simp
  · rw [if_neg hp] at h; cases h

theorem isJMembers_ws {w ms : List Char} (hw : IsJWs w) (h : IsJMembers ms) :
    IsJMembers (w ++ ms) := by
  cases h with
  | one w1 k w2 w3 v w4 a1 a2 a3 a4 a5 a6 =>
    rw [← List.append_assoc]
    exact IsJMembers.one (w ++ w1) k w2 w3 v w4 (isJWs_append hw a1) a2 a3 a4 a5 a6
  | more w1 k w2 w3 v w4 ms' a1 a2 a3 a4 a5 a6 a7 =>
    rw [← List.append_assoc]
    exact IsJMembers.more (w ++ w1) k w2 w3 v w4 ms' (isJWs_append hw a1) a2 a3 a4 a5 a6 a7

theorem isJElements_ws {w es : List Char} (hw : IsJWs w) (h : IsJElements es) :
    IsJElements (w ++ es) := by
  cases h with
  | one w1 v w2 a1 a2 a3 =>
    rw [← List.append_assoc]
    exact IsJElements.one (w ++ w1) v w2 (isJWs_append hw a1) a2 a3
  | more w1 v w2 es' a1 a2 a3 a4 =>
    rw [← List.append_assoc]
    exact IsJElements.more (w ++ w1) v w2 es' (isJWs_append hw a1) a2 a3 a4

theorem parseValue_sound_step (fuel : Nat) (ih : ReadersSound fuel) (depth : Nat)
    (cs : List Char) (v : Value) (rest : List Char)
    (h : parseValue (fuel + 1) depth cs = some (v, rest)) :
    ∃ s, cs = s ++ rest ∧ IsJValue s := by
  obtain ⟨-, ihm, ihe⟩ := ih
  rw [parseValue.eq_def] at h
  cases cs with
  | nil => cases h
  | cons c cs =>
    simp only [] at h
    by_cases h1 : c = '"'
    · rw [if_pos h1] at h
      cases e : parseString cs with
      | none => rw [e] at h; cases h
      | some p =>
        obtain ⟨s, rest'⟩ := p
        rw [e] at h
        simp only [Option.some.injEq, Prod.mk.injEq] at h
        obtain ⟨k, ek, hk⟩ := parseString_sound cs s rest' e
        exact ⟨k, by rw [h1, ek, h.2], IsJValue.string k hk⟩
    · rw [if_neg h1] at h
      by_cases h2 : c = '{'
      · rw [if_pos h2] at h
        by_cases hdep : maxNestingDepth ≤ depth
        · rw [if_pos hdep] at h; cases h
        · rw [if_neg hdep] at h
          obtain ⟨w, ew, hw⟩ := skipWs_split cs
          generalize skipWs cs = cs' at h ew
          by_cases hclose : ∃ r, cs' = '}' :: r
          · obtain ⟨r, rfl⟩ := hclose
            simp only [Option.some.injEq, Prod.mk.injEq] at h
            exact ⟨'{' :: (w ++ ['}']), by rw [h2, ew, ← h.2]; simp, IsJValue.emptyObject w hw⟩
          · have h' : parseMembers fuel (depth + 1) cs' [] = some (v, rest) := by
              cases cs' with
              | nil => exact h
              | cons x xs =>
                by_cases hx : x = '}'
                · exact absurd ⟨xs, by rw [hx]⟩ hclose
                · simpa [hx] using h
            obtain ⟨ms, em, hm⟩ := ihm _ _ _ _ _ h'
            exact ⟨'{' :: ((w ++ ms) ++ ['}']), by rw [h2, ew, em]; simp,
              IsJValue.object _ (isJMembers_ws hw hm)⟩
      · rw [if_neg h2] at h
        by_cases h3 : c = '['
        · rw [if_pos h3] at h
          by_cases hdep : maxNestingDepth ≤ depth
          · rw [if_pos hdep] at h; cases h
          · rw [if_neg hdep] at h
            obtain ⟨w, ew, hw⟩ := skipWs_split cs
            generalize skipWs cs = cs' at h ew
            by_cases hclose : ∃ r, cs' = ']' :: r
            · obtain ⟨r, rfl⟩ := hclose
              simp only [Option.some.injEq, Prod.mk.injEq] at h
              exact ⟨'[' :: (w ++ [']']), by rw [h3, ew, ← h.2]; simp,
                IsJValue.emptyArray w hw⟩
            · have h' : parseElems fuel (depth + 1) cs' [] = some (v, rest) := by
                cases cs' with
                | nil => exact h
                | cons x xs =>
                  by_cases hx : x = ']'
                  · exact absurd ⟨xs, by rw [hx]⟩ hclose
                  · simpa [hx] using h
              obtain ⟨es, em, hm⟩ := ihe _ _ _ _ _ h'
              exact ⟨'[' :: ((w ++ es) ++ [']']), by rw [h3, ew, em]; simp,
                IsJValue.array _ (isJElements_ws hw hm)⟩
        · rw [if_neg h3] at h
          by_cases h4 : c = 't'
          · rw [if_pos h4] at h
            cases e : expectWord ['r', 'u', 'e'] cs with
            | none => rw [e] at h; cases h
            | some r =>
              rw [e] at h
              simp only [Option.map_some', Option.some.injEq, Prod.mk.injEq] at h
              have := expectWord_sound _ _ _ e
              exact ⟨['t', 'r', 'u', 'e'], by rw [h4, this, ← h.2]; rfl, IsJValue.litTrue⟩
          · rw [if_neg h4] at h
            by_cases h5 : c = 'f'
            · rw [if_pos h5] at h
              cases e : expectWord ['a', 'l', 's', 'e'] cs with
              | none => rw [e] at h; cases h
              | some r =>
                rw [e] at h
                simp only [Option.map_some', Option.some.injEq, Prod.mk.injEq] at h
                have := expectWord_sound _ _ _ e
                exact ⟨['f', 'a', 'l', 's', 'e'], by rw [h5, this, ← h.2]; rfl,
                  IsJValue.litFalse⟩
            · rw [if_neg h5] at h
              by_cases h6 : c = 'n'
              · rw [if_pos h6] at h
                cases e : expectWord ['u', 'l', 'l'] cs with
                | none => rw [e] at h; cases h
                | some r =>
                  rw [e] at h
                  simp only [Option.map_some', Option.some.injEq, Prod.mk.injEq] at h
                  have := expectWord_sound _ _ _ e
                  exact ⟨['n', 'u', 'l', 'l'], by rw [h6, this, ← h.2]; rfl, IsJValue.litNull⟩
              · rw [if_neg h6] at h
                obtain ⟨s, es, hs⟩ := parseNumber_sound c cs v rest h
                exact ⟨s, es, IsJValue.number s hs⟩

theorem parseMembers_sound_step (fuel : Nat) (ih : ReadersSound fuel) (depth : Nat)
    (cs : List Char) (acc : genericCursor) (v : Value) (rest : List Char)
    (h : parseMembers (fuel + 1) depth cs acc = some (v, rest)) :
    ∃ ms, cs = ms ++ '}' :: rest ∧ IsJMembers ms := by
  obtain ⟨ihv, ihm, -⟩ := ih
  rw [parseMembers.eq_def] at h
  cases cs with
  | nil => cases h
  | cons c cs =>
    simp only [] at h
    by_cases h1 : c = '"'
    · rw [if_pos h1] at h
      cases e : parseString cs with
      | none => rw [e] at h; cases h
      | some p =>
        obtain ⟨key, r1⟩ := p
        rw [e] at h
        simp only [] at h
        obtain ⟨k, ek, hk⟩ := parseString_sound cs key r1 e
        obtain ⟨w2, ew2, hw2⟩ := skipWs_split r1
        generalize skipWs r1 = r1' at h ew2
        match r1', h, ew2 with
        | [], h, _ => cases h
        | x :: r2, h, ew2 =>
          by_cases hx : x = ':'
          · subst hx
            simp only [] at h
            obtain ⟨w3, ew3, hw3⟩ := skipWs_split r2
            cases ev : parseValue fuel depth (skipWs r2) with
            | none => rw [ev] at h; cases h
            | some q =>
              obtain ⟨val, r3⟩ := q
              rw [ev] at h
              simp only [] at h
              obtain ⟨s, es, hs⟩ := ihv _ _ _ _ ev
              obtain ⟨w4, ew4, hw4⟩ := skipWs_split r3
              generalize skipWs r3 = r3' at h ew4
              have hcs : c :: cs = k ++ (w2 ++ ':' :: (w3 ++ (s ++ (w4 ++ r3')))) := by
                rw [h1, ek, ew2, ew3, es, ew4]
              match r3', h, hcs with
              | [], h, _ => cases h
              | y :: r4, h, hcs =>
                by_cases hy : y = ','
                · subst hy
                  simp only [] at h
                  obtain ⟨w5, ew5, hw5⟩ := skipWs_split r4
                  obtain ⟨ms, em, hm⟩ := ihm _ _ _ _ _ h
                  refine ⟨[] ++ (k ++ (w2 ++ ':' :: (w3 ++ (s ++ (w4 ++ ',' :: (w5 ++ ms)))))),
                    ?_, IsJMembers.more [] k w2 w3 s w4 (w5 ++ ms) isJWs_nil hk hw2 hw3 hs hw4
                      (isJMembers_ws hw5 hm)⟩
                  rw [hcs, ew5, em]; simp
                · by_cases hz : y = '}'
                  · subst hz
                    simp only [Option.some.injEq, Prod.mk.injEq] at h
                    refine ⟨[] ++ (k ++ (w2 ++ ':' :: (w3 ++ (s ++ w4)))), ?_,
                      IsJMembers.one [] k w2 w3 s w4 isJWs_nil hk hw2 hw3 hs hw4⟩
                    rw [hcs, ← h.2]; simp
                  · exfalso
                    revert h
                    split
                    · rename_i heq; exact absurd (List.cons.inj heq).1 hy
                    · rename_i heq; exact absurd (List.cons.inj heq).1 hz
                    · intro h; cases h
          · exfalso
            revert h
            split
            · rename_i heq; exact absurd (List.cons.inj heq).1 hx
            · intro h; cases h
    · rw [if_neg h1] at h; cases h

theorem parseElems_sound_step (fuel : Nat) (ih : ReadersSound fuel) (depth : Nat)
    (cs : List Char) (acc : List Value) (v : Value) (rest : List Char)
    (h : parseElems (fuel + 1) depth cs acc = some (v, rest)) :
    ∃ es, cs = es ++ ']' :: rest ∧ IsJElements es := by
  obtain ⟨ihv, -, ihe⟩ := ih
  rw [parseElems.eq_def] at h
  simp only [] at h
  cases ev : parseValue fuel depth cs with
  | none => rw [ev] at h; cases h
  | some q =>
    obtain ⟨val, r3⟩ := q
    rw [ev] at h
    simp only [] at h
    obtain ⟨s, es, hs⟩ := ihv _ _ _ _ ev
    obtain ⟨w4, ew4, hw4⟩ := skipWs_split r3
    generalize skipWs r3 = r3' at h ew4
    have hcs : cs = s ++ (w4 ++ r3') := by rw [es, ew4]
    match r3', h, hcs with
    | [], h, _ => cases h
    | y :: r4, h, hcs =>
      by_cases hy : y = ','
      · subst hy
        simp only [] at h
        obtain ⟨w5, ew5, hw5⟩ := skipWs_split r4
        obtain ⟨es', em, hm⟩ := ihe _ _ _ _ _ h
        refine ⟨[] ++ (s ++ (w4 ++ ',' :: (w5 ++ es'))), ?_,
          IsJElements.more [] s w4 (w5 ++ es') isJWs_nil hs hw4 (isJElements_ws hw5 hm)⟩
        rw [hcs, ew5, em]; simp
      · by_cases hz : y = ']'
        · subst hz
          simp only [Option.some.injEq, Prod.mk.injEq] at h
          refine ⟨[] ++ (s ++ w4), ?_, IsJElements.one [] s w4 isJWs_nil hs hw4⟩
          rw [hcs, ← h.2]; simp
        · exfalso
          revert h
          split
          · rename_i heq; exact absurd (List.cons.inj heq).1 hy
          · rename_i heq; exact absurd (List.cons.inj heq).1 hz
          · intro h; cases h

/-- The three readers accept texts of the grammar only. -/
theorem readers_sound : ∀ fuel, ReadersSound fuel := by
  intro fuel
  induction fuel with
  | zero =>
    refine ⟨?_, ?_, ?_⟩
    · intro depth cs v rest h; rw [parseValue.eq_def] at h; cases h
    · intro depth cs acc v rest h; rw [parseMembers.eq_def] at h; cases h
    · intro depth cs acc v rest h; rw [parseElems.eq_def] at h; cases h
  | succ fuel ih =>
    exact ⟨parseValue_sound_step fuel ih, parseMembers_sound_step fuel ih,
      parseElems_sound_step fuel ih⟩

/-- `json.Unmarshal` accepts valid JSON texts only. -/
theorem jsonUnmarshal_sound (cs : List Char) (m : genericCursor)
    (h : jsonUnmarshal cs = some m) : IsJSONText cs := by
  unfold jsonUnmarshal at h
  cases hp : parseValue (cs.length + 1) 0 (skipWs cs) with
  | none => rw [hp] at h; cases h
  | some r =>
    obtain ⟨v, rest⟩ := r
    rw [hp] at h
    simp only [] at h
    by_cases he : (skipWs rest).isEmpty = true
    · obtain ⟨w1, e1, hw1⟩ := skipWs_split cs
      obtain ⟨s, e2, hs⟩ := (readers_sound _).1 _ _ _ _ hp
      obtain ⟨w2, e3, hw2⟩ := skipWs_split rest
      have e4 : skipWs rest = [] := List.isEmpty_iff.mp he
      rw [e4, List.append_nil] at e3
      exact ⟨w1, s, rest, by rw [← e2]; exact e1, hw1, hs, by rw [e3]; exact hw2⟩
    · rw [if_neg he] at h; cases h

/-- A value of the grammar starts with the first character of a literal name,
a digit, a minus sign, a quotation mark, a brace or a bracket. -/
theorem isJValue_head {s : List Char} (h : IsJValue s) :
    ∃ c t, s = c :: t ∧ (c = 'f' ∨ c = 'n' ∨ c = 't' ∨ IsJDigit c ∨ c = '-' ∨ c = '"' ∨
      c = '{' ∨ c = '[') := by
  cases h with
  | litFalse => exact ⟨_, _, rfl, by simp⟩
  | litNull => exact ⟨_, _, rfl, by simp⟩
  | litTrue => exact ⟨_, _, rfl, by simp⟩
  | number s hn =>
    obtain ⟨minus, int, frac, exp, e, hm, hi, -, -⟩ := hn
    rcases hm with rfl | rfl
    · rcases hi with rfl | ⟨d, ds, rfl, hd, -, -⟩
      · exact ⟨'0', _, e, Or.inr (Or.inr (Or.inr (Or.inl (by unfold IsJDigit; decide))))⟩
      · exact ⟨d, _, e, Or.inr (Or.inr (Or.inr (Or.inl hd)))⟩
    · exact ⟨'-', _, e, by simp⟩
  | string s hs =>
    obtain ⟨body, e, -⟩ := hs
    exact ⟨'"', _, e, by simp⟩
  | emptyObject w _ => exact ⟨_, _, rfl, by simp⟩
  | object ms _ => exact ⟨_, _, rfl, by simp⟩
  | emptyArray w _ => exact ⟨_, _, rfl, by simp⟩
  | array es _ => exact ⟨_, _, rfl, by simp⟩

/-- A text that starts, after white space, with a character that starts no
value is not a JSON text; the empty text is not one either. -/
theorem not_isJSONText_of_head (s : List Char)
    (h : ∀ c t, skipWs s = c :: t → ¬ (c = 'f' ∨ c = 'n' ∨ c = 't' ∨ IsJDigit c ∨ c = '-' ∨
      c = '"' ∨ c = '{' ∨ c = '[')) : ¬ IsJSONText s := by
  rintro ⟨w1, v, w2, e, hw1, hv, -⟩
  obtain ⟨c, t, rfl, hc⟩ := isJValue_head hv
  have hns : isJsonSpace c = false := by
    rcases hc with rfl | rfl | rfl | hd | rfl | rfl | rfl | rfl
    · decide
    · decide
    · decide
    · cases hsp : isJsonSpace c with
      | false => rfl
      | true =>
        simp only [isJsonSpace, Bool.or_eq_true, decide_eq_true_eq] at hsp
        unfold IsJDigit at hd
        rcases hsp with ((rfl | rfl) | rfl) | rfl <;> simp at hd
    · decide
    · decide
    · decide
    · decide
  have hsk : skipWs s = c :: (t ++ w2) := by
    rw [e]
    unfold skipWs
    rw [List.dropWhile_append_of_pos]
    · simp [List.dropWhile, hns]
    · intro x hx
      have := hw1 x hx
      simp only [isJsonSpace, Bool.or_eq_true, decide_eq_true_eq]
      tauto
  exact h c _ hsk hc


/-- C16: `decodeCursor` fails, returning no map, for every string that is not
standard base64 and for every string of standard base64 whose bytes are not a
valid JSON text. Standard base64 is that of RFC 4648 with padding, line
breaks being ignored; a valid JSON text is one that the grammar of RFC 8259
derives, the bytes being read as UTF-8 with U+FFFD for a byte that is not
part of a character. The error returned is that of `encoding/base64` in the
first case and that of `encoding/json` in the second. -/
theorem C16_rejected_tokens_fail (cursor : String) :
    (isStdBase64 cursor.toList = false →
      decodeCursor cursor = Except.error DecodeError.corruptInput) ∧
    (∀ bytes, b64Decode cursor.toList = some bytes → ¬ IsJSONText (utf8Decode bytes) →
      decodeCursor cursor = Except.error DecodeError.invalidJSON) ∧
    ((isStdBase64 cursor.toList = false ∨
        ∃ bytes, b64Decode cursor.toList = some bytes ∧ ¬ IsJSONText (utf8Decode bytes)) →
      ∃ e, decodeCursor cursor = Except.error e) := by
  have p1 : isStdBase64 cursor.toList = false →
      decodeCursor cursor = Except.error DecodeError.corruptInput := by
    intro h
    have h1 := b64Decode_isSome cursor.toList
    rw [h] at h1
    have h2 : b64Decode cursor.toList = none := by
      cases hd : b64Decode cursor.toList with
      | none => rfl
      | some _ => rw [hd] at h1; cases h1
    simp only [decodeCursor, h2]
  have p2 : ∀ bytes, b64Decode cursor.toList = some bytes → ¬ IsJSONText (utf8Decode bytes) →
      decodeCursor cursor = Except.error DecodeError.invalidJSON := by
    intro bytes hb hj
    have h2 : jsonUnmarshal (utf8Decode bytes) = none := by
      cases hu : jsonUnmarshal (utf8Decode bytes) with
      | none => rfl
      | some m => exact absurd (jsonUnmarshal_sound _ m hu) hj
    simp only [decodeCursor, hb, h2]
  refine ⟨p1, p2, ?_⟩
  rintro (h | ⟨bytes, hb, hj⟩)
  · exact ⟨_, p1 h⟩
  · exact ⟨_, p2 bytes hb hj⟩

/-- C16 at "abc", which is not base64, at "YWJj", the base64 text of the
bytes `abc`, which are not a JSON text, and at the empty string, the base64
text of no bytes. -/
theorem C16_rejected_tokens_fail_witness :
    isStdBase64 "abc".toList = false ∧
    decodeCursor "abc" = Except.error DecodeError.corruptInput ∧
    b64Decode "YWJj".toList = some (utf8Encode "abc".toList) ∧
    ¬ IsJSONText (utf8Decode (utf8Encode "abc".toList)) ∧
    decodeCursor "YWJj" = Except.error DecodeError.invalidJSON ∧
    b64Decode "".toList = some [] ∧ ¬ IsJSONText (utf8Decode []) ∧
    decodeCursor "" = Except.error DecodeError.invalidJSON := by
  have n1 : ¬ IsJSONText (utf8Decode (utf8Encode "abc".toList)) := by
    apply not_isJSONText_of_head
    intro c t h
    have h2 : skipWs (utf8Decode (utf8Encode "abc".toList)) = ['a', 'b', 'c'] := by decide
    rw [h2] at h
    have hc : c = 'a' := (List.cons.inj h).1.symm
    subst hc
    unfold IsJDigit
    decide
  have n2 : ¬ IsJSONText (utf8Decode []) := by
    apply not_isJSONText_of_head
    intro c t h
    have h2 : skipWs (utf8Decode []) = [] := rfl
    rw [h2] at h
    cases h
  exact ⟨by decide, (C16_rejected_tokens_fail "abc").1 (by decide), by decide, n1,
    (C16_rejected_tokens_fail "YWJj").2.1 (utf8Encode "abc".toList) (by decide) n1,
    rfl, n2, (C16_rejected_tokens_fail "").2.1 [] rfl n2⟩

/-! ## The text `json.Marshal` writes is a JSON text -/

theorem isJHex_hexDigit : ∀ d, d < 16 → IsJHex (hexDigit d) := by
  unfold IsJHex IsJDigit
  decide

theorem isJChars_quoteChar (c : Char) (rest : List Char) (h : IsJChars rest) :
    IsJChars (quoteChar c ++ rest) := by
  unfold quoteChar
  split
  · exact IsJChars.escape '"' rest (by simp) h
  split
  · exact IsJChars.escape '\\' rest (by simp) h
  split
  · exact IsJChars.escape 'b' rest (by simp) h
  split
  · exact IsJChars.escape 'f' rest (by simp) h
  split
  · exact IsJChars.escape 'n' rest (by simp) h
  split
  · exact IsJChars.escape 'r' rest (by simp) h
  split
  · exact IsJChars.escape 't' rest (by simp) h
  split
  · rename_i hc
    have hn : c.toNat < 0x40 := by
      rcases hc with hc | hc | hc | hc
      · omega
      · rw [hc]; decide
      · rw [hc]; decide
      · rw [hc]; decide
    exact IsJChars.unicode '0' '0' _ _ rest (isJHex_hexDigit 0 (by omega))
      (isJHex_hexDigit 0 (by omega)) (isJHex_hexDigit _ (by omega))
      (isJHex_hexDigit _ (by omega)) h
  split
  · exact IsJChars.unicode '2' '0' '2' _ rest (isJHex_hexDigit 2 (by omega))
      (isJHex_hexDigit 0 (by omega)) (isJHex_hexDigit 2 (by omega))
      (isJHex_hexDigit _ (by omega)) h
  · rename_i h1 h2 _ _ _ _ _ h8 _
    exact IsJChars.unescaped c rest (by
      have : ¬ c.toNat < 0x20 := fun hlt => h8 (Or.inl hlt)
      omega) h1 h2 h

theorem isJChars_quoteBody (s : List Char) : IsJChars (quoteBody s) := by
  induction s with
  | nil => exact IsJChars.nil
  | cons c cs ih => exact isJChars_quoteChar c _ ih

theorem isJString_quote (s : String) : IsJString (quote s) :=
  ⟨quoteBody s.toList, rfl, isJChars_quoteBody _⟩

theorem isJChars_quoteBytesAux : ∀ (fuel : Nat) (bs : List Nat),
    IsJChars (quoteBytesAux fuel bs) := by
  intro fuel
  induction fuel with
  | zero =>
    intro bs
    cases bs <;> exact IsJChars.nil
  | succ fuel ih =>
    intro bs
    cases bs with
    | nil => exact IsJChars.nil
    | cons b0 rest =>
      simp only [quoteBytesAux]
      split
      · exact IsJChars.unicode 'f' 'f' 'f' 'd' _ (isJHex_hexDigit 15 (by omega))
          (isJHex_hexDigit 15 (by omega)) (isJHex_hexDigit 15 (by omega))
          (isJHex_hexDigit 13 (by omega)) (ih _)
      · exact isJChars_quoteChar _ _ (ih _)

theorem isJString_quoteBytes (bs : List Nat) : IsJString (quoteBytes bs) :=
  ⟨quoteBytesAux bs.length bs, rfl, isJChars_quoteBytesAux _ _⟩

theorem isJInt_decimal (n : Nat) : IsJInt (decimal n) := by
  obtain ⟨-, h2, d, ds, h3, h4⟩ := decimal_spec n
  by_cases h0 : n = 0
  · subst h0
    exact Or.inl (decimal_small (by omega))
  · refine Or.inr ⟨d, ds, h3, isJDigit_of_isDigit (h2 d (by rw [h3]; simp)),
      fun hd => h0 (h4 hd), fun c hc => isJDigit_of_isDigit (h2 c (by rw [h3]; simp [hc]))⟩

theorem isJNumber_intText (n : Int) : IsJNumber (intText n) := by
  unfold intText
  split
  · exact ⟨['-'], decimal n.natAbs, [], [], by simp, Or.inr rfl, isJInt_decimal _, Or.inl rfl,
      Or.inl rfl⟩
  · exact ⟨[], decimal n.natAbs, [], [], by simp, Or.inl rfl, isJInt_decimal _, Or.inl rfl,
      Or.inl rfl⟩

/-- The text of a string, a boolean or a finite number is a value of the
grammar, when the formatter of float64 writes numbers of the grammar. -/
theorem isJValue_leafText (fmtFloat : Int → Nat → List Char)
    (hfmt : ∀ m e, IsJNumber (fmtFloat m e)) (x : Value) (h : x.isFiniteLeaf = true) :
    IsJValue (leafText fmtFloat x) := by
  cases x with
  | bool v =>
    cases v
    · exact IsJValue.litFalse
    · exact IsJValue.litTrue
  | num n => exact IsJValue.number _ (isJNumber_intText n)
  | big n => exact IsJValue.number _ (hfmt n 0)
  | frac m e => exact IsJValue.number _ (hfmt m e)
  | str s => exact IsJValue.string _ (isJString_quote s)
  | bytes bs => exact IsJValue.string _ (isJString_quoteBytes bs)
  | null => simp [Value.isFiniteLeaf] at h
  | nonFinite => simp [Value.isFiniteLeaf] at h
  | arr xs => simp [Value.isFiniteLeaf] at h
  | obj kvs => simp [Value.isFiniteLeaf] at h
  | unsupported => simp [Value.isFiniteLeaf] at h

/-- The members that `objectText` writes are members of the grammar. -/
theorem isJMembers_objectText (fmtFloat : Int → Nat → List Char)
    (hfmt : ∀ m e, IsJNumber (fmtFloat m e)) :
    ∀ (kv : String × Value) (m : genericCursor),
      (∀ x ∈ kv :: m, x.2.isFiniteLeaf = true) →
      IsJMembers (List.intercalate [',']
        ((kv :: m).map fun kv => quote kv.1 ++ ':' :: leafText fmtFloat kv.2)) := by
  intro kv m
  induction m generalizing kv with
  | nil =>
    intro h
    have hv := isJValue_leafText fmtFloat hfmt kv.2 (h kv (List.mem_cons_self _ _))
    have := IsJMembers.one [] (quote kv.1) [] [] (leafText fmtFloat kv.2) [] isJWs_nil
      (isJString_quote _) isJWs_nil isJWs_nil hv isJWs_nil
    simpa [List.intercalate] using this
  | cons kv2 m ih =>
    intro h
    have hv := isJValue_leafText fmtFloat hfmt kv.2 (h kv (List.mem_cons_self _ _))
    have hrest := ih kv2 (fun x hx => h x (List.mem_cons_of_mem _ hx))
    have := IsJMembers.more [] (quote kv.1) [] [] (leafText fmtFloat kv.2) [] _ isJWs_nil
      (isJString_quote _) isJWs_nil isJWs_nil hv isJWs_nil hrest
    simpa [List.intercalate, List.intersperse] using this

/-- The object text of a non-empty map of finite leaves is a valid JSON
text. -/
theorem isJSONText_objectText (fmtFloat : Int → Nat → List Char)
    (hfmt : ∀ m e, IsJNumber (fmtFloat m e)) (m : genericCursor) (hne : m ≠ [])
    (hl : ∀ kv ∈ m, kv.2.isFiniteLeaf = true) : IsJSONText (objectText fmtFloat m) := by
  cases m with
  | nil => exact absurd rfl hne
  | cons kv rest =>
    refine ⟨[], _, [], ?_, isJWs_nil,
      IsJValue.object _ (isJMembers_objectText fmtFloat hfmt kv rest hl), isJWs_nil⟩
    simp [objectText]

theorem isJNumber_sampleFloat : ∀ (m : Int) (e : Nat), IsJNumber (sampleFloat m e) := by
  intro m e
  refine ⟨[], ['1'], ['.', '5'], [], rfl, Or.inl rfl, Or.inr ⟨'1', [], rfl, ?_, by decide, ?_⟩,
    Or.inr ⟨'5', [], rfl, ?_⟩, Or.inl rfl⟩
  · unfold IsJDigit; decide
  · intro c hc; cases hc
  · intro c hc
    simp only [List.mem_singleton] at hc
    subst hc
    unfold IsJDigit; decide

/-! ## The token of a map -/

theorem marshalValue_finiteLeaf (fmtFloat : Int → Nat → List Char) (x : Value)
    (h : x.isFiniteLeaf = true) : marshalValue fmtFloat x = some (leafText fmtFloat x) := by
  cases x with
  | bool v => cases v <;> rfl
  | num n => rfl
  | big n => rfl
  | frac m e => rfl
  | str s => rfl
  | bytes bs => rfl
  | null => simp [Value.isFiniteLeaf] at h
  | nonFinite => simp [Value.isFiniteLeaf] at h
  | arr xs => simp [Value.isFiniteLeaf] at h
  | obj kvs => simp [Value.isFiniteLeaf] at h
  | unsupported => simp [Value.isFiniteLeaf] at h

theorem marshalMembers_leaves (fmtFloat : Int → Nat → List Char) :
    ∀ m : genericCursor, (∀ kv ∈ m, kv.2.isFiniteLeaf = true) →
      marshalMembers fmtFloat m =
        some (List.intercalate [',']
          (m.map fun kv => quote kv.1 ++ ':' :: leafText fmtFloat kv.2)) := by
  intro m
  induction m with
  | nil => intro _; rfl
  | cons kv rest ih =>
    intro h
    have hb := ih fun x hx => h x (List.mem_cons_of_mem _ hx)
    obtain ⟨k, x⟩ := kv
    have ha := marshalValue_finiteLeaf fmtFloat x (h (k, x) (List.mem_cons_self _ _))
    simp only [marshalMembers, ha, hb]
    cases rest with
    | nil => simp [List.intercalate]
    | cons kv2 rest2 => simp [List.intercalate, List.intersperse]

/-- C15 as stated fails for a number that is not finite: a float64 NaN or
infinity is a number, `json.Marshal` rejects it, and `encodeCursor` returns
the empty string for the map `{"id": NaN}`, which is not empty. -/
theorem C15_counterexample :
    Value.isLeaf Value.nonFinite = true ∧
    [("id", Value.nonFinite)] ≠ ([] : genericCursor) ∧
    jsonMarshal sampleFloat [("id", Value.nonFinite)] = none ∧
    encodeCursor sampleFloat [("id", Value.nonFinite)] = "" :=
  ⟨rfl, by simp, rfl, rfl⟩

/-- C15, amended: `encodeCursor` returns the empty string for the map without
entries (the nil map and the empty map), and for every map with at least one
entry whose values are strings, booleans or finite numbers, the JSON
serialization of the map is the object text `objectText` (the members
`"key":value` in increasing key order, separated by commas) and
`encodeCursor` returns a string that is not empty, is written in standard
base64 and is the standard base64 encoding of the UTF-8 bytes of that text:
`base64.StdEncoding.DecodeString` gives these bytes back, and they read as
the text. The text is a JSON text of the grammar of RFC 8259 (`IsJSONText`)
when the formatter of float64, a parameter here, writes numbers of that
grammar. -/
theorem C15_token_is_base64_of_json (fmtFloat : Int → Nat → List Char) (m : genericCursor)
    (hne : m ≠ []) (hl : ∀ kv ∈ m, kv.2.isFiniteLeaf = true) :
    encodeCursor fmtFloat [] = "" ∧
    jsonMarshal fmtFloat m = some (objectText fmtFloat m) ∧
    encodeCursor fmtFloat m = String.mk (b64Encode (utf8Encode (objectText fmtFloat m))) ∧
    encodeCursor fmtFloat m ≠ "" ∧
    isStdBase64 (encodeCursor fmtFloat m).toList = true ∧
    b64Decode (encodeCursor fmtFloat m).toList = some (utf8Encode (objectText fmtFloat m)) ∧
    utf8Decode (utf8Encode (objectText fmtFloat m)) = objectText fmtFloat m ∧
    ((∀ d e, IsJNumber (fmtFloat d e)) → IsJSONText (objectText fmtFloat m)) := by
  have hb := marshalMembers_leaves fmtFloat m hl
  have hj : jsonMarshal fmtFloat m = some (objectText fmtFloat m) := by
    simp [jsonMarshal, marshalValue, hb, objectText]
  have h0 : m.length ≠ 0 := by
    cases m with
    | nil => exact absurd rfl hne
    | cons _ _ => simp
  have he : encodeCursor fmtFloat m =
      String.mk (b64Encode (utf8Encode (objectText fmtFloat m))) := by
    simp only [encodeCursor, h0, if_false, hj]
  have hd : b64Decode (encodeCursor fmtFloat m).toList =
      some (utf8Encode (objectText fmtFloat m)) := by
    rw [he, toList_mk]
    exact b64Decode_encode _ (utf8Encode_lt _)
  refine ⟨rfl, hj, he, encodeCursor_ne_empty fmtFloat m _ hne hj, ?_, hd, utf8Decode_encode _,
    fun hfmt => isJSONText_objectText fmtFloat hfmt m hne hl⟩
  rw [← b64Decode_isSome, hd]
  rfl

/-- C15, amended, at the map `{"id": 10, "points_next": true}`: the JSON text
is `{"id":10,"points_next":true}`, a text of the grammar, and the token is its
base64 encoding. -/
theorem C15_token_is_base64_of_json_witness :
    [("id", Value.num 10), ("points_next", Value.bool true)] ≠ ([] : genericCursor) ∧
    (∀ kv ∈ [("id", Value.num 10), ("points_next", Value.bool true)],
      kv.2.isFiniteLeaf = true) ∧
    objectText sampleFloat [("id", Value.num 10), ("points_next", Value.bool true)] =
      "\x7b\"id\":10,\"points_next\":true\x7d".toList ∧
    encodeCursor sampleFloat [("id", Value.num 10), ("points_next", Value.bool true)] =
      "eyJpZCI6MTAsInBvaW50c19uZXh0Ijp0cnVlfQ==" ∧
    jsonMarshal sampleFloat [("id", Value.num 10), ("points_next", Value.bool true)] =
      some (objectText sampleFloat [("id", Value.num 10), ("points_next", Value.bool true)]) ∧
    IsJSONText
      (objectText sampleFloat [("id", Value.num 10), ("points_next", Value.bool true)]) := by
  have hl : ∀ kv ∈ [("id", Value.num 10), ("points_next", Value.bool true)],
      kv.2.isFiniteLeaf = true := by
    intro kv hkv
    simp only [List.mem_cons, List.mem_singleton, List.not_mem_nil, or_false] at hkv
    rcases hkv with rfl | rfl
    · decide
    · rfl
  have h := C15_token_is_base64_of_json sampleFloat
    [("id", Value.num 10), ("points_next", Value.bool true)] (by simp) hl
  exact ⟨by simp, hl, by decide, by decide, h.2.1, h.2.2.2.2.2.2.2 isJNumber_sampleFloat⟩

/-! ## Pages of a sorted table -/

theorem insertionSort_eq_of_perm {α : Type} (r : α → α → Prop) [DecidableRel r] [IsTotal α r]
    [IsTrans α r] [IsAntisymm α r] {l₁ l₂ : List α} (hp : l₁.Perm l₂)
    (hs : l₂.Sorted r) : l₁.insertionSort r = l₂ :=
  List.eq_of_perm_of_sorted ((List.perm_insertionSort r l₁).trans hp)
    (List.sorted_insertionSort r l₁) hs

/-- In a list sorted by `r` without repetition, the rows strictly after the
last row `k` of the segment `page` are the rows that follow the segment. -/
theorem filter_after {α : Type} (r : α → α → Prop) [IsAntisymm α r] (pre page rest : List α)
    (k : α) (p : α → Bool) (hs : (pre ++ page ++ rest).Sorted r)
    (hnd : (pre ++ page ++ rest).Nodup) (hk : page.getLast? = some k)
    (hp : ∀ x, p x = true ↔ r k x ∧ x ≠ k) :
    (pre ++ page ++ rest).filter p = rest := by
  obtain ⟨init, rfl⟩ := List.getLast?_eq_some_iff.mp hk
  have e : pre ++ (init ++ [k]) ++ rest = (pre ++ init) ++ k :: rest := by simp
  rw [e] at hs hnd ⊢
  obtain ⟨-, hs2, hs3⟩ := List.pairwise_append.mp hs
  obtain ⟨-, hn2, hn3⟩ := List.pairwise_append.mp hnd
  rw [List.filter_append]
  have h1 : (pre ++ init).filter p = [] := by
    rw [List.filter_eq_nil_iff]
    intro a ha hpa
    obtain ⟨h3, h4⟩ := (hp a).mp hpa
    exact h4 (antisymm (hs3 a ha k (List.mem_cons_self _ _)) h3)
  have h2 : (k :: rest).filter p = rest := by
    have hk0 : p k = false := by
      cases hpk : p k with
      | false => rfl
      | true => exact absurd rfl ((hp k).mp hpk).2
    rw [List.filter_cons, hk0]
    simp only [Bool.false_eq_true, if_false]
    rw [List.filter_eq_self]
    intro b hb
    exact (hp b).mpr ⟨(List.pairwise_cons.mp hs2).1 b hb,
      fun h => (List.pairwise_cons.mp hn2).1 b hb h.symm⟩
  rw [h1, h2, List.nil_append]

/-- In a list sorted by `r` without repetition, the rows strictly before the
first row `k` of the segment `page` are the rows that precede the segment. -/
theorem filter_before {α : Type} (r : α → α → Prop) [IsAntisymm α r] (pre page rest : List α)
    (k : α) (p : α → Bool) (hs : (pre ++ page ++ rest).Sorted r)
    (hnd : (pre ++ page ++ rest).Nodup) (hk : page.head? = some k)
    (hp : ∀ x, p x = true ↔ r x k ∧ x ≠ k) :
    (pre ++ page ++ rest).filter p = pre := by
  obtain ⟨tail, rfl⟩ : ∃ tail, page = k :: tail := by
    cases page with
    | nil => simp at hk
    | cons a t => simp at hk; exact ⟨t, by rw [hk]⟩
  have e : pre ++ (k :: tail) ++ rest = pre ++ k :: (tail ++ rest) := by simp
  rw [e] at hs hnd ⊢
  obtain ⟨-, hs2, hs3⟩ := List.pairwise_append.mp hs
  obtain ⟨-, hn2, hn3⟩ := List.pairwise_append.mp hnd
  rw [List.filter_append]
  have h1 : pre.filter p = pre := by
    rw [List.filter_eq_self]
    intro a ha
    exact (hp a).mpr ⟨hs3 a ha k (List.mem_cons_self _ _),
      fun h => hn3 a ha k (List.mem_cons_self _ _) h⟩
  have h2 : (k :: (tail ++ rest)).filter p = [] := by
    rw [List.filter_eq_nil_iff]
    intro b hb hpb
    obtain ⟨h3, h4⟩ := (hp b).mp hpb
    rcases List.mem_cons.mp hb with h5 | h5
    · exact h4 h5
    · exact h4 (antisymm h3 ((List.pairwise_cons.mp hs2).1 b h5))
  rw [h1, h2, List.append_nil]

/-- The rows of a table strictly after the last row of a segment of the
sorted table, sorted, are the rows after the segment. -/
theorem rows_after {α : Type} (r : α → α → Prop) [DecidableRel r] [IsTotal α r] [IsTrans α r]
    [IsAntisymm α r] (table pre page rest : List α) (k : α) (p : α → Bool)
    (hnd : table.Nodup) (hs : table.insertionSort r = pre ++ page ++ rest)
    (hk : page.getLast? = some k) (hp : ∀ x, p x = true ↔ r k x ∧ x ≠ k) :
    (table.filter p).insertionSort r = rest := by
  have hperm := List.perm_insertionSort r table
  have hsorted := List.sorted_insertionSort r table
  have hnd2 : (table.insertionSort r).Nodup := (hperm.nodup_iff).mpr hnd
  rw [hs] at hperm hsorted hnd2
  have hf := filter_after r pre page rest k p hsorted hnd2 hk hp
  apply insertionSort_eq_of_perm r
  · rw [← hf]; exact (hperm.filter p).symm
  · exact (List.pairwise_append.mp hsorted).2.1

/-- The rows of a table strictly before the first row of a segment of the
sorted table, sorted the other way round, are the rows before the segment,
the nearest first. -/
theorem rows_before {α : Type} (r : α → α → Prop) [DecidableRel r] [IsTotal α r] [IsTrans α r]
    [IsAntisymm α r] [IsTotal α fun a b => r b a] [IsTrans α fun a b => r b a]
    [IsAntisymm α fun a b => r b a] (table pre page rest : List α) (k : α)
    (p : α → Bool) (hnd : table.Nodup) (hs : table.insertionSort r = pre ++ page ++ rest)
    (hk : page.head? = some k) (hp : ∀ x, p x = true ↔ r x k ∧ x ≠ k) :
    (table.filter p).insertionSort (fun a b => r b a) = pre.reverse := by
  have hperm := List.perm_insertionSort r table
  have hsorted := List.sorted_insertionSort r table
  have hnd2 : (table.insertionSort r).Nodup := (hperm.nodup_iff).mpr hnd
  rw [hs] at hperm hsorted hnd2
  have hf := filter_before r pre page rest k p hsorted hnd2 hk hp
  apply insertionSort_eq_of_perm (fun a b => r b a)
  · refine List.Perm.trans ?_ (List.reverse_perm pre).symm
    rw [← hf]; exact (hperm.filter p).symm
  · have h1 : pre.Pairwise r := by
      have h2 := (List.pairwise_append.mp hsorted).1
      exact (List.pairwise_append.mp h2).1
    exact List.pairwise_reverse.mpr h1

/-! ## The tokens of an envelope and the chain of the pager that receives one -/

theorem getKey_createGenericCursor (field : String) (value : Value) (pointsNext : Bool)
    (hf : field ≠ "points_next") :
    getKey (createGenericCursor field value pointsNext) field = some value ∧
    getKey (createGenericCursor field value pointsNext) "points_next" =
      some (Value.bool pointsNext) := by
  have hf2 : ¬ "points_next" = field := fun h => hf h.symm
  unfold createGenericCursor
  simp only [setKey, hf2, if_false]
  split <;> simp [getKey, hf, hf2]

/-- The Next token of an envelope, when there is one, is the token of the
row passed as `next`, pointing forward. -/
theorem Pagination_next (fmtFloat : Int → Nat → List Char) (c : cursorPaging)
    (isFirstPage hasPagination : Bool) (prev : Option Value) (nv : Value)
    (env : cursorForwarder)
    (h : c.Pagination fmtFloat isFirstPage hasPagination prev (some nv) = some env)
    (hne : env.Next ≠ "") :
    env.Next = encodeCursor fmtFloat (createGenericCursor c.field nv true) := by
  have e0 := encodeCursor_nil fmtFloat
  cases isFirstPage <;> cases hasPagination <;> cases hpn : c.pointsNext <;> cases prev <;>
    simp [cursorPaging.Pagination, newCursorPagination, hpn] at h <;>
    subst h <;> first | rfl | exact absurd e0 hne

/-- The Prev token of an envelope, when there is one, is the token of the
row passed as `prev`, pointing backward. -/
theorem Pagination_prev (fmtFloat : Int → Nat → List Char) (c : cursorPaging)
    (isFirstPage hasPagination : Bool) (next : Option Value) (pv : Value)
    (env : cursorForwarder)
    (h : c.Pagination fmtFloat isFirstPage hasPagination (some pv) next = some env)
    (hne : env.Prev ≠ "") :
    env.Prev = encodeCursor fmtFloat (createGenericCursor c.field pv false) := by
  have e0 := encodeCursor_nil fmtFloat
  cases isFirstPage <;> cases hasPagination <;> cases hpn : c.pointsNext <;> cases next <;>
    simp [cursorPaging.Pagination, newCursorPagination, hpn] at h <;>
    subst h <;> first | rfl | exact absurd e0 hne

theorem append_left_cancel_iff (f a b : String) : f ++ a = f ++ b ↔ a = b := by
  constructor
  · intro h
    have h1 := congrArg String.data h
    rw [String.data_append, String.data_append] at h1
    exact String.ext (List.append_cancel_left h1)
  · intro h; rw [h]

theorem filterRows_gt {α : Type} [LinearOrder α] (col : Column α) (field : String) (v : Value)
    (k : α) (rows : List α) (hv : col.ofValue v = some k) :
    filterRows col field (field ++ " " ++ ">" ++ " ?") [v] rows =
      some (rows.filter fun x => decide (k < x)) := by
  have e : field ++ " " ++ ">" ++ " ?" = field ++ " > ?" := by
    rw [String.append_assoc, String.append_assoc]; rfl
  simp only [filterRows, hv, e, if_true]

theorem filterRows_lt {α : Type} [LinearOrder α] (col : Column α) (field : String) (v : Value)
    (k : α) (rows : List α) (hv : col.ofValue v = some k) :
    filterRows col field (field ++ " " ++ "<" ++ " ?") [v] rows =
      some (rows.filter fun x => decide (x < k)) := by
  have e : field ++ " " ++ "<" ++ " ?" = field ++ " < ?" := by
    rw [String.append_assoc, String.append_assoc]; rfl
  have ne : ¬ field ++ " < ?" = field ++ " > ?" := by
    rw [append_left_cancel_iff]; decide
  simp only [filterRows, hv, e, ne, if_false, if_true]

theorem orderRows_asc {α : Type} [LinearOrder α] (field : String) (rows : List α) :
    orderRows field (Value.str (field ++ " " ++ "asc")) rows =
      some (rows.insertionSort fun a b => a ≤ b) := by
  have e : field ++ " " ++ "asc" = field ++ " asc" := by rw [String.append_assoc]; rfl
  simp only [orderRows, e, if_true]
  rfl

theorem orderRows_desc {α : Type} [LinearOrder α] (field : String) (rows : List α) :
    orderRows field (Value.str (field ++ " " ++ "desc")) rows =
      some (rows.insertionSort fun a b => b ≤ a) := by
  have e : field ++ " " ++ "desc" = field ++ " desc" := by rw [String.append_assoc]; rfl
  have ne : ¬ field ++ " desc" = field ++ " asc" := by
    rw [append_left_cancel_iff]; decide
  simp only [orderRows, e, ne, if_false, if_true]
  rfl

theorem sortOrderFromString_cases (order : String) :
    sortOrderFromString order = "asc" ∨ sortOrderFromString order = "desc" := by
  unfold sortOrderFromString
  split
  · exact Or.inl rfl
  · split
    · exact Or.inr rfl
    · exact Or.inl rfl

/-- The chain of the pager that receives the token of a boundary value `v`
that keeps its value: the pager is made by `NewCursorPaging` with a sort
order and a limit. -/
theorem Build_of_token (fmtFloat : Int → Nat → List Char) (field order : String)
    (limit : Int) (v : Value) (b : Bool) (hf : field ≠ "points_next")
    (hk : v.keepsValue fmtFloat) :
    ((NewCursorPaging
        (some (encodeCursor fmtFloat (createGenericCursor field v b))) field
        [WithCursorSortOrder order, WithCursorLimit limit]).Build []).2 =
      [Op.Where (field ++ " " ++ (specOperatorAndOrder b (sortOrderFromString order)).1 ++ " ?")
          [v],
        Op.Order (Value.str
          (field ++ " " ++ (specOperatorAndOrder b (sortOrderFromString order)).2)),
        Op.Limit (wrapInt (limit + 1))] := by
  have hd := decodeCursor_create fmtFloat field v b hk
  obtain ⟨g1, g2⟩ := getKey_createGenericCursor field v b hf
  have h1 : ¬ (encodeCursor fmtFloat (createGenericCursor field v b) = "\"\"" ∨
      encodeCursor fmtFloat (createGenericCursor field v b) = "") := by
    rintro (h | h)
    · rw [h, decodeCursor_quotes] at hd; cases hd
    · rw [h, decodeCursor_empty] at hd; cases hd
  have hpn : (match getKey (createGenericCursor field v b) "points_next" with
      | some (Value.bool true) => true
      | _ => false) = b := by
    rw [g2]; cases b <;> rfl
  have hso := sortOrderFromString_cases order
  obtain ⟨t1, t2⟩ := paginationOperator_spec b (sortOrderFromString order) hso
  simp only [NewCursorPaging, List.foldl, WithCursorSortOrder, WithCursorLimit,
    cursorPaging.Build, h1, if_false, hd, hpn, g1, Option.getD_some]
  split
  · rename_i h
    rw [if_pos h] at t2
    simp [cursorPaging.finish, t1, t2]
  · rename_i h
    rw [if_neg h] at t2
    simp [cursorPaging.finish, t1, ← t2]

theorem mem_of_sortRows {α : Type} [LinearOrder α] {so : String}
    {table pre page rest : List α} {x : α}
    (hsort : sortRows so table = some (pre ++ page ++ rest)) (hx : x ∈ page) : x ∈ table := by
  have hmem : x ∈ pre ++ page ++ rest := by simp [hx]
  unfold sortRows at hsort
  split at hsort
  · rw [← Option.some.inj hsort] at hmem
    exact (List.perm_insertionSort _ table).mem_iff.mp hmem
  · split at hsort
    · rw [← Option.some.inj hsort] at hmem
      exact (List.perm_insertionSort _ table).mem_iff.mp hmem
    · cases hsort

/-- The rows of a query whose limit is `limit + 1` as `Build` computes it,
trimmed to the limit, are the first `limit` rows. -/
theorem take_limitRows {α : Type} (limit : Int) (rows : List α) (h1 : 1 ≤ limit)
    (h2 : isInt64 limit) :
    (limitRows (wrapInt (limit + 1)) rows).take limit.toNat = rows.take limit.toNat := by
  rw [wrapInt_succ h2]
  unfold limitRows
  split
  · rename_i h
    rw [if_pos (by unfold minInt64; omega)]
  · rename_i h
    rw [if_neg (by omega), List.take_take]
    congr 1
    omega

/-! ## Forward and backward paging -/

/-- C11 as stated fails on keys above `2 ^ 53`: in the table of the two ids
9007199254740993 and 9007199254740994, ascending, one row a page, the Next
token of the page of the row 9007199254740993 fetches that same row again,
not the row 9007199254740994 that follows it: the id in the token is read
back as the float64 9007199254740992. It fails on keys that are strings
without valid UTF-8: in the table of the byte strings `[255]` and `[255, 0]`
the Next token of the page of the row `[255]` holds the string U+FFFD and
fetches the row `[255]` again. And it fails when the cursor field is named
"points_next": the token of the row 10 is that of `{"points_next": true}`,
the filter is bound to `true` and the query has no rows to give. -/
theorem C11_counterexample :
    sortRows "asc" [(9007199254740994 : Int), 9007199254740993] =
      some ([] ++ [9007199254740993] ++ [9007199254740994]) ∧
    ((samplePager none).Pagination sampleFloat true true none
        (some (intColumn.toValue 9007199254740993))).map cursorForwarder.Next =
      some "eyJpZCI6OTAwNzE5OTI1NDc0MDk5MywicG9pbnRzX25leHQiOnRydWV9" ∧
    trimToLimit 1 (runQuery intColumn "id" [9007199254740994, 9007199254740993]
      ((NewCursorPaging (some "eyJpZCI6OTAwNzE5OTI1NDc0MDk5MywicG9pbnRzX25leHQiOnRydWV9") "id"
        [WithCursorSortOrder "asc", WithCursorLimit 1]).Build []).2) =
      some [9007199254740993] ∧
    sortRows "asc" [[255, 0], [255]] = some ([] ++ [[255]] ++ [[255, 0]]) ∧
    ((samplePager none).Pagination sampleFloat true true none
        (some (bytesColumn.toValue [255]))).map cursorForwarder.Next =
      some "eyJpZCI6Ilx1ZmZmZCIsInBvaW50c19uZXh0Ijp0cnVlfQ==" ∧
    trimToLimit 1 (runQuery bytesColumn "id" [[255, 0], [255]]
      ((NewCursorPaging (some "eyJpZCI6Ilx1ZmZmZCIsInBvaW50c19uZXh0Ijp0cnVlfQ==") "id"
        [WithCursorSortOrder "asc", WithCursorLimit 1]).Build []).2) =
      some [[255]] ∧
    ((NewCursorPaging none "points_next" [WithCursorSortOrder "asc", WithCursorLimit 1]).Pagination
        sampleFloat true true none (some (intColumn.toValue 10))).map cursorForwarder.Next =
      some "eyJwb2ludHNfbmV4dCI6dHJ1ZX0=" ∧
    ((NewCursorPaging (some "eyJwb2ludHNfbmV4dCI6dHJ1ZX0=") "points_next"
        [WithCursorSortOrder "asc", WithCursorLimit 1]).Build []).2 =
      [Op.Where "points_next > ?" [Value.bool true], Op.Order (Value.str "points_next asc"),
        Op.Limit 2] ∧
    runQuery intColumn "points_next" [10, 11]
      ((NewCursorPaging (some "eyJwb2ludHNfbmV4dCI6dHJ1ZX0=") "points_next"
        [WithCursorSortOrder "asc", WithCursorLimit 1]).Build []).2 = none :=
  ⟨by decide, by decide, by decide, by decide, by decide, by decide, by decide, rfl, by decide⟩

/-- C11, amended: take a table of rows with distinct keys of a linearly
ordered type, whose cursor values keep their value through a token (strings
that hold valid UTF-8, booleans, integers of magnitude at most `2 ^ 53`, other
finite float64 numbers whose text reads back as the same number) and are read
by the database as the key they come from; a cursor field other than
"points_next"; a limit of at least one that is a Go `int`; and a declared
order. Let `page` be a segment of the table sorted in the declared order and
`k` the key of its last row. Every non-empty Next token that `Pagination`
emits for the boundary row `k` makes the pager of that token, order and limit
build a chain whose rows, trimmed to the limit, are the first `limit` rows
after the segment, in the declared order. The limit the chain
carries is `limit + 1` in 64-bit arithmetic; at the largest `int` it wraps to
a negative number, which the database reads as no limit, and the trimmed rows
are the same. -/
theorem C11_next_token_fetches_following_rows {α : Type} [LinearOrder α] (col : Column α)
    (fmtFloat : Int → Nat → List Char)
    (c0 : cursorPaging) (isFirstPage hasPagination : Bool) (prev : Option Value)
    (env : cursorForwarder) (table pre page rest : List α) (k : α) (order : String)
    (limit : Int) (hf : c0.field ≠ "points_next") (hnd : table.Nodup)
    (hkeys : ∀ x ∈ table, (col.toValue x).keepsValue fmtFloat ∧
      col.ofValue (col.toValue x) = some x)
    (hlim : 1 ≤ limit) (hint : isInt64 limit)
    (hsort : sortRows (sortOrderFromString order) table = some (pre ++ page ++ rest))
    (hk : page.getLast? = some k)
    (henv : c0.Pagination fmtFloat isFirstPage hasPagination prev (some (col.toValue k)) =
      some env)
    (hne : env.Next ≠ "") :
    trimToLimit limit (runQuery col c0.field table
      ((NewCursorPaging (some env.Next) c0.field
        [WithCursorSortOrder order, WithCursorLimit limit]).Build []).2) =
      some (rest.take limit.toNat) := by
  have hkp : k ∈ page := by
    obtain ⟨init, rfl⟩ := List.getLast?_eq_some_iff.mp hk
    simp
  obtain ⟨hkb, hko⟩ := hkeys k (mem_of_sortRows hsort hkp)
  rw [Pagination_next fmtFloat c0 isFirstPage hasPagination prev (col.toValue k) env henv hne,
    Build_of_token fmtFloat c0.field order limit (col.toValue k) true hf hkb]
  have hlt : ∀ a b : α, a < b ↔ a ≤ b ∧ b ≠ a := fun a b =>
    ⟨fun h => ⟨le_of_lt h, fun e => absurd (e ▸ h) (lt_irrefl _)⟩,
      fun h => lt_of_le_of_ne h.1 (fun e => h.2 e.symm)⟩
  rcases sortOrderFromString_cases order with h | h
  · rw [h] at hsort ⊢
    have hs : table.insertionSort (fun a b => a ≤ b) = pre ++ page ++ rest :=
      Option.some.inj hsort
    have hr := rows_after (fun a b => a ≤ b) table pre page rest k (fun x => decide (k < x))
      hnd hs hk (by intro x; simp only [decide_eq_true_eq]; exact hlt k x)
    have e : specOperatorAndOrder true "asc" = (">", "asc") := rfl
    simp only [e, runQuery, filterRows_gt col _ _ k _ hko, orderRows_asc, Option.some_bind,
      Option.map_some', trimToLimit, hr, take_limitRows limit rest hlim hint]
  · rw [h] at hsort ⊢
    have hs : table.insertionSort (fun a b => b ≤ a) = pre ++ page ++ rest :=
      Option.some.inj hsort
    haveI i1 : IsTotal α fun a b => b ≤ a := ⟨fun a b => le_total b a⟩
    haveI i2 : IsTrans α fun a b => b ≤ a := ⟨fun _ _ _ h1 h2 => le_trans h2 h1⟩
    haveI i3 : IsAntisymm α fun a b => b ≤ a := ⟨fun _ _ h1 h2 => le_antisymm h2 h1⟩
    have hr := rows_after (fun a b => b ≤ a) table pre page rest k (fun x => decide (x < k))
      hnd hs hk (by
        intro x; simp only [decide_eq_true_eq]
        exact ⟨fun h => ⟨le_of_lt h, ne_of_lt h⟩, fun h => lt_of_le_of_ne h.1 h.2⟩)
    have e : specOperatorAndOrder true "desc" = ("<", "desc") := rfl
    simp only [e, runQuery, filterRows_lt col _ _ k _ hko, orderRows_desc, Option.some_bind,
      Option.map_some', trimToLimit, hr, take_limitRows limit rest hlim hint]

theorem keys_intColumn (fmtFloat : Int → Nat → List Char) (table : List Int)
    (h : ∀ x ∈ table, x.natAbs ≤ 2 ^ 53) :
    ∀ x ∈ table, (intColumn.toValue x).keepsValue fmtFloat ∧
      intColumn.ofValue (intColumn.toValue x) = some x :=
  fun x hx => ⟨h x hx, rfl⟩

theorem keys_textColumn (fmtFloat : Int → Nat → List Char) (table : List (List Char)) :
    ∀ x ∈ table, (textColumn.toValue x).keepsValue fmtFloat ∧
      textColumn.ofValue (textColumn.toValue x) = some x :=
  fun _ _ => ⟨trivial, rfl⟩

/-- C11, amended, on the ids 1 to 25, ascending, ten rows a page: the Next
token of the first page, taken from its last row 10, fetches the rows 11 to
20; and on a table of five names, ascending, two rows a page: the Next token
of the first page, taken from its last row "bob", fetches "cy" and "dan". -/
theorem C11_next_token_fetches_following_rows_witness :
    trimToLimit 10 (runQuery intColumn "id" sampleTable
      ((NewCursorPaging (some "eyJpZCI6MTAsInBvaW50c19uZXh0Ijp0cnVlfQ==") "id"
        [WithCursorSortOrder "asc", WithCursorLimit 10]).Build []).2) =
      some [11, 12, 13, 14, 15, 16, 17, 18, 19, 20] ∧
    trimToLimit 2 (runQuery textColumn "id" sampleNames
      ((NewCursorPaging (some "eyJpZCI6ImJvYiIsInBvaW50c19uZXh0Ijp0cnVlfQ==") "id"
        [WithCursorSortOrder "asc", WithCursorLimit 2]).Build []).2) =
      some ["cy".toList, "dan".toList] :=
  ⟨C11_next_token_fetches_following_rows intColumn sampleFloat (samplePager none) true true none
      { Next := "eyJpZCI6MTAsInBvaW50c19uZXh0Ijp0cnVlfQ==", Prev := "" } sampleTable []
      [1, 2, 3, 4, 5, 6, 7, 8, 9, 10]
      [11, 12, 13, 14, 15, 16, 17, 18, 19, 20, 21, 22, 23, 24, 25] 10 "asc" 10
      (by decide) (by decide) (keys_intColumn sampleFloat sampleTable (by decide)) (by decide)
      (by decide) (by decide) rfl rfl (by decide),
    C11_next_token_fetches_following_rows textColumn sampleFloat (samplePager none) true true none
      { Next := "eyJpZCI6ImJvYiIsInBvaW50c19uZXh0Ijp0cnVlfQ==", Prev := "" } sampleNames []
      ["al".toList, "bob".toList] ["cy".toList, "dan".toList, "eve".toList] "bob".toList "asc" 2
      (by decide) (by decide) (keys_textColumn sampleFloat sampleNames) (by decide)
      (by decide) (by decide) rfl rfl (by decide)⟩

/-- C12 as stated fails on keys above `2 ^ 53`: in the table of the two ids
9007199254740992 and 9007199254740993, ascending, one row a page, the Prev
token of the page of the row 9007199254740993 fetches no row, although the
row 9007199254740992 precedes that page: the id in the token is read back as
the float64 9007199254740992. It fails on keys that are strings without
valid UTF-8: in the table of the byte strings `[240]` and `[255]` the Prev
token of the page of the row `[255]` holds the string U+FFFD, whose first
byte is 239, and fetches no row, although the row `[240]` precedes that
page. And it fails when the cursor field is named "points_next": the filter
is bound to `false` and the query has no rows to give. -/
theorem C12_counterexample :
    sortRows "asc" [(9007199254740993 : Int), 9007199254740992] =
      some ([9007199254740992] ++ [9007199254740993] ++ []) ∧
    (((samplePager (some "eyJpZCI6MTAsInBvaW50c19uZXh0Ijp0cnVlfQ==")).Build []).1.Pagination
        sampleFloat false false (some (intColumn.toValue 9007199254740993))
        (some (intColumn.toValue 9007199254740993))).map cursorForwarder.Prev =
      some "eyJpZCI6OTAwNzE5OTI1NDc0MDk5MywicG9pbnRzX25leHQiOmZhbHNlfQ==" ∧
    trimToLimit 1 (runQuery intColumn "id" [9007199254740993, 9007199254740992]
      ((NewCursorPaging (some "eyJpZCI6OTAwNzE5OTI1NDc0MDk5MywicG9pbnRzX25leHQiOmZhbHNlfQ==")
        "id" [WithCursorSortOrder "asc", WithCursorLimit 1]).Build []).2) =
      some [] ∧
    sortRows "asc" [[255], [240]] = some ([[240]] ++ [[255]] ++ []) ∧
    (((samplePager (some "eyJpZCI6MTAsInBvaW50c19uZXh0Ijp0cnVlfQ==")).Build []).1.Pagination
        sampleFloat false false (some (bytesColumn.toValue [255]))
        (some (bytesColumn.toValue [255]))).map cursorForwarder.Prev =
      some "eyJpZCI6Ilx1ZmZmZCIsInBvaW50c19uZXh0IjpmYWxzZX0=" ∧
    trimToLimit 1 (runQuery bytesColumn "id" [[255], [240]]
      ((NewCursorPaging (some "eyJpZCI6Ilx1ZmZmZCIsInBvaW50c19uZXh0IjpmYWxzZX0=") "id"
        [WithCursorSortOrder "asc", WithCursorLimit 1]).Build []).2) =
      some [] ∧
    ({ NewCursorPaging (some "x") "points_next"
          [WithCursorSortOrder "asc", WithCursorLimit 1] with pointsNext := true }.Pagination
        sampleFloat false false (some (intColumn.toValue 11)) (some (intColumn.toValue 11))).map
        cursorForwarder.Prev =
      some "eyJwb2ludHNfbmV4dCI6ZmFsc2V9" ∧
    ((NewCursorPaging (some "eyJwb2ludHNfbmV4dCI6ZmFsc2V9") "points_next"
        [WithCursorSortOrder "asc", WithCursorLimit 1]).Build []).2 =
      [Op.Where "points_next < ?" [Value.bool false], Op.Order (Value.str "points_next desc"),
        Op.Limit 2] ∧
    runQuery intColumn "points_next" [10, 11]
      ((NewCursorPaging (some "eyJwb2ludHNfbmV4dCI6ZmFsc2V9") "points_next"
        [WithCursorSortOrder "asc", WithCursorLimit 1]).Build []).2 = none :=
  ⟨by decide, by decide, by decide, by decide, by decide, by decide, by decide, rfl, by decide⟩

/-- C12, amended: take a table of rows with distinct keys of a linearly
ordered type, whose cursor values keep their value through a token (strings
that hold valid UTF-8, booleans, integers of magnitude at most `2 ^ 53`, other
finite float64 numbers whose text reads back as the same number) and are read
by the database as the key they come from; a cursor field other than
"points_next"; a limit of at least one that is a Go `int`; and a declared
order. Let `page` be a segment of the table sorted in the declared order and
`k` the key of its first row. Every non-empty Prev token that `Pagination`
emits for the boundary row `k` makes the pager of that token, order and limit
build a chain whose rows, trimmed to the limit, are the last `limit` rows
before the segment, delivered in the opposite of the declared order: the
nearest row first. The limit the chain
carries is `limit + 1` in 64-bit arithmetic; at the largest `int` it wraps to
a negative number, which the database reads as no limit, and the trimmed rows
are the same. -/
theorem C12_prev_token_fetches_preceding_rows {α : Type} [LinearOrder α] (col : Column α)
    (fmtFloat : Int → Nat → List Char)
    (c0 : cursorPaging) (isFirstPage hasPagination : Bool) (next : Option Value)
    (env : cursorForwarder) (table pre page rest : List α) (k : α) (order : String)
    (limit : Int) (hf : c0.field ≠ "points_next") (hnd : table.Nodup)
    (hkeys : ∀ x ∈ table, (col.toValue x).keepsValue fmtFloat ∧
      col.ofValue (col.toValue x) = some x)
    (hlim : 1 ≤ limit) (hint : isInt64 limit)
    (hsort : sortRows (sortOrderFromString order) table = some (pre ++ page ++ rest))
    (hk : page.head? = some k)
    (henv : c0.Pagination fmtFloat isFirstPage hasPagination (some (col.toValue k)) next =
      some env)
    (hne : env.Prev ≠ "") :
    trimToLimit limit (runQuery col c0.field table
      ((NewCursorPaging (some env.Prev) c0.field
        [WithCursorSortOrder order, WithCursorLimit limit]).Build []).2) =
      some (pre.reverse.take limit.toNat) ∧
    (pre.reverse.take limit.toNat).reverse = pre.drop (pre.length - limit.toNat) := by
  have hkp : k ∈ page := List.mem_of_mem_head? hk
  obtain ⟨hkb, hko⟩ := hkeys k (mem_of_sortRows hsort hkp)
  refine ⟨?_, ?_⟩
  · rw [Pagination_prev fmtFloat c0 isFirstPage hasPagination next (col.toValue k) env henv hne,
      Build_of_token fmtFloat c0.field order limit (col.toValue k) false hf hkb]
    haveI i1 : IsTotal α fun a b => b ≤ a := ⟨fun a b => le_total b a⟩
    haveI i2 : IsTrans α fun a b => b ≤ a := ⟨fun _ _ _ h1 h2 => le_trans h2 h1⟩
    haveI i3 : IsAntisymm α fun a b => b ≤ a := ⟨fun _ _ h1 h2 => le_antisymm h2 h1⟩
    rcases sortOrderFromString_cases order with h | h
    · rw [h] at hsort ⊢
      have hs : table.insertionSort (fun a b => a ≤ b) = pre ++ page ++ rest :=
        Option.some.inj hsort
      have hr := rows_before (fun a b => a ≤ b) table pre page rest k
        (fun x => decide (x < k)) hnd hs hk (by
          intro x; simp only [decide_eq_true_eq]
          exact ⟨fun h => ⟨le_of_lt h, ne_of_lt h⟩, fun h => lt_of_le_of_ne h.1 h.2⟩)
      have e : specOperatorAndOrder false "asc" = ("<", "desc") := rfl
      simp only [e, runQuery, filterRows_lt col _ _ k _ hko, orderRows_desc, Option.some_bind,
        Option.map_some', trimToLimit, hr, take_limitRows limit _ hlim hint]
    · rw [h] at hsort ⊢
      have hs : table.insertionSort (fun a b => b ≤ a) = pre ++ page ++ rest :=
        Option.some.inj hsort
      haveI j1 : IsTotal α fun a b => (fun a b : α => b ≤ a) b a :=
        ⟨fun a b => le_total a b⟩
      haveI j2 : IsTrans α fun a b => (fun a b : α => b ≤ a) b a :=
        ⟨fun _ _ _ h1 h2 => le_trans h1 h2⟩
      haveI j3 : IsAntisymm α fun a b => (fun a b : α => b ≤ a) b a :=
        ⟨fun _ _ h1 h2 => le_antisymm h1 h2⟩
      have hr := rows_before (fun a b => b ≤ a) table pre page rest k
        (fun x => decide (k < x)) hnd hs hk (by
          intro x; simp only [decide_eq_true_eq]
          exact ⟨fun h => ⟨le_of_lt h, fun e => absurd (e ▸ h) (lt_irrefl _)⟩,
            fun h => lt_of_le_of_ne h.1 (fun e => h.2 e.symm)⟩)
      have e : specOperatorAndOrder false "desc" = (">", "asc") := rfl
      simp only [e, runQuery, filterRows_gt col _ _ k _ hko, orderRows_asc, Option.some_bind,
        Option.map_some', trimToLimit, hr, take_limitRows limit _ hlim hint]
  · rw [List.reverse_take]
    simp

/-- C12, amended, on the ids 1 to 25, ascending, ten rows a page: the Prev
token of the page 11 to 20, taken from its first row 11, fetches the rows 10,
9, down to 1; and on a table of five names, ascending, two rows a page: the
Prev token of the page of "cy" and "dan", taken from its first row "cy",
fetches "bob" and "al". -/
theorem C12_prev_token_fetches_preceding_rows_witness :
    trimToLimit 10 (runQuery intColumn "id" sampleTable
      ((NewCursorPaging (some "eyJpZCI6MTEsInBvaW50c19uZXh0IjpmYWxzZX0=") "id"
        [WithCursorSortOrder "asc", WithCursorLimit 10]).Build []).2) =
      some [10, 9, 8, 7, 6, 5, 4, 3, 2, 1] ∧
    trimToLimit 2 (runQuery textColumn "id" sampleNames
      ((NewCursorPaging (some "eyJpZCI6ImN5IiwicG9pbnRzX25leHQiOmZhbHNlfQ==") "id"
        [WithCursorSortOrder "asc", WithCursorLimit 2]).Build []).2) =
      some ["bob".toList, "al".toList] :=
  ⟨(C12_prev_token_fetches_preceding_rows intColumn sampleFloat
      ((samplePager (some "eyJpZCI6MTAsInBvaW50c19uZXh0Ijp0cnVlfQ==")).Build []).1 false true
      (some (Value.num 20))
      { Next := "eyJpZCI6MjAsInBvaW50c19uZXh0Ijp0cnVlfQ==",
        Prev := "eyJpZCI6MTEsInBvaW50c19uZXh0IjpmYWxzZX0=" } sampleTable
      [1, 2, 3, 4, 5, 6, 7, 8, 9, 10] [11, 12, 13, 14, 15, 16, 17, 18, 19, 20]
      [21, 22, 23, 24, 25] 11 "asc" 10
      (by decide) (by decide) (keys_intColumn sampleFloat sampleTable (by decide)) (by decide)
      (by decide) (by decide) rfl rfl (by decide)).1,
    (C12_prev_token_fetches_preceding_rows textColumn sampleFloat
      ((samplePager (some "eyJpZCI6ImJvYiIsInBvaW50c19uZXh0Ijp0cnVlfQ==")).Build []).1 false true
      (some (Value.str "dan"))
      { Next := "eyJpZCI6ImRhbiIsInBvaW50c19uZXh0Ijp0cnVlfQ==",
        Prev := "eyJpZCI6ImN5IiwicG9pbnRzX25leHQiOmZhbHNlfQ==" } sampleNames
      ["al".toList, "bob".toList] ["cy".toList, "dan".toList] ["eve".toList] "cy".toList "asc" 2
      (by decide) (by decide) (keys_textColumn sampleFloat sampleNames) (by decide)
      (by decide) (by decide) rfl rfl (by decide)).1⟩

/-! ## The number of pages -/

theorem log2Aux_spec : ∀ (fuel n : Nat), 1 ≤ n → n ≤ fuel →
    2 ^ log2Aux fuel n ≤ n ∧ n < 2 ^ (log2Aux fuel n + 1) := by
  intro fuel
  induction fuel with
  | zero => intro n h1 h2; omega
  | succ fuel ih =>
    intro n h1 h2
    rw [log2Aux]
    split
    · rename_i h; simp; omega
    · rename_i h
      obtain ⟨i1, i2⟩ := ih (n / 2) (by omega) (by omega)
      rw [pow_succ] at i2 ⊢
      rw [pow_succ]
      constructor <;> omega

theorem log2_spec (n : Nat) (h : 1 ≤ n) : 2 ^ log2 n ≤ n ∧ n < 2 ^ (log2 n + 1) :=
  log2Aux_spec n n h (Nat.le_refl n)

/-- The number `floorLog2 a b` is a lower bound of the binary logarithm of
`a / b`. -/
theorem floorLog2_le (a b : Nat) (ha : 1 ≤ a) (hb : 1 ≤ b) :
    (0 ≤ floorLog2 a b → b * 2 ^ (floorLog2 a b).toNat ≤ a) ∧
    (floorLog2 a b < 0 → b ≤ a * 2 ^ (-floorLog2 a b).toNat) ∧
    -(log2 b : Int) - 1 ≤ floorLog2 a b := by
  obtain ⟨a1, -⟩ := log2_spec a ha
  obtain ⟨-, b2⟩ := log2_spec b hb
  generalize hla : log2 a = la at a1
  generalize hlb : log2 b = lb at b2
  obtain ⟨t, ht⟩ : ∃ t : Int, t = (la : Int) - (lb : Int) := ⟨_, rfl⟩
  have hfl : floorLog2 a b =
      if (if 0 ≤ t then b * 2 ^ t.toNat ≤ a else b ≤ a * 2 ^ (-t).toNat) then t else t - 1 := by
    simp only [floorLog2, hla, hlb, ht]
  rw [hfl]
  by_cases hc : (if 0 ≤ t then b * 2 ^ t.toNat ≤ a else b ≤ a * 2 ^ (-t).toNat)
  · rw [if_pos hc]
    refine ⟨fun h => ?_, fun h => ?_, by omega⟩
    · rwa [if_pos h] at hc
    · rwa [if_neg (by omega)] at hc
  · rw [if_neg hc]
    refine ⟨fun h => ?_, fun h => ?_, by omega⟩
    · have e : (t - 1).toNat = la - lb - 1 := by omega
      rw [e]
      have h3 : 2 ^ (lb + 1) * 2 ^ (la - lb - 1) = 2 ^ la := by
        rw [← pow_add]; congr 1; omega
      have h4 : b * 2 ^ (la - lb - 1) ≤ 2 ^ (lb + 1) * 2 ^ (la - lb - 1) :=
        Nat.mul_le_mul_right _ (Nat.le_of_lt b2)
      omega
    · have e : (-(t - 1)).toNat = lb - la + 1 := by omega
      rw [e]
      have h3 : 2 ^ la * 2 ^ (lb - la + 1) = 2 ^ (lb + 1) := by
        rw [← pow_add]; congr 1; omega
      have h4 : 2 ^ la * 2 ^ (lb - la + 1) ≤ a * 2 ^ (lb - la + 1) :=
        Nat.mul_le_mul_right _ a1
      omega

theorem roundHalfEven_le (num den N : Nat) (hden : 0 < den) (h : num ≤ N * den) :
    roundHalfEven num den ≤ N := by
  have hdm := Nat.div_add_mod num den
  have hr : num % den < den := Nat.mod_lt _ hden
  have hq : num / den ≤ N := Nat.div_le_of_le_mul (by rwa [Nat.mul_comm] at h)
  unfold roundHalfEven
  simp only []
  split
  · rename_i hc
    rcases Nat.lt_or_ge (num / den) N with h1 | h1
    · omega
    · have h2 : num / den = N := by omega
      rw [h2] at hdm
      have h3 : den * N = N * den := Nat.mul_comm _ _
      omega
  · exact hq

theorem lt_roundHalfEven (num den N d : Nat) (hden : 0 < den) (h : N * den + d ≤ num)
    (hd : den < 2 * d) : N + 1 ≤ roundHalfEven num den := by
  have hdm := Nat.div_add_mod num den
  have hr : num % den < den := Nat.mod_lt _ hden
  have hq : N ≤ num / den := by
    rw [Nat.le_div_iff_mul_le hden]; omega
  unfold roundHalfEven
  simp only []
  rcases Nat.lt_or_ge N (num / den) with h1 | h1
  · split <;> omega
  · have h2 : num / den = N := by omega
    rw [h2] at hdm
    have h3 : den * N = N * den := Nat.mul_comm _ _
    rw [h2, if_pos (Or.inl (by omega))]

theorem stripTwos_spec : ∀ (fuel m e : Nat),
    (stripTwos fuel m e).2 ≤ e ∧ (stripTwos fuel m e).1 * 2 ^ (e - (stripTwos fuel m e).2) = m := by
  intro fuel
  induction fuel with
  | zero => intro m e; simp [stripTwos]
  | succ fuel ih =>
    intro m e
    rw [stripTwos]
    split
    · simp
    · rename_i hc
      obtain ⟨i1, i2⟩ := ih (m / 2) (e - 1)
      refine ⟨by omega, ?_⟩
      have e1 : e - (stripTwos fuel (m / 2) (e - 1)).2 =
          (e - 1 - (stripTwos fuel (m / 2) (e - 1)).2) + 1 := by omega
      rw [e1, pow_succ, ← Nat.mul_assoc, i2]
      omega

/-- The float64 quotient of two integers below `2 ^ 53`, rounded up, is the
ceiling of the quotient of the integers. -/
theorem ceil_float64Value (A B n : Nat) (hA : A < 2 ^ 53) (hB : 2 ≤ B) (hB2 : B ≤ 2 ^ 53)
    (hn1 : A ≤ (n + 1) * B) (hn2 : n * B < A) :
    intOfFloat64 (mathCeil (float64Value false A B)) = ((n + 1 : Nat) : Int) := by
  have hA1 : 1 ≤ A := by omega
  obtain ⟨f1, f2, f3⟩ := floorLog2_le A B hA1 (by omega)
  generalize hL : floorLog2 A B = L at f1 f2 f3
  have hlb : log2 B ≤ 53 := by
    have h1 := (log2_spec B (by omega)).1
    by_contra hcon
    have h54 : 2 ^ 54 ≤ 2 ^ log2 B := Nat.pow_le_pow_right (by omega) (by omega)
    omega
  have hL1 : L ≤ 51 := by
    by_contra hcon
    have h0 : 0 ≤ L := by omega
    have h1 := f1 h0
    have h52 : 2 ^ 52 ≤ 2 ^ L.toNat := Nat.pow_le_pow_right (by omega) (by omega)
    have h2 : B * 2 ^ 52 ≤ B * 2 ^ L.toNat := Nat.mul_le_mul_left _ h52
    omega
  have hL2 : -54 ≤ L := by omega
  obtain ⟨k, hk⟩ : ∃ k : Nat, (k : Int) = 52 - L := ⟨(52 - L).toNat, by omega⟩
  have hk1 : 1 ≤ k := by omega
  have he : max (L - 52) (-1074) = -(k : Int) := by omega
  have hpos : ∀ j : Nat, 0 < 2 ^ j := fun j => Nat.pow_pos (by omega)
  have hBk : B < 2 * 2 ^ k := by
    rcases Int.lt_or_le L 0 with h | h
    · have h1 := f2 h
      have e : k + 1 = 53 + (-L).toNat := by omega
      have e2 : 2 * 2 ^ k = 2 ^ 53 * 2 ^ (-L).toNat := by
        rw [← pow_add, ← e, pow_succ, Nat.mul_comm]
      have h2 : A * 2 ^ (-L).toNat < 2 ^ 53 * 2 ^ (-L).toNat :=
        Nat.mul_lt_mul_of_pos_right hA (hpos _)
      omega
    · have h1 := f1 h
      have e : 53 = L.toNat + (k + 1) := by omega
      have e2 : (2 : Nat) ^ 53 = 2 ^ L.toNat * (2 * 2 ^ k) := by
        rw [Nat.mul_comm 2, ← pow_succ, ← pow_add, ← e]
      by_contra hcon
      have h2 : 2 * 2 ^ k * 2 ^ L.toNat ≤ B * 2 ^ L.toNat :=
        Nat.mul_le_mul_right _ (by omega)
      rw [Nat.mul_comm (2 * 2 ^ k)] at h2
      omega
  have hm1 := roundHalfEven_le (A * 2 ^ k) B ((n + 1) * 2 ^ k) (by omega)
    (by
      have h1 := Nat.mul_le_mul_right (2 ^ k) hn1
      rwa [Nat.mul_right_comm] at h1)
  have hm2 := lt_roundHalfEven (A * 2 ^ k) B (n * 2 ^ k) (2 ^ k) (by omega)
    (by
      have h0 : n * B + 1 ≤ A := hn2
      have h1 := Nat.mul_le_mul_right (2 ^ k) h0
      rwa [Nat.add_mul, Nat.one_mul, Nat.mul_right_comm] at h1)
    hBk
  generalize hm : roundHalfEven (A * 2 ^ k) B = m at hm1 hm2
  obtain ⟨s1, s2⟩ := stripTwos_spec k m k
  generalize hr : stripTwos k m k = r at s1 s2
  have hval : float64Value false A B =
      if r.2 = 0 then some (float64Integer false r.1) else some (Value.frac (r.1 : Int) r.2) := by
    have hkn : (-(-(k : Int))).toNat = k := by omega
    unfold float64Value
    rw [if_neg (by omega), if_neg (by omega)]
    simp only [hL, he]
    rw [if_neg (by omega)]
    simp only [hkn, hm, hr, signed, Bool.false_eq_true, if_false]
  rw [hval]
  obtain ⟨X, j⟩ := r
  simp only [] at s1 s2 ⊢
  have hsplit : 2 ^ k = 2 ^ j * 2 ^ (k - j) := by
    rw [← pow_add]; congr 1; omega
  have hP := hpos (k - j)
  have hX1 : X ≤ (n + 1) * 2 ^ j := by
    have h1 : X * 2 ^ (k - j) ≤ (n + 1) * 2 ^ j * 2 ^ (k - j) := by
      rw [s2, Nat.mul_assoc, ← hsplit]; exact hm1
    exact Nat.le_of_mul_le_mul_right h1 hP
  have hX2 : n * 2 ^ j < X := by
    have h1 : n * 2 ^ j * 2 ^ (k - j) < X * 2 ^ (k - j) := by
      rw [s2, Nat.mul_assoc, ← hsplit]; exact hm2
    exact Nat.lt_of_mul_lt_mul_right h1
  have hn53 : n < 2 ^ 53 := by
    rcases Nat.eq_zero_or_pos n with h0 | h0
    · omega
    · have := Nat.le_mul_of_pos_right n (by omega : 0 < B)
      omega
  by_cases hj : j = 0
  · subst hj
    simp only [pow_zero, Nat.mul_one] at hX1 hX2
    have hX53 : X ≤ 2 ^ 53 := by omega
    simp only [if_true, float64Integer, if_pos hX53, mathCeil, intOfFloat64, signed,
      Bool.false_eq_true, if_false]
    rw [if_pos (by unfold minInt64 maxInt64; omega)]
    omega
  · simp only [hj, if_false, mathCeil, intOfFloat64]
    rw [if_pos (by
      have hD : (0 : Int) < 2 ^ j := by positivity
      have c1 : ((X : Nat) : Int) ≤ ((n : Int) + 1) * 2 ^ j := by exact_mod_cast hX1
      have c2 : (n : Int) * 2 ^ j < (X : Int) := by exact_mod_cast hX2
      have g1 : -((n : Int) + 1) ≤ (-(X : Int)) / 2 ^ j := by
        rw [Int.le_ediv_iff_mul_le hD]; linarith
      have g2 : (-(X : Int)) / 2 ^ j < -(n : Int) := by
        rw [Int.ediv_lt_iff_lt_mul hD]; linarith
      unfold minInt64 maxInt64
      omega)]
    have hD : (0 : Int) < 2 ^ j := by positivity
    have c1 : ((X : Nat) : Int) ≤ ((n : Int) + 1) * 2 ^ j := by exact_mod_cast hX1
    have c2 : (n : Int) * 2 ^ j < (X : Int) := by exact_mod_cast hX2
    have g1 : -((n : Int) + 1) ≤ (-(X : Int)) / 2 ^ j := by
      rw [Int.le_ediv_iff_mul_le hD]; linarith
    have g2 : (-(X : Int)) / 2 ^ j < -(n : Int) := by
      rw [Int.ediv_lt_iff_lt_mul hD]; linarith
    push_cast
    omega

theorem float64OfInt_exact (n : Int) (h : n.natAbs ≤ 2 ^ 53) :
    float64OfInt n = some (Value.num n) := by
  unfold float64OfInt float64Value
  rw [if_pos ⟨rfl, h⟩]
  congr 2
  unfold signed
  by_cases hn : n < 0
  · simp only [hn, decide_True, if_true]; omega
  · simp only [hn, decide_False, Bool.false_eq_true, if_false]; omega

/-- The number of pages `NewOffsetPaging` computes for a number of records
below `2 ^ 53`. -/
theorem totalPage_spec (page : Int) (orderFields : List String) (A B : Nat)
    (hA : A < 2 ^ 53) (hB : 1 ≤ B) (hB2 : B ≤ 2 ^ 53) :
    (NewOffsetPaging page (A : Int) orderFields [WithOffsetLimit (B : Int)]).totalPage =
      (((A + B - 1) / B : Nat) : Int) := by
  have e1 := float64OfInt_exact (A : Int) (by simp; omega)
  have e2 := float64OfInt_exact (B : Int) (by simp; omega)
  have hb0 : ¬ (B : Int) = 0 := by omega
  have hq : (NewOffsetPaging page (A : Int) orderFields [WithOffsetLimit (B : Int)]).totalPage =
      intOfFloat64 (mathCeil (float64Value false A B)) := by
    have hs : (decide ((A : Int) < 0) != decide ((B : Int) < 0)) = false := by
      have h1 : ¬ (A : Int) < 0 := by omega
      have h2 : ¬ (B : Int) < 0 := by omega
      simp [h1, h2]
    simp [NewOffsetPaging, WithOffsetLimit, e1, e2, float64Quotient, integerOfFloat64, hb0, hs]
  rw [hq]
  by_cases hB1 : B = 1
  · subst hB1
    have : float64Value false A 1 = some (Value.num (A : Int)) := by
      unfold float64Value
      rw [if_pos ⟨rfl, by omega⟩]
      rfl
    rw [this]
    simp only [mathCeil, intOfFloat64]
    rw [if_pos (by unfold minInt64 maxInt64; omega)]
    simp
  · by_cases hA0 : A = 0
    · subst hA0
      have : float64Value false 0 B = some (Value.num 0) := by
        unfold float64Value
        rw [if_neg (by omega), if_pos rfl]
      rw [this]
      have h0 : (0 + B - 1) / B = 0 := Nat.div_eq_of_lt (by omega)
      rw [h0]
      rfl
    · have hdm := Nat.div_add_mod (A - 1) B
      have hr : (A - 1) % B < B := Nat.mod_lt _ (by omega)
      have h1 : (A + B - 1) / B = (A - 1) / B + 1 := by
        have : A + B - 1 = (A - 1) + B := by omega
        rw [this, Nat.add_div_right _ (by omega)]
      rw [h1]
      have hc : B * ((A - 1) / B) = (A - 1) / B * B := Nat.mul_comm _ _
      exact ceil_float64Value A B ((A - 1) / B) hA (by omega) hB2
        (by rw [Nat.add_mul]; omega) (by omega)

/-- C18 as stated fails: for 9007199254740993 records (`2 ^ 53 + 1`) and the
limit 1, `NewOffsetPaging` computes 9007199254740992 pages, which with one
record a page do not hold the records, because `float64(totalRecords)` is
the float64 nearest to the number of records; the least `n` with
`n * limit ≥ totalRecords` is 9007199254740993. -/
theorem C18_counterexample :
    float64OfInt 9007199254740993 = some (Value.num 9007199254740992) ∧
    (NewOffsetPaging 1 9007199254740993 ["id"] [WithOffsetLimit 1]).totalPage =
      9007199254740992 ∧
    (NewOffsetPaging 1 9007199254740993 ["id"] [WithOffsetLimit 1]).totalPage * 1 <
      9007199254740993 :=
  ⟨rfl, by decide, by decide⟩

/-- C18, amended: for a number of records from 0 to below `2 ^ 53` and a
limit from 1 to `2 ^ 53` set through `WithOffsetLimit`, the `totalPage` that
`NewOffsetPaging` computes is the least integer `n` with
`n * limit ≥ totalRecords`; it is 0 when there is no record. -/
theorem C18_total_page_is_ceiling (page totalRecords limit : Int) (orderFields : List String)
    (h0 : 0 ≤ totalRecords) (h1 : totalRecords < 2 ^ 53) (h2 : 1 ≤ limit)
    (h3 : limit ≤ 2 ^ 53) :
    totalRecords ≤
      (NewOffsetPaging page totalRecords orderFields [WithOffsetLimit limit]).totalPage * limit ∧
    (∀ m : Int, totalRecords ≤ m * limit →
      (NewOffsetPaging page totalRecords orderFields [WithOffsetLimit limit]).totalPage ≤ m) ∧
    (totalRecords = 0 →
      (NewOffsetPaging page totalRecords orderFields [WithOffsetLimit limit]).totalPage = 0) := by
  obtain ⟨A, rfl⟩ := Int.eq_ofNat_of_zero_le h0
  obtain ⟨B, rfl⟩ := Int.eq_ofNat_of_zero_le (by omega : (0 : Int) ≤ limit)
  have hA : A < 2 ^ 53 := by exact_mod_cast h1
  have hB : 1 ≤ B := by exact_mod_cast h2
  have hB2 : B ≤ 2 ^ 53 := by exact_mod_cast h3
  rw [totalPage_spec page orderFields A B hA hB hB2]
  have hdm := Nat.div_add_mod (A + B - 1) B
  have hr : (A + B - 1) % B < B := Nat.mod_lt _ (by omega)
  generalize (A + B - 1) / B = n at hdm
  have c1 : A ≤ n * B := by
    have : B * n = n * B := Nat.mul_comm _ _
    omega
  have c2 : n * B ≤ A + B - 1 := by
    have : B * n = n * B := Nat.mul_comm _ _
    omega
  refine ⟨by exact_mod_cast c1, ?_, ?_⟩
  · intro m hm
    by_contra hcon
    have h4 : m + 1 ≤ (n : Int) := by omega
    have h5 : (m + 1) * (B : Int) ≤ (n : Int) * (B : Int) :=
      Int.mul_le_mul_of_nonneg_right h4 (by omega)
    have h6 : ((n * B : Nat) : Int) ≤ ((A + B - 1 : Nat) : Int) := by exact_mod_cast c2
    have h7 : (m + 1) * (B : Int) = m * (B : Int) + (B : Int) := by ring
    push_cast at h6
    omega
  · intro hz
    have hA0 : A = 0 := by exact_mod_cast hz
    subst hA0
    have : n = 0 := by
      rcases Nat.eq_zero_or_pos n with h | h
      · exact h
      · have : B * 1 ≤ B * n := Nat.mul_le_mul_left _ h
        omega
    rw [this]; rfl

/-- C18, amended, at 95 records and the limit 10: ten pages hold the
records, nine do not. -/
theorem C18_total_page_is_ceiling_witness :
    (NewOffsetPaging 1 95 ["id"] [WithOffsetLimit 10]).totalPage = 10 ∧
    (95 : Int) ≤ (NewOffsetPaging 1 95 ["id"] [WithOffsetLimit 10]).totalPage * 10 ∧
    (NewOffsetPaging 1 0 ["id"] [WithOffsetLimit 10]).totalPage = 0 :=
  ⟨by decide,
    (C18_total_page_is_ceiling 1 95 10 ["id"] (by decide) (by decide) (by decide)
      (by decide)).1,
    (C18_total_page_is_ceiling 1 0 10 ["id"] (by decide) (by decide) (by decide)
      (by decide)).2.2 rfl⟩

/-! ## The leaf `NotBetween` and the nil first argument of `In` -/

/-- C21, the code at the failing input: `NotBetween("age", "1", "9")` has the
fragment "ageNOT BETWEEN ? AND ?", the field name run into the keyword,
whereas `Between("age", "1", "9")` has "age BETWEEN ? AND ?"; for every field
the fragment of `NotBetween` is the field name followed at once by "NOT
BETWEEN ? AND ?", which is not the field name, a space and "NOT BETWEEN ? AND
?". The parameters are the two bounds in order. -/
theorem C21_not_between_lacks_the_space :
    (NotBetween "age" "1" "9").query = "ageNOT BETWEEN ? AND ?" ∧
    (Between "age" "1" "9").query = "age BETWEEN ? AND ?" ∧
    ∀ field lower upper : String,
      (NotBetween field lower upper).query = field ++ "NOT BETWEEN ? AND ?" ∧
      (NotBetween field lower upper).query ≠ field ++ " NOT BETWEEN ? AND ?" ∧
      (Between field lower upper).query = field ++ " BETWEEN ? AND ?" ∧
      (NotBetween field lower upper).params = [Value.str lower, Value.str upper] ∧
      (Between field lower upper).params = [Value.str lower, Value.str upper] := by
  refine ⟨by decide, by decide, fun field lower upper => ⟨rfl, ?_, rfl, rfl, rfl⟩⟩
  have e : (NotBetween field lower upper).query = field ++ "NOT BETWEEN ? AND ?" := rfl
  rw [e, Ne, append_left_cancel_iff]
  decide

/-- C22: with a nil first argument `appendSliceWhereIN` returns the variadic
values as they are, so `(nil, 1, 2, 3)` gives `[1, 2, 3]`, and `In` with a nil
first argument binds the slice of the variadic values alone. -/
theorem C22_nil_first_argument_is_dropped (field : String) (values : List Value) :
    appendSliceWhereIN Value.null values = values ∧
    appendSliceWhereIN Value.null [Value.num 1, Value.num 2, Value.num 3] =
      [Value.num 1, Value.num 2, Value.num 3] ∧
    (In field Value.null values).params = [Value.arr values] ∧
    (NotIn field Value.null values).params = [Value.arr values] :=
  ⟨rfl, rfl, rfl, rfl⟩

/-! ## The sort order of a pager -/

theorem foldl_opts_sortOrder (opts : List CursorPagingOpt)
    (hopts : ∀ o ∈ opts, (∃ s, o = WithCursorSortOrder s) ∨ ∃ n, o = WithCursorLimit n) :
    ∀ c0 : cursorPaging,
      ((c0.sortOrder = "asc" ∨ c0.sortOrder = "desc") ∨ ∃ s, WithCursorSortOrder s ∈ opts) →
      (opts.foldl (fun cp opt => opt cp) c0).sortOrder = "asc" ∨
        (opts.foldl (fun cp opt => opt cp) c0).sortOrder = "desc" := by
  induction opts with
  | nil =>
    intro c0 h
    rcases h with h | ⟨s, hs⟩
    · exact h
    · simp at hs
  | cons o rest ih =>
    intro c0 h
    have hrest := fun o h => hopts o (List.mem_cons_of_mem _ h)
    rcases hopts o (List.mem_cons_self _ _) with ⟨s, rfl⟩ | ⟨n, rfl⟩
    · exact ih hrest (WithCursorSortOrder s c0) (Or.inl (sortOrderFromString_cases s))
    · refine ih hrest (WithCursorLimit n c0) ?_
      rcases h with h | ⟨s, hs⟩
      · exact Or.inl h
      · rcases List.mem_cons.mp hs with e | e
        · have h1 := congrFun e { field := "", cursor := none, isFirstPage := true }
          have h2 := congrArg cursorPaging.limit h1
          have h3 := congrArg cursorPaging.sortOrder h1
          simp only [WithCursorSortOrder, WithCursorLimit] at h2 h3
          rcases sortOrderFromString_cases s with h4 | h4 <;> rw [h4] at h3 <;>
            exact absurd h3 (by decide)
        · exact Or.inr ⟨s, e⟩

/-- `Build` keeps a sort order that is asc or desc among asc and desc. -/
theorem Build_sortOrder (c : cursorPaging) (tx : Tx)
    (h : c.sortOrder = "asc" ∨ c.sortOrder = "desc") :
    (c.Build tx).1.sortOrder = "asc" ∨ (c.Build tx).1.sortOrder = "desc" := by
  unfold cursorPaging.Build
  split
  · exact h
  · split
    · exact h
    · split
      · exact h
      · simp only [cursorPaging.finish]
        split
        · rename_i hne
          generalize (match getKey _ "points_next" with
            | some (Value.bool true) => true
            | _ => false) = b at hne ⊢
          rcases h with h | h <;> cases b <;>
            simp_all [paginationOperator, sortOrderASC, sortOrderDESC]
        · exact h

/-- C23 as stated fails: without the option `WithCursorSortOrder` the pager
that `NewCursorPaging` returns has the empty sort order, which is neither asc
nor desc, and `Build` leaves it empty. -/
theorem C23_counterexample :
    (NewCursorPaging none "id" [WithCursorLimit 10]).sortOrder = "" ∧
    ((NewCursorPaging none "id" [WithCursorLimit 10]).Build []).1.sortOrder = "" ∧
    ((NewCursorPaging none "id" [WithCursorLimit 10]).Build []).2 =
      [Op.Order (Value.str "id "), Op.Limit 11] ∧
    "" ≠ sortOrderASC ∧ "" ≠ sortOrderDESC :=
  ⟨rfl, rfl, rfl, by decide, by decide⟩

/-- C23, amended: `sortOrderFromString` maps "desc" to desc and every other
string, "asc" among them, to asc; for every raw token, field and list of
options of the package that holds a `WithCursorSortOrder`, the pager that
`NewCursorPaging` returns has a sort order that is asc or desc, and so has
the pager after `Build`. -/
theorem C23_sort_order_is_asc_or_desc (cursor : Option String) (field : String)
    (opts : List CursorPagingOpt) (tx : Tx) (s : String)
    (hopts : ∀ o ∈ opts, (∃ s, o = WithCursorSortOrder s) ∨ ∃ n, o = WithCursorLimit n)
    (hs : WithCursorSortOrder s ∈ opts) :
    ((NewCursorPaging cursor field opts).sortOrder = "asc" ∨
      (NewCursorPaging cursor field opts).sortOrder = "desc") ∧
    (((NewCursorPaging cursor field opts).Build tx).1.sortOrder = "asc" ∨
      ((NewCursorPaging cursor field opts).Build tx).1.sortOrder = "desc") ∧
    sortOrderFromString "asc" = "asc" ∧ sortOrderFromString "desc" = "desc" ∧
    ∀ t : String, t ≠ "desc" → sortOrderFromString t = "asc" := by
  have h1 := foldl_opts_sortOrder opts hopts
    { cursor := cursor, field := field, isFirstPage := cursor.isNone } (Or.inr ⟨s, hs⟩)
  refine ⟨h1, Build_sortOrder _ tx h1, rfl, rfl, fun t ht => ?_⟩
  unfold sortOrderFromString
  split
  · rfl
  · rfl

/-- C23, amended, on the pager of the backward token of the row 11, declared
descending: the sort order is desc before `Build` and asc after it. -/
theorem C23_sort_order_is_asc_or_desc_witness :
    (NewCursorPaging (some "eyJpZCI6MTEsInBvaW50c19uZXh0IjpmYWxzZX0=") "id"
      [WithCursorSortOrder "desc", WithCursorLimit 10]).sortOrder = "desc" ∧
    ((NewCursorPaging (some "eyJpZCI6MTEsInBvaW50c19uZXh0IjpmYWxzZX0=") "id"
      [WithCursorSortOrder "desc", WithCursorLimit 10]).Build []).1.sortOrder = "asc" ∧
    (((NewCursorPaging (some "eyJpZCI6MTEsInBvaW50c19uZXh0IjpmYWxzZX0=") "id"
      [WithCursorSortOrder "desc", WithCursorLimit 10]).Build []).1.sortOrder = "asc" ∨
    ((NewCursorPaging (some "eyJpZCI6MTEsInBvaW50c19uZXh0IjpmYWxzZX0=") "id"
      [WithCursorSortOrder "desc", WithCursorLimit 10]).Build []).1.sortOrder = "desc") :=
  ⟨rfl, by decide,
    (C23_sort_order_is_asc_or_desc (some "eyJpZCI6MTEsInBvaW50c19uZXh0IjpmYWxzZX0=") "id"
      [WithCursorSortOrder "desc", WithCursorLimit 10] [] "desc"
      (by
        intro o ho
        simp only [List.mem_cons, List.mem_singleton, List.not_mem_nil, or_false] at ho
        rcases ho with rfl | rfl
        · exact Or.inl ⟨"desc", rfl⟩
        · exact Or.inr ⟨10, rfl⟩)
      (List.mem_cons_self _ _)).2.1⟩

/-! ## Calling `Build` again -/

/-- C27, the code at the failing input: the pager of the token of `{"id": 11,
"points_next": false}`, declared ascending, emits on the first call "id < ?"
bound to 11, "id desc" and the limit 11, as the table of the specification
has it for a backward page. The first call has stored the effective order in
the field that holds the declared order (`c.sortOrder = order`), so the second
call reads desc as the declared order and emits "id > ?" bound to 11 and
"id asc". The pager of the forward token of the row 10 emits the same chain
on both calls. -/
theorem C27_second_build_of_backward_token_differs :
    (samplePager (some "eyJpZCI6MTEsInBvaW50c19uZXh0IjpmYWxzZX0=")).sortOrder = "asc" ∧
    decodeCursor "eyJpZCI6MTEsInBvaW50c19uZXh0IjpmYWxzZX0=" =
      Except.ok [("id", Value.num 11), ("points_next", Value.bool false)] ∧
    ((samplePager (some "eyJpZCI6MTEsInBvaW50c19uZXh0IjpmYWxzZX0=")).Build []).2 =
      [Op.Where "id < ?" [Value.num 11], Op.Order (Value.str "id desc"), Op.Limit 11] ∧
    ((samplePager (some "eyJpZCI6MTEsInBvaW50c19uZXh0IjpmYWxzZX0=")).Build []).1.sortOrder =
      "desc" ∧
    (((samplePager (some "eyJpZCI6MTEsInBvaW50c19uZXh0IjpmYWxzZX0=")).Build []).1.Build []).2 =
      [Op.Where "id > ?" [Value.num 11], Op.Order (Value.str "id asc"), Op.Limit 11] ∧
    ((samplePager (some "eyJpZCI6MTAsInBvaW50c19uZXh0Ijp0cnVlfQ==")).Build []).2 =
      [Op.Where "id > ?" [Value.num 10], Op.Order (Value.str "id asc"), Op.Limit 11] ∧
    (((samplePager (some "eyJpZCI6MTAsInBvaW50c19uZXh0Ijp0cnVlfQ==")).Build []).1.Build []).2 =
      [Op.Where "id > ?" [Value.num 10], Op.Order (Value.str "id asc"), Op.Limit 11] :=
  ⟨rfl, rfl, rfl, by decide, rfl, rfl, rfl⟩

/-! ## `And` and `Or` write into their arguments -/

/-- C26, the code at the failing input: with `p = Or(b, c)`, whose fragment is
"b OR c", the call `And(p)` changes the fragment of `p` itself to "(b OR c)"
(parameters and combinator stay), and composing `p` a second time renders
"((b OR c))" where the first time rendered "(b OR c)". -/
theorem C26_and_changes_its_argument :
    ∃ h p h1 r1, Or leafHeap [1, 2] = some (h, p) ∧
      (h[p]?).map Cond.query = some "b OR c" ∧
      And h [p] = some (h1, r1) ∧
      (h1[p]?).map Cond.query = some "(b OR c)" ∧
      (h1[p]?).map Cond.operator = (h[p]?).map Cond.operator ∧
      (h1[p]?).map (fun c => c.params.length) = (h[p]?).map (fun c => c.params.length) ∧
      fragmentOf (And h [p]) = some "(b OR c)" ∧
      fragmentOf (And h1 [p]) = some "((b OR c))" :=
  ⟨_, _, _, _, rfl, by decide, rfl, by decide, by decide, by decide, by decide, by decide⟩

/-! ## The pages that hold rows -/

/-- C30 as stated fails above `2 ^ 53`: for 9007199254740993 records and the
limit 1, page 9007199254740993 has the offset 9007199254740992, which is
below the number of records, but is above the `totalPage` that
`NewOffsetPaging` computes, 9007199254740992. It fails as well when the
product does not fit a Go `int`: for 95 records and the limit 4, page
4611686018427387905 (`2 ^ 62 + 1`) has the offset 0, which is below the
number of records, and is above the `totalPage`, 24. -/
theorem C30_counterexample :
    (NewOffsetPaging 9007199254740993 9007199254740993 ["id"] [WithOffsetLimit 1]).Build [] =
      [Op.Order (Value.str "id "), Op.Limit 1, Op.Offset 9007199254740992] ∧
    (9007199254740992 : Int) < 9007199254740993 ∧
    (NewOffsetPaging 9007199254740993 9007199254740993 ["id"] [WithOffsetLimit 1]).totalPage =
      9007199254740992 ∧
    ¬ (9007199254740993 ≤
      (NewOffsetPaging 9007199254740993 9007199254740993 ["id"] [WithOffsetLimit 1]).totalPage) ∧
    (NewOffsetPaging 4611686018427387905 95 ["id"] [WithOffsetLimit 4]).Build [] =
      [Op.Order (Value.str "id "), Op.Limit 4, Op.Offset 0] ∧
    (0 : Int) < 95 ∧
    (NewOffsetPaging 4611686018427387905 95 ["id"] [WithOffsetLimit 4]).totalPage = 24 ∧
    ¬ (4611686018427387905 ≤
      (NewOffsetPaging 4611686018427387905 95 ["id"] [WithOffsetLimit 4]).totalPage) ∧
    isInt64 4611686018427387905 :=
  ⟨rfl, by decide, by decide, by decide, rfl, by decide, by decide, by decide, by decide⟩

/-- C30, amended: for a number of records from 1 to below `2 ^ 53`, a limit
from 1 to `2 ^ 53` set through `WithOffsetLimit` and every page, those below
1 included, for which `(page - 1) * limit` is a Go `int`, the offset that
`Build` emits is `(page - 1) * limit` and it is below the number of records
exactly when the page is at most the `totalPage` that `NewOffsetPaging`
computes. -/
theorem C30_offset_inside_iff_page_le_total (page totalRecords limit : Int)
    (orderFields : List String) (tx : Tx) (h0 : 1 ≤ totalRecords)
    (h1 : totalRecords < 2 ^ 53) (h2 : 1 ≤ limit) (h3 : limit ≤ 2 ^ 53)
    (h4 : isInt64 ((page - 1) * limit)) :
    ((NewOffsetPaging page totalRecords orderFields [WithOffsetLimit limit]).Build tx).drop
        (tx.length + 1) = [Op.Limit limit, Op.Offset ((page - 1) * limit)] ∧
    ((page - 1) * limit < totalRecords ↔
      page ≤ (NewOffsetPaging page totalRecords orderFields [WithOffsetLimit limit]).totalPage) := by
  constructor
  · simp only [NewOffsetPaging, WithOffsetLimit, List.foldl, offsetPaging.Build]
    rw [wrapInt_sub_one_mul, wrapInt_of_isInt64 h4]
    simp
  obtain ⟨A, rfl⟩ := Int.eq_ofNat_of_zero_le (by omega : (0 : Int) ≤ totalRecords)
  obtain ⟨B, rfl⟩ := Int.eq_ofNat_of_zero_le (by omega : (0 : Int) ≤ limit)
  have hA : A < 2 ^ 53 := by exact_mod_cast h1
  have hB : 1 ≤ B := by exact_mod_cast h2
  have hB2 : B ≤ 2 ^ 53 := by exact_mod_cast h3
  rw [totalPage_spec page orderFields A B hA hB hB2]
  have hdm := Nat.div_add_mod (A + B - 1) B
  have hr : (A + B - 1) % B < B := Nat.mod_lt _ (by omega)
  generalize (A + B - 1) / B = n at hdm
  have hcomm : B * n = n * B := Nat.mul_comm _ _
  have c1 : ((A : Nat) : Int) ≤ (n : Int) * (B : Int) := by
    have : A ≤ n * B := by omega
    exact_mod_cast this
  have c2 : (n : Int) * (B : Int) ≤ (A : Int) + (B : Int) - 1 := by
    have : n * B + 1 ≤ A + B := by omega
    have h5 : ((n * B + 1 : Nat) : Int) ≤ ((A + B : Nat) : Int) := by exact_mod_cast this
    push_cast at h5
    omega
  constructor
  · intro hlt
    by_contra hcon
    have h5 : (n : Int) ≤ page - 1 := by omega
    have h6 : (n : Int) * (B : Int) ≤ (page - 1) * (B : Int) :=
      Int.mul_le_mul_of_nonneg_right h5 (by omega)
    omega
  · intro hle
    have h6 : page * (B : Int) ≤ (n : Int) * (B : Int) :=
      Int.mul_le_mul_of_nonneg_right hle (by omega)
    have h7 : (page - 1) * (B : Int) = page * (B : Int) - (B : Int) := by ring
    omega

/-- C30, amended, at 95 records and the limit 10: page 10, the last one, has
the offset 90, inside the data; page 11 has the offset 100, outside. -/
theorem C30_offset_inside_iff_page_le_total_witness :
    (NewOffsetPaging 10 95 ["id"] [WithOffsetLimit 10]).totalPage = 10 ∧
    isInt64 (((10 : Int) - 1) * 10) ∧ isInt64 (((11 : Int) - 1) * 10) ∧
    ((NewOffsetPaging 10 95 ["id"] [WithOffsetLimit 10]).Build []).drop 1 =
      [Op.Limit 10, Op.Offset 90] ∧
    (((10 : Int) - 1) * 10 < 95 ↔
      10 ≤ (NewOffsetPaging 10 95 ["id"] [WithOffsetLimit 10]).totalPage) ∧
    (((11 : Int) - 1) * 10 < 95 ↔
      11 ≤ (NewOffsetPaging 11 95 ["id"] [WithOffsetLimit 10]).totalPage) ∧
    ¬ (((11 : Int) - 1) * 10 < 95) :=
  ⟨by decide, by decide, by decide,
    (C30_offset_inside_iff_page_le_total 10 95 10 ["id"] [] (by decide) (by decide)
      (by decide) (by decide) (by decide)).1,
    (C30_offset_inside_iff_page_le_total 10 95 10 ["id"] [] (by decide) (by decide)
      (by decide) (by decide) (by decide)).2,
    (C30_offset_inside_iff_page_le_total 11 95 10 ["id"] [] (by decide) (by decide)
      (by decide) (by decide) (by decide)).2,
    by decide⟩

/-! ## The order in which a builder applies its parts -/

theorem Cond_Build_spec (c : Cond) (tx : Tx) :
    c.Build tx = tx ++ ((c.selectField.map Op.Select).toList ++
      ((c.omitField.map Op.Omit).toList ++
      ((if notEmptyString c.query then [Op.Where c.query c.params] else []) ++
      ((c.limit.map Op.Limit).toList ++
      ((c.offset.map Op.Offset).toList ++
      (if c.order.isNil then [] else [Op.Order c.order])))))) := by
  obtain ⟨sf, om, l, o, q, ps, op, ord⟩ := c
  cases sf <;> cases om <;> cases l <;> cases o <;> cases hq : notEmptyString q <;>
    cases ho : ord.isNil <;> simp [Cond.Build, hq, ho]

theorem BuildAll_foldlM (bs : List Builder) :
    ∀ tx : Tx, Builder.BuildAll bs tx = bs.foldlM (fun tx v => v.Build tx) tx := by
  induction bs with
  | nil => intro tx; rfl
  | cons v rest ih =>
    intro tx
    rw [Builder.BuildAll, List.foldlM_cons]
    cases h : v.Build tx with
    | none => rfl
    | some tx1 => simp only [ih]; rfl

theorem ownWheres_append (a b : Tx) : ownWheres (a ++ b) = ownWheres a ++ ownWheres b := by
  simp [ownWheres]

theorem BuildAll_nested (bs : List Builder) (hb : ∀ b ∈ bs, b.isNested = true) :
    ∀ tx : Tx, Builder.BuildAll bs tx = some (tx ++ bs.flatMap nestedOps) ∧
      ownWheres (bs.flatMap nestedOps) = [] := by
  induction bs with
  | nil => intro tx; simp [Builder.BuildAll, ownWheres]
  | cons v rest ih =>
    intro tx
    have hv := hb v (List.mem_cons_self _ _)
    have hrest := ih fun b h => hb b (List.mem_cons_of_mem _ h)
    have key : v.Build tx = some (tx ++ nestedOps v) ∧ ownWheres (nestedOps v) = [] := by
      cases v with
      | preload p =>
        cases p with
        | none => simp [Builder.isNested] at hv
        | some p =>
          simp only [Builder.isNested] at hv
          simp [Builder.Build, preload.Build, hv, nestedOps, ownWheres]
      | join p =>
        cases p with
        | none => simp [Builder.isNested] at hv
        | some p =>
          simp only [Builder.isNested] at hv
          simp [Builder.Build, join.Build, hv, nestedOps, ownWheres]
      | cond c => simp [Builder.isNested] at hv
      | associate a l => simp [Builder.isNested] at hv
      | cursor c => simp [Builder.isNested] at hv
      | offset c => simp [Builder.isNested] at hv
    rw [Builder.BuildAll, key.1]
    simp only []
    rw [(hrest _).1]
    simp [List.flatMap_cons, ownWheres_append, key.2, (hrest tx).2]

/-- C24: `Cond.Build` appends to the chain, in this order and each only when
it is set, the selected columns, the omitted columns, the filter with its
parameters (only when the fragment is not blank), the limit, the offset and
the order; `associate.Build` applies its predicate, when it has one, and then
the builders of its list from left to right; and when these are builders
made by `Preload` or `Join`, each adds one operation that holds its predicate
in a sub-chain of its own, so the filters of the chain itself are those of
the predicate of the `associate` and no other. -/
theorem C24_build_applies_parts_in_order (c : Cond) (tx : Tx) (assoCond : Option Cond)
    (bs : List Builder) :
    c.Build tx = tx ++ ((c.selectField.map Op.Select).toList ++
      ((c.omitField.map Op.Omit).toList ++
      ((if notEmptyString c.query then [Op.Where c.query c.params] else []) ++
      ((c.limit.map Op.Limit).toList ++
      ((c.offset.map Op.Offset).toList ++
      (if c.order.isNil then [] else [Op.Order c.order])))))) ∧
    (Builder.associate assoCond bs).Build tx =
      bs.foldlM (fun tx v => v.Build tx) (callback assoCond tx) ∧
    ((∀ b ∈ bs, b.isNested = true) →
      (Builder.associate assoCond bs).Build tx =
        some (callback assoCond tx ++ bs.flatMap nestedOps) ∧
      ownWheres (callback assoCond tx ++ bs.flatMap nestedOps) =
        ownWheres (callback assoCond tx)) := by
  have e : (Builder.associate assoCond bs).Build tx =
      Builder.BuildAll bs (callback assoCond tx) := by
    rw [Builder.Build.eq_def]; rfl
  refine ⟨Cond_Build_spec c tx, ?_, fun hb => ?_⟩
  · rw [e, BuildAll_foldlM]
  · obtain ⟨h1, h2⟩ := BuildAll_nested bs hb (callback assoCond tx)
    rw [e, h1, ownWheres_append, h2, List.append_nil]
    exact ⟨rfl, rfl⟩

/-- C24 on a predicate that has every part, associated with a preload of
"Orders" filtered by "paid = ?" and a join of "Profile": the chain is the
select, the omit, the filter, the limit, the offset and the order of the
predicate, then the preload holding its own filter, then the join; the only
filter of the chain itself is "age > ?". -/
theorem C24_build_applies_parts_in_order_witness :
    (sampleCond.Associate
        [Builder.preload (some { cond := some (Equal "paid" (Value.bool true)), table := "Orders" }),
          Builder.join (some { cond := none, table := "Profile" })]).Build [] =
      some [Op.Select ["id", "name"], Op.Omit ["secret"], Op.Where "age > ?" [Value.num 18],
        Op.Limit 5, Op.Offset 10, Op.Order (Value.str "id desc"),
        Op.Preload "Orders" [Op.Where "paid = ?" [Value.bool true]], Op.Joins "Profile" []] ∧
    ownWheres [Op.Select ["id", "name"], Op.Omit ["secret"], Op.Where "age > ?" [Value.num 18],
        Op.Limit 5, Op.Offset 10, Op.Order (Value.str "id desc"),
        Op.Preload "Orders" [Op.Where "paid = ?" [Value.bool true]], Op.Joins "Profile" []] =
      [Op.Where "age > ?" [Value.num 18]] := by
  have h := (C24_build_applies_parts_in_order sampleCond [] (some sampleCond)
    [Builder.preload (some { cond := some (Equal "paid" (Value.bool true)), table := "Orders" }),
      Builder.join (some { cond := none, table := "Profile" })]).2.2
    (by
      intro b hb
      simp only [List.mem_cons, List.mem_singleton, List.not_mem_nil, or_false] at hb
      rcases hb with rfl | rfl <;> decide)
  exact ⟨h.1.trans rfl, rfl⟩

/-! ## The modifiers of the children -/

theorem copyModifiers_fields (x c : Cond) :
    (copyModifiers x c).selectField =
      (if c.selectField.isSome then c.selectField else x.selectField) ∧
    (copyModifiers x c).omitField = (if c.omitField.isSome then c.omitField else x.omitField) ∧
    (copyModifiers x c).limit = (if c.limit.isSome then c.limit else x.limit) ∧
    (copyModifiers x c).offset = (if c.offset.isSome then c.offset else x.offset) ∧
    (copyModifiers x c).order = x.order := by
  unfold copyModifiers
  cases c.selectField <;> cases c.omitField <;> cases c.limit <;> cases c.offset <;> simp

/-- The loop of `appendCondition` leaves on the receiver, for a field `f`
that `copyModifiers` copies, the value of the last child that sets it. -/
theorem appendLoop_field {α : Type} (f : Cond → Option α) (op : String)
    (hcopy : ∀ x c, f (copyModifiers x c) = if (f c).isSome then f c else f x)
    (hq : ∀ (c : Cond) (q : String), f { c with query := q } = f c)
    (hp : ∀ (c : Cond) (ps : List Value), f { c with params := ps } = f c) (as : List Nat) :
    ∀ (h : Heap) (x : Cond) (b : String) (h' : Heap) (x' : Cond) (b' : String),
      appendLoop op h x b as = some (h', x', b') →
      f x' = ((as.filterMap fun a => (h[a]?).map f).foldl
        (fun acc v => if v.isSome then v else acc) (f x)) := by
  induction as with
  | nil =>
    intro h x b h' x' b' e
    simp only [appendLoop, Option.some.injEq, Prod.mk.injEq] at e
    obtain ⟨-, rfl, -⟩ := e
    rfl
  | cons a as ih =>
    intro h x b h' x' b' e
    simp only [appendLoop] at e
    cases hget : h[a]? with
    | none => simp [hget] at e
    | some c =>
      simp only [hget] at e
      have hset : ∀ c2 : Cond, f c2 = f c →
          (as.filterMap fun i => ((h.set a c2)[i]?).map f) =
            (as.filterMap fun i => (h[i]?).map f) := by
        intro c2 hc2
        apply List.filterMap_congr
        intro i _
        by_cases hia : a = i
        · subst hia
          have hlt : a < h.length := by
            rcases Nat.lt_or_ge a h.length with h1 | h1
            · exact h1
            · rw [List.getElem?_eq_none h1] at hget; cases hget
          simp [List.getElem?_set, hlt, hget, hc2]
        · simp [List.getElem?_set, hia]
      split at e
      · have r := ih _ _ _ _ _ _ e
        rw [r, hp, hcopy]
        rw [hset _ (by split <;> simp [hq])]
        simp [List.filterMap_cons, hget]
      · have r := ih _ _ _ _ _ _ e
        rw [r, hcopy]
        simp [List.filterMap_cons, hget]

theorem foldl_lastSet {α : Type} (f : Cond → Option α) (cs : List Cond) :
    ∀ init : Option α,
      (cs.map f).foldl (fun acc v => if v.isSome then v else acc) init =
        match lastSet f cs with
        | some v => some v
        | none => init := by
  induction cs with
  | nil => intro init; rfl
  | cons c rest ih =>
    intro init
    simp only [List.map_cons, List.foldl_cons, ih, lastSet]
    cases lastSet f rest <;> cases f c <;> simp

theorem appendLoop_order (op : String) (as : List Nat) :
    ∀ (h : Heap) (x : Cond) (b : String) (h' : Heap) (x' : Cond) (b' : String),
      appendLoop op h x b as = some (h', x', b') → x'.order = x.order := by
  induction as with
  | nil =>
    intro h x b h' x' b' e
    simp only [appendLoop, Option.some.injEq, Prod.mk.injEq] at e
    obtain ⟨-, rfl, -⟩ := e
    rfl
  | cons a as ih =>
    intro h x b h' x' b' e
    simp only [appendLoop] at e
    cases hget : h[a]? with
    | none => simp [hget] at e
    | some c =>
      simp only [hget] at e
      split at e
      · rw [ih _ _ _ _ _ _ e]
        exact (copyModifiers_fields x c).2.2.2.2
      · rw [ih _ _ _ _ _ _ e]
        exact (copyModifiers_fields x c).2.2.2.2

/-- The modifiers of the result of `And` and of `Or`: the selected columns,
the omitted columns, the limit and the offset are those of the last child
that sets them; the order is never set. -/
theorem And_Or_modifiers (h : Heap) (as : List Nat) (h' : Heap) (r : Nat)
    (e : And h as = some (h', r) ∨ Or h as = some (h', r)) :
    ∃ x, h'[r]? = some x ∧
      x.selectField = lastSet Cond.selectField (children h as) ∧
      x.omitField = lastSet Cond.omitField (children h as) ∧
      x.limit = lastSet Cond.limit (children h as) ∧
      x.offset = lastSet Cond.offset (children h as) ∧
      x.order = Value.null := by
  have key : ∀ op : String, ∀ h1 x, appendCondition h {} op as = some (h1, x) →
      x.selectField = lastSet Cond.selectField (children h as) ∧
      x.omitField = lastSet Cond.omitField (children h as) ∧
      x.limit = lastSet Cond.limit (children h as) ∧
      x.offset = lastSet Cond.offset (children h as) ∧
      x.order = Value.null := by
    intro op h1 x e1
    have h0 : isEmptyString "" = true := by decide
    simp only [appendCondition, h0, Bool.not_true, Bool.and_false, Bool.false_and,
      Bool.false_eq_true, if_false] at e1
    cases hl : appendLoop op h { operator := op } "" as with
    | none => rw [hl] at e1; cases e1
    | some res =>
      obtain ⟨h2, x2, b2⟩ := res
      rw [hl] at e1
      simp only [Option.some.injEq, Prod.mk.injEq] at e1
      obtain ⟨-, rfl⟩ := e1
      have pr : ∀ {α : Type} (f : Cond → Option α),
          (as.filterMap fun a => (h[a]?).map f) = (children h as).map f := by
        intro α f
        simp [children, List.map_filterMap]
      have s1 := appendLoop_field Cond.selectField op
        (fun x c => (copyModifiers_fields x c).1) (fun _ _ => rfl) (fun _ _ => rfl) as _ _ _ _ _ _ hl
      have s2 := appendLoop_field Cond.omitField op
        (fun x c => (copyModifiers_fields x c).2.1) (fun _ _ => rfl) (fun _ _ => rfl) as _ _ _ _ _ _ hl
      have s3 := appendLoop_field Cond.limit op
        (fun x c => (copyModifiers_fields x c).2.2.1) (fun _ _ => rfl) (fun _ _ => rfl) as _ _ _ _ _ _ hl
      have s4 := appendLoop_field Cond.offset op
        (fun x c => (copyModifiers_fields x c).2.2.2.1) (fun _ _ => rfl) (fun _ _ => rfl) as _ _ _ _ _ _ hl
      have s5 := appendLoop_order op as _ _ _ _ _ _ hl
      rw [pr, foldl_lastSet] at s1 s2 s3 s4
      refine ⟨?_, ?_, ?_, ?_, s5⟩
      · simp only [s1]; cases lastSet Cond.selectField (children h as) <;> rfl
      · simp only [s2]; cases lastSet Cond.omitField (children h as) <;> rfl
      · simp only [s3]; cases lastSet Cond.limit (children h as) <;> rfl
      · simp only [s4]; cases lastSet Cond.offset (children h as) <;> rfl
  have fin : ∀ op : String, (match appendCondition h {} op as with
      | none => none
      | some (h, object) => some (h.alloc object)) = some (h', r) →
      ∃ x, h'[r]? = some x ∧
        x.selectField = lastSet Cond.selectField (children h as) ∧
        x.omitField = lastSet Cond.omitField (children h as) ∧
        x.limit = lastSet Cond.limit (children h as) ∧
        x.offset = lastSet Cond.offset (children h as) ∧
        x.order = Value.null := by
    intro op e1
    cases ha : appendCondition h {} op as with
    | none => rw [ha] at e1; cases e1
    | some res =>
      obtain ⟨h1, x⟩ := res
      rw [ha] at e1
      simp only [Option.some.injEq, Heap.alloc, Prod.mk.injEq] at e1
      obtain ⟨rfl, rfl⟩ := e1
      exact ⟨x, by simp, key op h1 x ha⟩
  rcases e with e | e
  · exact fin " AND " e
  · exact fin " OR " e

/-- C28, the code at the failing input: `And(Limit(5), Order("id desc"),
Equal("a", 1))` returns a predicate with the limit 5 and without order (nil),
so `Cond.Build` on it emits the filter and the limit and no order, although
the child `Order("id desc")` sets the order; `Or` does the same. -/
theorem C28_order_is_not_carried :
    ∃ h r x, And modifierHeap [0, 1, 2] = some (h, r) ∧ h[r]? = some x ∧
      x.limit = some 5 ∧ x.order = Value.null ∧
      (children modifierHeap [0, 1, 2]).map Cond.order =
        [Value.null, Value.str "id desc", Value.null] ∧
      x.Build [] = [Op.Where "a = ?" [Value.num 1], Op.Limit 5] ∧
      ∃ h2 r2 x2, Or modifierHeap [0, 1, 2] = some (h2, r2) ∧ h2[r2]? = some x2 ∧
        x2.limit = some 5 ∧ x2.order = Value.null :=
  ⟨_, _, _, rfl, rfl, rfl, rfl, rfl, rfl, _, _, _, rfl, rfl, rfl, rfl⟩

/-! ## Placeholders and parameters stay in step -/

theorem placeholders_append (a b : String) :
    placeholders (a ++ b) = placeholders a + placeholders b := by
  simp [placeholders, String.toList, String.data_append, List.count_append]

theorem placeholders_field {field : String} (h : '?' ∉ field.toList) :
    placeholders field = 0 :=
  List.count_eq_zero.mpr h

theorem placeholders_wrapQuery (q : String) : placeholders (wrapQuery q) = placeholders q := by
  have h1 : placeholders "(" = 0 := by decide
  have h2 : placeholders ")" = 0 := by decide
  simp only [wrapQuery, placeholders_append, h1, h2]
  omega

theorem factoryLeaf_balanced {c : Cond} (h : FactoryLeaf c) :
    placeholders c.query = c.params.length := by
  have e1 : placeholders " = ?" = 1 := by decide
  have e2 : placeholders " <> ?" = 1 := by decide
  have e3 : placeholders " > ?" = 1 := by decide
  have e4 : placeholders " >= ?" = 1 := by decide
  have e5 : placeholders " < ?" = 1 := by decide
  have e6 : placeholders " <= ?" = 1 := by decide
  have e7 : placeholders " LIKE ?" = 1 := by decide
  have e8 : placeholders " NOT LIKE ?" = 1 := by decide
  have e9 : placeholders " IN (?)" = 1 := by decide
  have e10 : placeholders " NOT IN (?)" = 1 := by decide
  have e11 : placeholders " IS NULL" = 0 := by decide
  have e12 : placeholders " IS NOT NULL" = 0 := by decide
  have e13 : placeholders " BETWEEN ? AND ?" = 2 := by decide
  have e14 : placeholders "NOT BETWEEN ? AND ?" = 2 := by decide
  cases h with
  | equal f v hf => simp [Equal, placeholders_append, placeholders_field hf, e1]
  | notEqual f v hf => simp [NotEqual, placeholders_append, placeholders_field hf, e2]
  | greaterThan f v hf => simp [GreaterThan, placeholders_append, placeholders_field hf, e3]
  | greaterEqualThan f v hf =>
    simp [GreaterEqualThan, placeholders_append, placeholders_field hf, e4]
  | lessThan f v hf => simp [LessThan, placeholders_append, placeholders_field hf, e5]
  | lessEqualThan f v hf => simp [LessEqualThan, placeholders_append, placeholders_field hf, e6]
  | like f v hf => simp [Like, placeholders_append, placeholders_field hf, e7]
  | notLike f v hf => simp [NotLike, placeholders_append, placeholders_field hf, e8]
  | isIn f v vs hf => simp [In, placeholders_append, placeholders_field hf, e9]
  | notIn f v vs hf => simp [NotIn, placeholders_append, placeholders_field hf, e10]
  | isNull f hf => simp [IsNull, placeholders_append, placeholders_field hf, e11]
  | isNotNull f hf => simp [IsNotNull, placeholders_append, placeholders_field hf, e12]
  | between f l u hf => simp [Between, placeholders_append, placeholders_field hf, e13]
  | notBetween f l u hf => simp [NotBetween, placeholders_append, placeholders_field hf, e14]

/-- The loop of `appendCondition` keeps the placeholders of the text built
so far in step with the parameters collected so far, and the predicates of
the heap in step too, whatever the children are. -/
theorem appendLoop_balanced (op : String) (hop : placeholders op = 0) (as : List Nat) :
    ∀ (h : Heap) (x : Cond) (b : String) (h' : Heap) (x' : Cond) (b' : String),
      (∀ c ∈ h, placeholders c.query = c.params.length) →
      placeholders b = x.params.length →
      appendLoop op h x b as = some (h', x', b') →
      (∀ c ∈ h', placeholders c.query = c.params.length) ∧
        placeholders b' = x'.params.length := by
  induction as with
  | nil =>
    intro h x b h' x' b' hh hb e
    simp only [appendLoop, Option.some.injEq, Prod.mk.injEq] at e
    obtain ⟨rfl, rfl, rfl⟩ := e
    exact ⟨hh, hb⟩
  | cons a as ih =>
    intro h x b h' x' b' hh hb e
    simp only [appendLoop] at e
    cases hget : h[a]? with
    | none => simp [hget] at e
    | some c =>
      simp only [hget] at e
      have hc : placeholders c.query = c.params.length := hh c (List.getElem?_mem hget)
      split at e
      · refine ih _ _ _ _ _ _ ?_ ?_ e
        · intro d hd
          rcases List.mem_or_eq_of_mem_set hd with h1 | h1
          · exact hh d h1
          · rw [h1]; split
            · simpa [placeholders_wrapQuery] using hc
            · exact hc
        · have hq : placeholders (if needsWrap op c = true then
              { c with query := wrapQuery c.query } else c).query = c.params.length := by
            split
            · simpa [placeholders_wrapQuery] using hc
            · exact hc
          have hpar : (if needsWrap op c = true then
              { c with query := wrapQuery c.query } else c).params = c.params := by
            split <;> rfl
          simp only [placeholders_append, hq, hpar, List.length_append, copyModifiers_params]
          split
          · rw [placeholders_append, hop, hb]; omega
          · rw [hb]
      · exact ih _ _ _ _ _ _ hh (by rw [copyModifiers_params]; exact hb) e

theorem appendCondition_balanced (op : String) (hop : placeholders op = 0) (h : Heap)
    (as : List Nat) (h' : Heap) (x : Cond)
    (hh : ∀ c ∈ h, placeholders c.query = c.params.length)
    (e : appendCondition h {} op as = some (h', x)) :
    (∀ c ∈ h', placeholders c.query = c.params.length) ∧
      placeholders x.query = x.params.length := by
  have h0 : isEmptyString "" = true := by decide
  simp only [appendCondition, h0, Bool.not_true, Bool.and_false, Bool.false_and,
    Bool.false_eq_true, if_false] at e
  cases hl : appendLoop op h { operator := op } "" as with
  | none => rw [hl] at e; cases e
  | some res =>
    obtain ⟨h2, x2, b2⟩ := res
    rw [hl] at e
    simp only [Option.some.injEq, Prod.mk.injEq] at e
    obtain ⟨rfl, rfl⟩ := e
    have hb0 : placeholders "" = ({ operator := op } : Cond).params.length := rfl
    exact appendLoop_balanced op hop as h { operator := op } "" h2 x2 b2 hh hb0 hl

theorem alloc_balanced (h : Heap) (x : Cond)
    (hh : ∀ c ∈ h, placeholders c.query = c.params.length)
    (hx : placeholders x.query = x.params.length) :
    ∀ c ∈ (h.alloc x).1, placeholders c.query = c.params.length := by
  intro c hc
  simp only [Heap.alloc, List.mem_append, List.mem_singleton] at hc
  rcases hc with h1 | h1
  · exact hh c h1
  · rw [h1]; exact hx

/-- C25: in every heap reached by calls of the fourteen leaf factories (on
field names without `?`), of `And`, of `Or` and of `Not`, in any order and on
any predicates made so far, every predicate has as many `?` placeholders in
its fragment as it has parameters. -/
theorem C25_placeholders_match_parameters (h : Heap) (hc : Composed h) :
    ∀ c ∈ h, placeholders c.query = c.params.length := by
  induction hc with
  | empty => intro c hc; simp at hc
  | leaf h c _ hl ih => exact alloc_balanced h c ih (factoryLeaf_balanced hl)
  | and h as h' r _ e ih =>
    simp only [And] at e
    cases ha : appendCondition h {} " AND " as with
    | none => rw [ha] at e; cases e
    | some res =>
      obtain ⟨h1, x⟩ := res
      rw [ha] at e
      simp only [Option.some.injEq] at e
      obtain ⟨g1, g2⟩ := appendCondition_balanced " AND " (by decide) h as h1 x ih ha
      have := alloc_balanced h1 x g1 g2
      rw [e] at this
      exact this
  | or h as h' r _ e ih =>
    simp only [Or] at e
    cases ha : appendCondition h {} " OR " as with
    | none => rw [ha] at e; cases e
    | some res =>
      obtain ⟨h1, x⟩ := res
      rw [ha] at e
      simp only [Option.some.injEq] at e
      obtain ⟨g1, g2⟩ := appendCondition_balanced " OR " (by decide) h as h1 x ih ha
      have := alloc_balanced h1 x g1 g2
      rw [e] at this
      exact this
  | not h a h' r _ e ih =>
    simp only [Not] at e
    cases hg : h[a]? with
    | none => rw [hg] at e; cases e
    | some c =>
      rw [hg] at e
      simp only [Option.some.injEq] at e
      have hcb := ih c (List.getElem?_mem hg)
      have hx : placeholders (Cond.not
          { query := c.query, params := c.params, operator := c.operator }).query =
          (Cond.not { query := c.query, params := c.params, operator := c.operator }).params.length := by
        have h1 : placeholders "NOT(" = 0 := by decide
        have h2 : placeholders ")" = 0 := by decide
        simp only [Cond.not, placeholders_append, h1, h2, hcb]
        omega
      have := alloc_balanced h _ ih hx
      rw [e] at this
      exact this

/-- C25 on `p = And(In("id", 1, 2), Between("age", "1", "9"))` and `Or(p, p)`:
the fragment of the latter has six placeholders and six parameters. -/
theorem C25_placeholders_match_parameters_witness :
    ∃ h3 h4, And factoryHeap [0, 1] = some (h3, 2) ∧ Or h3 [2, 2] = some (h4, 3) ∧
      (∀ c ∈ h4, placeholders c.query = c.params.length) ∧
      (h4[3]?).map Cond.query = some
        "(id IN (?) AND age BETWEEN ? AND ?) OR ((id IN (?) AND age BETWEEN ? AND ?))" ∧
      (h4[3]?).map (fun c => c.params.length) = some 6 :=
  ⟨_, _, rfl, rfl,
    C25_placeholders_match_parameters _
      (Composed.or _ [2, 2] _ 3
        (Composed.and factoryHeap [0, 1] _ 2
          (Composed.leaf [In "id" (Value.num 1) [Value.num 2]] (Between "age" "1" "9")
            (Composed.leaf [] (In "id" (Value.num 1) [Value.num 2]) Composed.empty
              (FactoryLeaf.isIn "id" _ _ (by decide)))
            (FactoryLeaf.between "age" "1" "9" (by decide)))
          rfl)
        rfl),
    by decide, by decide⟩

/-! ## A raw fragment that is a disjunction -/

/-- C29 as stated fails: `And(Raw("a OR b"), IsNull("c"))` renders "a OR b AND
c IS NULL", and with `a` true and `c IS NULL` false that text, read with AND
before OR, is true, whereas (a OR b) AND (c IS NULL) is false. -/
theorem C29_counterexample :
    fragmentOf (And [Raw "a OR b" [], IsNull "c"] [0, 1]) = some "a OR b AND c IS NULL" ∧
    readFragment (fun ws => ws == ["a"]) "a OR b AND c IS NULL" = some true ∧
    (((fun ws : List String => ws == ["a"]) ["a"] ||
        (fun ws : List String => ws == ["a"]) ["b"]) &&
      (fun ws : List String => ws == ["a"]) ["c", "IS", "NULL"]) = false :=
  ⟨by decide, by decide, by decide⟩

/-- C29, amended: for atomic conditions `a`, `b` and a leaf predicate `p` with
an atomic fragment, `And(Raw(a OR b), p)` renders the raw text as it stands,
without parentheses, followed by " AND " and the fragment of `p`; read with
AND before OR, that text denotes a OR (b AND p). -/
theorem C29_raw_disjunction_is_not_grouped (h : Heap) (i j : Nat) (a b : String)
    (ps : List Value) (p : Cond) (ha : atomicFragment a = true) (hb : atomicFragment b = true)
    (hp : atomicFragment p.query = true) (hop : p.operator = "") (hij : i ≠ j)
    (hi : h[i]? = some (Raw (a ++ " OR " ++ b) ps)) (hj : h[j]? = some p) :
    fragmentOf (And h [i, j]) = some (a ++ " OR " ++ b ++ " AND " ++ p.query) ∧
    paramsOf (And h [i, j]) = some (ps ++ p.params) ∧
    ∀ ρ, readFragment ρ (a ++ " OR " ++ b ++ " AND " ++ p.query) =
      some (ρ (atomWords a) || (ρ (atomWords b) && ρ (atomWords p.query))) := by
  have ta := tokens_of_atomic ha
  have tb := tokens_of_atomic hb
  have tp := tokens_of_atomic hp
  have tq : tokens (a ++ " OR " ++ b ++ " AND " ++ p.query) =
      [Tok.atom (atomWords a), Tok.or, Tok.atom (atomWords b), Tok.and,
        Tok.atom (atomWords p.query)] := by
    rw [tokens_join_and, tokens_join_or, ta, tb, tp]; rfl
  have hlt : ∀ (k : Nat) (c : Cond), h[k]? = some c → k < h.length := by
    intro k c hk
    rcases Nat.lt_or_ge k h.length with h1 | h1
    · exact h1
    · rw [List.getElem?_eq_none h1] at hk; cases hk
  have nb1 : isEmptyString (a ++ " OR " ++ b) = false := by
    apply not_blank_of_tokens
    rw [tokens_join_or, ta]; simp
  have nb2 : isEmptyString p.query = false := by
    apply not_blank_of_tokens
    rw [tp]; simp
  have hch : children h [i, j] = [Raw (a ++ " OR " ++ b) ps, p] := by
    simp [children, hi, hj]
  have h0 : isEmptyString "" = true := by decide
  have f1 : childFragment " AND " (Raw (a ++ " OR " ++ b) ps) = a ++ " OR " ++ b := by
    simp [childFragment, needsWrap, Raw, h0]
  have f2 : childFragment " AND " p = p.query := by
    simp [childFragment, needsWrap, hop, h0]
  obtain ⟨⟨h1, x1, e1, hl1, -, hq1, hp1, -⟩, -⟩ :=
    And_Or_distinct h [i, j]
      (by
        intro k hk
        simp only [List.mem_cons, List.mem_singleton, List.not_mem_nil, or_false] at hk
        rcases hk with rfl | rfl
        · exact hlt _ _ hi
        · exact hlt _ _ hj)
      (by simp [hij])
  have hco : contributing [Raw (a ++ " OR " ++ b) ps, p] = [Raw (a ++ " OR " ++ b) ps, p] := by
    have r1 : isEmptyString (Raw (a ++ " OR " ++ b) ps).query = false := nb1
    simp [contributing, List.filter_cons, r1, nb2]
  rw [hch, hco] at hq1 hp1
  refine ⟨?_, ?_, fun ρ => ?_⟩
  · rw [e1]
    simp [fragmentOf, ← hl1, hq1, f1, f2, String.intercalate, String.intercalate.go]
  · rw [e1]
    simp [paramsOf, ← hl1, hp1, Raw]
  · unfold readFragment readFragmentAt
    rw [tq]
    simp [Reader.run, Reader.step, Level.value]

/-- C29, amended, on `And(Raw("a OR b"), IsNull("c"))`: the fragment is "a OR
b AND c IS NULL" and it denotes a OR (b AND c IS NULL). -/
theorem C29_raw_disjunction_is_not_grouped_witness :
    fragmentOf (And [Raw "a OR b" [], IsNull "c"] [0, 1]) = some "a OR b AND c IS NULL" ∧
    ∀ ρ, readFragment ρ "a OR b AND c IS NULL" =
      some (ρ ["a"] || (ρ ["b"] && ρ ["c", "IS", "NULL"])) := by
  have h := C29_raw_disjunction_is_not_grouped [Raw "a OR b" [], IsNull "c"] 0 1 "a" "b" []
    (IsNull "c") (by decide) (by decide) (by decide) rfl (by decide) rfl rfl
  exact ⟨h.1, h.2.2⟩

end querybuilder
